import Mathlib

/-!
Verification of the diagram-converter core (Mermaid text → positioned
cell-graph markup).  The JavaScript source is shallowly embedded: JS strings
become `List Char`, the permissive regex-based line parsers become total Lean
functions that mirror the regexes' effective matching (the character classes
involved make the regexes deterministic on their alternatives), JS `Map`s
become insertion-ordered association lists, and the one place the source can
throw (`parseGitGraph` dereferencing `branches.get(currentBranch)` for a
branch that was never created) is modelled with `Option`.
-/

/-- Strings are modelled as lists of characters (JS strings are character
sequences; all inputs of interest are ASCII). -/
abbrev Str := List Char

/-- Coerce a Lean string literal to the `List Char` model. -/
def str (s : String) : Str := s.data

/-- Whitespace test matching JS `\s` / `trim` on the ASCII range. -/
def isWhite (c : Char) : Bool :=
  c = ' ' || c = '\t' || c = '\n' || c = '\r' || c = '\x0b' || c = '\x0c'

/-- Word-character test matching the JS regex class `\w` = `[A-Za-z0-9_]`. -/
def isWordChar (c : Char) : Bool :=
  ('a' ≤ c && c ≤ 'z') || ('A' ≤ c && c ≤ 'Z') || ('0' ≤ c && c ≤ '9') || c = '_'

/-- ASCII lower-casing of one character, as JS `toLowerCase` acts on ASCII. -/
def toLowerChar (c : Char) : Char :=
  if 'A' ≤ c && c ≤ 'Z' then Char.ofNat (c.toNat + 32) else c

/-- ASCII lower-casing of a string (JS `String.prototype.toLowerCase`). -/
def toLower (l : Str) : Str := l.map toLowerChar

/-- Left trim: drop leading whitespace. -/
def trimLeft (l : Str) : Str := l.dropWhile isWhite

/-- Full trim (JS `String.prototype.trim`): drop whitespace at both ends. -/
def trim (l : Str) : Str := ((l.dropWhile isWhite).reverse.dropWhile isWhite).reverse

/-- Split on newline characters (JS `split('\n')`); always returns at least
one (possibly empty) segment, like JS. -/
def splitLines : Str → List Str
  | [] => [[]]
  | c :: rest =>
    if c = '\n' then [] :: splitLines rest
    else
      match splitLines rest with
      | [] => [[c]]
      | l :: ls => (c :: l) :: ls

/-- Decimal digit character for `d` (used for the generated numeric ids). -/
def digitChar (d : ℕ) : Char := Char.ofNat (48 + d)

/-- Fuel-indexed decimal rendering; `fuel` bounds the number of digits so the
definition is structural and kernel-reducible. -/
def toDecAux : ℕ → ℕ → Str
  | 0, _ => []
  | fuel + 1, n =>
    if n < 10 then [digitChar n]
    else toDecAux fuel (n / 10) ++ [digitChar (n % 10)]

/-- Decimal rendering of a natural number (JS number-to-string for the
counter-generated ids such as `c0`, `node3`, `e2`). -/
def toDec (n : ℕ) : Str := toDecAux (n + 1) n

/-- Substring test (JS `String.prototype.includes`). -/
def containsSub (l pat : Str) : Bool :=
  match l with
  | [] => pat.isEmpty
  | _ :: rest => pat.isPrefixOf l || containsSub rest pat

/-- Test whether `pat` begins `l` (JS `startsWith`). -/
def startsWithS (l pat : Str) : Bool := pat.isPrefixOf l

/-- Test whether `pat` ends `l` (JS `endsWith`). -/
def endsWithS (l pat : Str) : Bool := pat.reverse.isPrefixOf l.reverse

/-- First line of the trimmed input: `input.trim().split('\n')[0]`. -/
def firstLineOf (l : Str) : Str := (trim l).takeWhile (fun c => c ≠ '\n')

/-- Diagram-type detection (`detectDiagramType`): lower-case the first line of
the trimmed input and test the dialect keywords in fixed precedence order
(gitgraph before the generic `graph`). -/
def detectDiagramType (mermaidCode : Str) : Str :=
  let firstLine := toLower (firstLineOf mermaidCode)
  if containsSub firstLine (str "gitgraph") then str "gitgraph"
  else if containsSub firstLine (str "erdiagram") then str "erDiagram"
  else if containsSub firstLine (str "sequencediagram") then str "sequence"
  else if containsSub firstLine (str "classdiagram") then str "class"
  else if containsSub firstLine (str "mindmap") then str "mindmap"
  else if containsSub firstLine (str "flowchart") || containsSub firstLine (str "graph")
    then str "flowchart"
  else str "unknown"

/-- Single-character global replace: JS `str.replace(/c/g, r)` (the five
`escapeXML` passes all replace one-character patterns). -/
def repChar (c : Char) (r : Str) (l : Str) : Str :=
  l.flatMap (fun x => if x = c then r else [x])

/-- XML escaping (`escapeXML`): the five sequential global replaces of the
source, ampersand first. -/
def escapeXML (l : Str) : Str :=
  repChar '\'' (str "&apos;")
    (repChar '"' (str "&quot;")
      (repChar '>' (str "&gt;")
        (repChar '<' (str "&lt;")
          (repChar '&' (str "&amp;") l))))

/-- Modelled from the spec: decoding of the five XML entities produced by
`escapeXML` (the source contains no decoder; §8 "when the five entities are
decoded" defines it).  A single left-to-right pass replaces each entity by its
character; `&amp;` is listed after the longer-prefixed `&apos;`-style checks
are distinguished by their second character. -/
def decodeEntities : Str → Str
  | [] => []
  | c :: rest =>
    if c = '&' then
      if startsWithS rest (str "amp;") then '&' :: decodeEntities (rest.drop 4)
      else if startsWithS rest (str "lt;") then '<' :: decodeEntities (rest.drop 3)
      else if startsWithS rest (str "gt;") then '>' :: decodeEntities (rest.drop 3)
      else if startsWithS rest (str "quot;") then '"' :: decodeEntities (rest.drop 5)
      else if startsWithS rest (str "apos;") then '\'' :: decodeEntities (rest.drop 5)
      else c :: decodeEntities rest
    else c :: decodeEntities rest
termination_by l => l.length
decreasing_by all_goals (simp only [List.length_cons, List.length_drop]; omega)

/-- Per-character escaping table; `escapeXML` is proved equal to its pointwise
extension. -/
def escChar (c : Char) : Str :=
  if c = '&' then str "&amp;"
  else if c = '<' then str "&lt;"
  else if c = '>' then str "&gt;"
  else if c = '"' then str "&quot;"
  else if c = '\'' then str "&apos;"
  else [c]

/-- ASCII upper-casing of one character (JS `toUpperCase` on ASCII). -/
def toUpperChar (c : Char) : Char :=
  if 'a' ≤ c && c ≤ 'z' then Char.ofNat (c.toNat - 32) else c

/-- ASCII upper-casing of a string. -/
def toUpper (l : Str) : Str := l.map toUpperChar

/-- Lazy bracket group `open .*? close` with no continuation after it in the
pattern: consume the opening character and the shortest run up to the first
closing character, returning the full matched group and the remainder.  (When
nothing follows the group in the regex, the engine never widens the lazy
`.*?`, so the first close wins; lazy groups that do have a continuation are
handled by `widenings` below.) -/
def lazyGroup (openC closeC : Char) (l : Str) : Option (Str × Str) :=
  match l with
  | [] => none
  | c :: rest =>
    if c = openC then
      match rest.dropWhile (fun x => x ≠ closeC) with
      | closer :: rest2 => some (c :: rest.takeWhile (fun x => x ≠ closeC) ++ [closer], rest2)
      | [] => none
    else none

/-- The three-alternative shape group `\[.*?\]|\(.*?\)|\{.*?\}` in a position
with no continuation (the trailing target shape of the edge regex and the
standalone-node regex, whose patterns end right after the group).  (In the
standalone-node regex the three further double-bracket alternatives are
listed after these and can never win: they only match when a single-bracket
alternative already matches earlier.) -/
def tryShape3 (l : Str) : Option (Str × Str) :=
  match lazyGroup '[' ']' l with
  | some r => some r
  | none =>
    match lazyGroup '(' ')' l with
    | some r => some r
    | none => lazyGroup '{' '}' l

/-- Shape tag from the matched bracket group (`detectShape`). -/
def detectShape : Option Str → Str
  | none => str "[]"
  | some s =>
    if startsWithS s (str "([") && endsWithS s (str "])") then str "([])"
    else if startsWithS s (str "((") && endsWithS s (str "))") then str "(())"
    else if startsWithS s (str "[[") && endsWithS s (str "]]") then str "[[]]"
    else if startsWithS s (str "[") && endsWithS s (str "]") then str "[]"
    else if startsWithS s (str "(") && endsWithS s (str ")") then str "()"
    else if startsWithS s (str "\x7b") && endsWithS s (str "\x7d") then str "\x7b\x7d"
    else str "[]"

/-- Remove all bracket characters (`replace(/[\[\](){}]/g, '')`). -/
def removeBrackets (l : Str) : Str :=
  l.filter (fun c => !(c = '[' || c = ']' || c = '(' || c = ')' || c = '{' || c = '}'))

/-- Node label from a bracket group: `slice(1, -1)` then bracket removal. -/
def shapeInner (s : Str) : Str := removeBrackets ((s.drop 1).dropLast)

/-- Label extraction for standalone nodes (`extractLabel`): strip leading and
trailing non-word runs, then remove brackets. -/
def extractLabel (shapeStr : Str) : Str :=
  let a := shapeStr.dropWhile (fun c => !isWordChar c)
  removeBrackets ((a.reverse.dropWhile (fun c => !isWordChar c)).reverse)

/-- Direction declaration (`^(?:flowchart|graph)\s+(TD|TB|LR|RL|BT)/i`),
returning the captured direction upper-cased. -/
def matchDirection (l : Str) : Option Str :=
  let low := toLower l
  let rest? : Option Str :=
    if startsWithS low (str "flowchart") then some (l.drop 9)
    else if startsWithS low (str "graph") then some (l.drop 5)
    else none
  match rest? with
  | none => none
  | some rest =>
    if (rest.takeWhile isWhite).isEmpty then none
    else
      let r2 := rest.dropWhile isWhite
      let d := r2.take 2
      let dl := toLower d
      if dl = str "td" || dl = str "tb" || dl = str "lr" || dl = str "rl" || dl = str "bt"
      then some (toUpper d) else none

/-- One of the four connector glyphs (`-->|---|-\.->|==>`), in the regex's
alternation order.  The four alternatives are pairwise exclusive at any one
position, so the engine's in-order trial needs no backtracking here. -/
def matchArrow (l : Str) : Option (Str × Str) :=
  if startsWithS l (str "-->") then some (str "-->", l.drop 3)
  else if startsWithS l (str "---") then some (str "---", l.drop 3)
  else if startsWithS l (str "-.->") then some (str "-.->", l.drop 4)
  else if startsWithS l (str "==>") then some (str "==>", l.drop 3)
  else none

/-- All expansions of a lazy run `.*?` up to a closing character: for each
occurrence of the closer, the consumed characters (closer included) and the
remainder, shortest first — the order in which the regex engine widens a lazy
group when the rest of the pattern fails to match. -/
def widenings (closeC : Char) : Str → List (Str × Str)
  | [] => []
  | c :: rest =>
    let tail := (widenings closeC rest).map (fun p => (c :: p.1, p.2))
    if c = closeC then ([c], rest) :: tail else tail

/-- Candidates of one bracket-group alternative `open .*? close` at the head
of `l`, shortest first; each candidate is the full matched group (brackets
included) and the remainder. -/
def groupCands (openC closeC : Char) (l : Str) : List (Str × Str) :=
  match l with
  | [] => []
  | c :: rest =>
    if c = openC then (widenings closeC rest).map (fun p => (c :: p.1, p.2))
    else []

/-- Candidates of the optional source-shape group
`(\[.*?\]|\(.*?\)|\{.*?\})?` in the engine's backtracking order: the bracket
family selected by the head character (the three alternatives open with
distinct characters, so at most one family contributes), widened shortest
first, then the group left absent (`?` is greedy: present is preferred). -/
def shapeCands (l : Str) : List (Option Str × Str) :=
  ((groupCands '[' ']' l ++ groupCands '(' ')' l ++ groupCands '\x7b' '\x7d' l).map
    (fun p => (some p.1, p.2))) ++ [(none, l)]

/-- Candidates of the optional label group `(\|.*?\|)?`, widened shortest
first, then absent. -/
def labelCands (l : Str) : List (Option Str × Str) :=
  ((groupCands '|' '|' l).map (fun p => (some p.1, p.2))) ++ [(none, l)]

/-- First candidate on which the continuation succeeds: the backtracking
search of the regex engine over a component's candidate list. -/
def firstSome {α β : Type} (f : α → Option β) : List α → Option β
  | [] => none
  | x :: rest =>
    match f x with
    | some r => some r
    | none => firstSome f rest

/-- Captures of the flowchart edge regex. -/
structure EdgeMatch where
  srcId : Str
  srcShape : Option Str
  arrow : Str
  label : Option Str
  tgtId : Str
  tgtShape : Option Str
deriving DecidableEq

/-- Edge line match: `^(\w+)(shape)?(\s*)ARROW(\|.*?\|)?(\s*)(\w+)(shape)?`,
with the engine's backtracking.  The leading `(\w+)` is forced to the maximal
word run (every later component starts with a non-word character), the source
shape and the label are lazy groups with a continuation and so widen to a
later closer when the rest of the pattern fails, the `(\s*)` gaps are forced
(arrows and ids start with non-space characters), and the trailing target
shape has no continuation and takes the first close. -/
def matchEdgeLine (l : Str) : Option EdgeMatch :=
  let id1 := l.takeWhile isWordChar
  if id1.isEmpty then none
  else
    let r1 := l.dropWhile isWordChar
    firstSome (fun p1 =>
      let r3 := p1.2.dropWhile isWhite
      match matchArrow r3 with
      | none => none
      | some ar =>
        firstSome (fun p2 =>
          let r6 := p2.2.dropWhile isWhite
          let id2 := r6.takeWhile isWordChar
          if id2.isEmpty then none
          else
            let r7 := r6.dropWhile isWordChar
            some ⟨id1, p1.1, ar.1, p2.1, id2, (tryShape3 r7).map Prod.fst⟩)
          (labelCands ar.2))
      (shapeCands r1)

/-- Standalone node match: `^(\w+)(shape)` (see `tryShape3` for the dead
double-bracket alternatives). -/
def matchNodeLine (l : Str) : Option (Str × Str) :=
  let id := l.takeWhile isWordChar
  if id.isEmpty then none
  else (tryShape3 (l.dropWhile isWordChar)).map (fun p => (id, p.1))

/-- Canonical flowchart node. -/
structure FlowNode where
  id : Str
  label : Str
  shape : Str
deriving DecidableEq

/-- Canonical flowchart edge. -/
structure FlowEdge where
  source : Str
  target : Str
  label : Option Str
deriving DecidableEq

/-- Canonical flowchart model (`parseFlowchart`'s result). -/
structure FlowModel where
  nodes : List FlowNode
  edges : List FlowEdge
  direction : Str
deriving DecidableEq

/-- Membership test of the insertion-ordered node map (`nodes.has`). -/
def hasNode (ns : List FlowNode) (i : Str) : Bool := ns.any (fun n => n.id = i)

/-- JS `Map.set`: replace in place if the key exists, else append. -/
def setNode (ns : List FlowNode) (n : FlowNode) : List FlowNode :=
  match ns with
  | [] => [n]
  | m :: rest => if m.id = n.id then n :: rest else m :: setNode rest n

/-- Processing of one flowchart line: direction, then edge, then standalone
node; anything else is silently skipped. -/
def flowStep (st : FlowModel) (line : Str) : FlowModel :=
  let trimmed := trim line
  match matchDirection trimmed with
  | some d => { st with direction := d }
  | none =>
    match matchEdgeLine trimmed with
    | some em =>
      let nodes1 :=
        if hasNode st.nodes em.srcId then st.nodes
        else st.nodes ++
          [⟨em.srcId,
            (match em.srcShape with | some s => shapeInner s | none => em.srcId),
            detectShape em.srcShape⟩]
      let nodes2 :=
        if hasNode nodes1 em.tgtId then nodes1
        else nodes1 ++
          [⟨em.tgtId,
            (match em.tgtShape with | some s => shapeInner s | none => em.tgtId),
            detectShape em.tgtShape⟩]
      { st with
        nodes := nodes2
        edges := st.edges ++ [⟨em.srcId, em.tgtId, em.label.map (fun s => (s.drop 1).dropLast)⟩] }
    | none =>
      match matchNodeLine trimmed with
      | some (i, shp) => { st with nodes := setNode st.nodes ⟨i, extractLabel shp, detectShape shp⟩ }
      | none => st

/-- Flowchart dialect parsing (`parseFlowchart`). -/
def parseFlowchart (mermaidCode : Str) : FlowModel :=
  (splitLines (trim mermaidCode)).foldl flowStep ⟨[], [], str "TD"⟩

example :
    parseFlowchart (str "flowchart TD\nA[Start] --> B\x7bCheck\x7d\nB -->|Yes| C[Done]") =
      ⟨[⟨str "A", str "Start", str "[]"⟩, ⟨str "B", str "Check", str "\x7b\x7d"⟩,
        ⟨str "C", str "Done", str "[]"⟩],
       [⟨str "A", str "B", none⟩, ⟨str "B", str "C", some (str "Yes")⟩],
       str "TD"⟩ := by decide

/-- Association-list lookup (JS `Map.get` over insertion-ordered entries). -/
def alookup {α : Type} : List (Str × α) → Str → Option α
  | [], _ => none
  | (k, v) :: rest, key => if k = key then some v else alookup rest key

/-- Kind of a serialized mxCell: vertex or edge. -/
inductive CellKind where
  | vertex
  | edge
deriving DecidableEq

/-- Integer cell geometry `{x, y, width, height}` (all non-mindmap layouts
compute integer coordinates). -/
structure Geom where
  x : ℤ
  y : ℤ
  w : ℤ
  h : ℤ
deriving DecidableEq

/-- Exit/entry connection-point fractions emitted in edge styles
(`exitX=..;exitY=..;entryX=..;entryY=..`). -/
structure Route where
  ex : ℚ
  ey : ℚ
  nx : ℚ
  ny : ℚ
deriving DecidableEq

/-- Serialized mxCell, abstracting the XML fragment: identifier, escaped
value, vertex/edge kind, edge endpoints, geometry, explicit source/target
points (sequence messages) and connection-point routing.  Style strings are
colour/shape presentation only and are not modelled. -/
structure Cell (γ : Type) where
  id : Str
  value : Option Str
  kind : CellKind
  source : Option Str
  target : Option Str
  geom : Option γ
  srcPt : Option (ℤ × ℤ)
  tgtPt : Option (ℤ × ℤ)
  route : Option Route
deriving DecidableEq

/-- Vertex cell with geometry. -/
def vcell {γ : Type} (i : Str) (v : Option Str) (g : Option γ) : Cell γ :=
  ⟨i, v, CellKind.vertex, none, none, g, none, none, none⟩

/-- Edge cell connecting two cells by id. -/
def ecell {γ : Type} (i : Str) (v : Option Str) (s t : Str) (r : Option Route) : Cell γ :=
  ⟨i, v, CellKind.edge, some s, some t, none, none, none, r⟩

/-- Number of edge cells in a serialized cell list. -/
def countEdges {γ : Type} (cells : List (Cell γ)) : ℕ :=
  (cells.filter (fun c => c.kind = CellKind.edge)).length

/-- Number of vertex cells in a serialized cell list. -/
def countVertices {γ : Type} (cells : List (Cell γ)) : ℕ :=
  (cells.filter (fun c => c.kind = CellKind.vertex)).length

/-- Ids of the vertex cells of a serialized cell list, in emission order. -/
def vertexIds {γ : Type} (cells : List (Cell γ)) : List Str :=
  (cells.filter (fun c => c.kind = CellKind.vertex)).map Cell.id

/-- No character of any of the given names is an underscore.  Underscores in
user-chosen names are what lets a name collide with a generator-constructed
child-cell id such as `X_attr0`. -/
def underscoreFree (names : List Str) : Bool :=
  names.all (fun n => ! n.any (fun c => c = '_'))

/-- ER attribute: type, name, optional PK/FK/UK constraint. -/
structure ERAttr where
  typ : Str
  name : Str
  constraint : Option Str
deriving DecidableEq

/-- ER entity: name plus attributes in declaration order. -/
structure Entity where
  name : Str
  attributes : List ERAttr
deriving DecidableEq

/-- ER relationship with its two cardinality tokens and label. -/
structure ERRel where
  source : Str
  target : Str
  sourceCardinality : Str
  targetCardinality : Str
  label : Str
deriving DecidableEq

/-- Canonical ER model (`parseERDiagram`'s result). -/
structure ERModel where
  entities : List Entity
  relationships : List ERRel
deriving DecidableEq

/-- One of the seven 2-character cardinality tokens
(`\|\||o\||\|o|\}o|o\{|\}\||\|\{`); the alternatives are distinct two-character
literals, so each position matches at most one. -/
def matchCard (l : Str) : Option (Str × Str) :=
  let two := l.take 2
  if two = str "||" || two = str "o|" || two = str "|o" || two = str "\x7do" ||
     two = str "o\x7b" || two = str "\x7d|" || two = str "|\x7b"
  then some (two, l.drop 2) else none

/-- ER relationship line
(`^(\w+)\s+(CARD)\s*--\s*(CARD)\s+(\w+)\s*:\s*(.+)$`). -/
def matchERRel (l : Str) : Option ERRel :=
  let id1 := l.takeWhile isWordChar
  if id1.isEmpty then none
  else
    let r1 := l.dropWhile isWordChar
    if (r1.takeWhile isWhite).isEmpty then none
    else
      match matchCard (r1.dropWhile isWhite) with
      | none => none
      | some (c1, r2) =>
        let r3 := r2.dropWhile isWhite
        if startsWithS r3 (str "--") then
          match matchCard ((r3.drop 2).dropWhile isWhite) with
          | none => none
          | some (c2, r4) =>
            if (r4.takeWhile isWhite).isEmpty then none
            else
              let r5 := r4.dropWhile isWhite
              let id2 := r5.takeWhile isWordChar
              if id2.isEmpty then none
              else
                let r6 := (r5.dropWhile isWordChar).dropWhile isWhite
                match r6 with
                | ':' :: r7 =>
                  let lab := r7.dropWhile isWhite
                  if lab.isEmpty then none
                  else some ⟨id1, id2, c1, c2, trim lab⟩
                | _ => none
        else none

/-- Entity-block opening line (`^(\w+)\s*\{$`). -/
def matchEntityStart (l : Str) : Option Str :=
  let id := l.takeWhile isWordChar
  if id.isEmpty then none
  else if (l.dropWhile isWordChar).dropWhile isWhite = ['\x7b'] then some id
  else none

/-- Attribute line inside an entity block
(`^(\w+)\s+(\w+)(?:\s+(PK|FK|UK))?`; prefix match, no anchor at the end). -/
def matchERAttr (l : Str) : Option ERAttr :=
  let typ := l.takeWhile isWordChar
  if typ.isEmpty then none
  else
    let r1 := l.dropWhile isWordChar
    if (r1.takeWhile isWhite).isEmpty then none
    else
      let r2 := r1.dropWhile isWhite
      let nm := r2.takeWhile isWordChar
      if nm.isEmpty then none
      else
        let r3 := r2.dropWhile isWordChar
        let c :=
          if (r3.takeWhile isWhite).isEmpty then none
          else
            let two := (r3.dropWhile isWhite).take 2
            if two = str "PK" || two = str "FK" || two = str "UK" then some two else none
        some ⟨typ, nm, c⟩

/-- Membership test in the insertion-ordered entity map. -/
def hasEntity (es : List Entity) (n : Str) : Bool := es.any (fun e => e.name = n)

/-- Register an entity if it is not present yet (`if (!entities.has(..))`). -/
def addEntityIfAbsent (es : List Entity) (n : Str) : List Entity :=
  if hasEntity es n then es else es ++ [⟨n, []⟩]

/-- Append an attribute to the named entity
(`entities.get(currentEntity).attributes.push(..)`). -/
def pushAttr : List Entity → Str → ERAttr → List Entity
  | [], _, _ => []
  | e :: rest, n, a =>
    if e.name = n then { e with attributes := e.attributes ++ [a] } :: rest
    else e :: pushAttr rest n a

/-- Parser state for `parseERDiagram`. -/
structure ERState where
  entities : List Entity
  relationships : List ERRel
  currentEntity : Option Str
deriving DecidableEq

/-- Processing of one ER line: relationship, block start, block end, then
attribute (inside a block); anything else is silently skipped. -/
def erStep (st : ERState) (line : Str) : ERState :=
  let trimmed := trim line
  if trimmed = str "erDiagram" || trimmed = [] then st
  else
    match matchERRel trimmed with
    | some rel =>
      { st with
        entities := addEntityIfAbsent (addEntityIfAbsent st.entities rel.source) rel.target
        relationships := st.relationships ++ [rel] }
    | none =>
      match matchEntityStart trimmed with
      | some n =>
        { st with currentEntity := some n, entities := addEntityIfAbsent st.entities n }
      | none =>
        if trimmed = ['\x7d'] then { st with currentEntity := none }
        else
          match st.currentEntity with
          | some cur =>
            match matchERAttr trimmed with
            | some a => { st with entities := pushAttr st.entities cur a }
            | none => st
          | none => st

/-- ER dialect parsing (`parseERDiagram`). -/
def parseERDiagram (mermaidCode : Str) : ERModel :=
  let fin := (splitLines (trim mermaidCode)).foldl erStep ⟨[], [], none⟩
  ⟨fin.entities, fin.relationships⟩

example :
    parseERDiagram (str "erDiagram\nX ||--o\x7b Y : has") =
      ⟨[⟨str "X", []⟩, ⟨str "Y", []⟩],
       [⟨str "X", str "Y", str "||", str "o\x7b", str "has"⟩]⟩ := by decide

/-- Grid geometry of the `index`-th ER entity: `GRID_X = [40,440,840,1240]`
and `GRID_Y = [40,390,740,1090]` with the `GRID_X[0] + col*400` /
`GRID_Y[0] + row*350` fallbacks agree with the closed forms
`40 + 400*(i % 4)` and `40 + 350*(i / 4)`; height is `30 + attributes*22`
(the `|| 100` fallback is dead: `30 + 0` is truthy). -/
def erEntityGeom (index : ℕ) (e : Entity) : Geom :=
  ⟨40 + 400 * ((index % 4 : ℕ) : ℤ), 40 + 350 * ((index / 4 : ℕ) : ℤ),
   200, 30 + 22 * (e.attributes.length : ℤ)⟩

/-- Vertex cells of one ER entity: the swimlane container followed by one
child cell per attribute (`${entity.name}_attr${attrIndex}` at `y = 30+22*i`,
with the `type name CONSTRAINT` label). -/
def erEntityCellBlock (index : ℕ) (e : Entity) : List (Cell Geom) :=
  vcell e.name (some (escapeXML e.name)) (some (erEntityGeom index e)) ::
    e.attributes.enum.map (fun p =>
      vcell (e.name ++ str "_attr" ++ toDec p.1)
        (some (escapeXML (p.2.typ ++ [' '] ++ p.2.name ++
          (match p.2.constraint with | some c => ' ' :: c | none => []))))
        (some ⟨0, 30 + 22 * (p.1 : ℤ), 200, 22⟩))

/-- Entity-position map built while emitting entity cells
(`entityPositions.set(entity.name, ...)`). -/
def erPositions (es : List Entity) : List (Str × Geom) :=
  es.enum.map (fun p => (p.2.name, erEntityGeom p.1 p.2))

/-- Exit/entry connection points chosen from the two endpoints' relative grid
positions (`calculateERExitEntry`). -/
def calculateERExitEntry (srcPos tgtPos : Geom) : Route :=
  if |srcPos.y - tgtPos.y| < 50 then
    if srcPos.x < tgtPos.x then ⟨1, 1/2, 0, 1/2⟩ else ⟨0, 1/2, 1, 1/2⟩
  else if |srcPos.x - tgtPos.x| < 50 then
    if srcPos.y < tgtPos.y then ⟨1/2, 1, 1/2, 0⟩ else ⟨1/2, 0, 1/2, 1⟩
  else
    ⟨if srcPos.x < tgtPos.x then 1 else 0, 1/2, 1/2, if srcPos.y < tgtPos.y then 0 else 1⟩

/-- Relationship edge cells: the edge id counter advances for every
relationship, but a relationship whose endpoint is missing from the position
map is silently dropped (`if (!srcPos || !tgtPos) continue`). -/
def erEdgeCellsAux (pos : List (Str × Geom)) : ℕ → List ERRel → List (Cell Geom)
  | _, [] => []
  | cid, r :: rest =>
    match alookup pos r.source, alookup pos r.target with
    | some sp, some tp =>
      ecell (str "rel" ++ toDec cid) (some (escapeXML r.label)) r.source r.target
          (some (calculateERExitEntry sp tp)) ::
        erEdgeCellsAux pos (cid + 1) rest
    | _, _ => erEdgeCellsAux pos (cid + 1) rest

/-- Cell list of the ER generator (`generateERDiagramXML`): entity blocks on
the grid, then relationship edges; the cell-id counter starts at 2. -/
def erCells (m : ERModel) : List (Cell Geom) :=
  m.entities.enum.flatMap (fun p => erEntityCellBlock p.1 p.2) ++
    erEdgeCellsAux (erPositions m.entities) 2 m.relationships

/-- Linear flowchart layout (`calculateFlowchartLayout`): the `i`-th node sits
at `x = 340 + 200*i` horizontally or `y = 40 + 120*i` vertically (closed form
of the sequential `x += xSpacing` / `y += ySpacing` loop); `edges` is accepted
and ignored exactly as in the source. -/
def calculateFlowchartLayout (nodes : List FlowNode) (edges : List FlowEdge)
    (isVertical : Bool) : List (Str × (ℤ × ℤ)) :=
  let _ := edges
  nodes.enum.map (fun p =>
    (p.2.id,
      (if isVertical then (340, 40 + 120 * (p.1 : ℤ)) else (340 + 200 * (p.1 : ℤ), 40))))

/-- Node box size: 120×60, except diamonds which grow with the label length. -/
def flowNodeSize (n : FlowNode) : ℤ × ℤ :=
  if n.shape = str "\x7b\x7d" then
    let textLen := n.label.length
    (if textLen ≤ 15 then 120 else if textLen ≤ 30 then 160 else 200,
     if textLen ≤ 15 then 80 else if textLen ≤ 30 then 100 else 120)
  else (120, 60)

/-- Exit/entry points for a flowchart edge (`getExitPoints`): direction-based,
empty when either endpoint is missing from the position map. -/
def getExitPoints (sourceId targetId : Str) (positions : List (Str × (ℤ × ℤ)))
    (direction : Str) : Option Route :=
  match alookup positions sourceId, alookup positions targetId with
  | some _, some _ =>
    if direction = str "TD" || direction = str "TB" then some ⟨1/2, 1, 1/2, 0⟩
    else if direction = str "BT" then some ⟨1/2, 0, 1/2, 1⟩
    else if direction = str "LR" then some ⟨1, 1/2, 0, 1/2⟩
    else if direction = str "RL" then some ⟨0, 1/2, 1, 1/2⟩
    else none
  | _, _ => none

/-- Flowchart edge cells with the `e${cellId}` counter starting at 2. -/
def flowEdgeCellsAux (positions : List (Str × (ℤ × ℤ))) (direction : Str) :
    ℕ → List FlowEdge → List (Cell Geom)
  | _, [] => []
  | cid, e :: rest =>
    ecell (str "e" ++ toDec cid) (e.label.map escapeXML) e.source e.target
        (getExitPoints e.source e.target positions direction) ::
      flowEdgeCellsAux positions direction (cid + 1) rest

/-- Cell list of the flowchart generator (`generateFlowchartXML`): positioned
node cells (start/end recolouring is style-only and not modelled) followed by
edge cells. -/
def flowCells (m : FlowModel) : List (Cell Geom) :=
  let isVertical := m.direction = str "TD" || m.direction = str "TB" || m.direction = str "BT"
  let positions := calculateFlowchartLayout m.nodes m.edges isVertical
  m.nodes.enum.map (fun p =>
    let pos := if isVertical then ((340 : ℤ), 40 + 120 * (p.1 : ℤ))
               else (340 + 200 * (p.1 : ℤ), (40 : ℤ))
    let sz := flowNodeSize p.2
    vcell p.2.id (some (escapeXML p.2.label)) (some ⟨pos.1, pos.2, sz.1, sz.2⟩)) ++
    flowEdgeCellsAux positions m.direction 2 m.edges

/-- Sequence participant (id, display label, participant/actor, declaration
order). -/
structure Participant where
  id : Str
  label : Str
  typ : Str
  order : ℕ
deriving DecidableEq

/-- Sequence message; `src`/`dst` model the source's `from`/`to` fields. -/
structure SeqMessage where
  src : Str
  dst : Str
  text : Str
  typ : Str
  arrow : Str
deriving DecidableEq

/-- Sequence note annotation. -/
structure SeqNote where
  position : Str
  participants : List Str
  text : Str
deriving DecidableEq

/-- Canonical sequence model (`parseSequenceDiagram`'s result; activations are
parsed but unused by the generator). -/
structure SeqModel where
  participants : List Participant
  messages : List SeqMessage
  notes : List SeqNote
deriving DecidableEq

/-- Participant x-positions: `x = 80 + index*180`, centre at `x + 50`. -/
def seqPositions (ps : List Participant) : List (Str × (ℤ × ℤ)) :=
  ps.enum.map (fun p => (p.2.id, (80 + 180 * (p.1 : ℤ), 80 + 180 * (p.1 : ℤ) + 50)))

/-- Sequence message edge cells (`msg${cellId++}` — the counter advances only
for emitted messages; a message with an unknown endpoint is skipped before the
counter is touched). -/
def seqMessageCellsAux (positions : List (Str × (ℤ × ℤ))) (msgTotal : ℕ) :
    ℕ → ℕ → List SeqMessage → List (Cell Geom)
  | _, _, [] => []
  | cid, idx, msg :: rest =>
    match alookup positions msg.src, alookup positions msg.dst with
    | some fp, some tp =>
      { id := str "msg" ++ toDec cid, value := some (escapeXML msg.text),
        kind := CellKind.edge, source := none, target := none, geom := none,
        srcPt := some (fp.2, 80 + 30 + 60 * (idx : ℤ)),
        tgtPt := some (tp.2, 80 + 30 + 60 * (idx : ℤ)), route := none } ::
        seqMessageCellsAux positions msgTotal (cid + 1) (idx + 1) rest
    | _, _ => seqMessageCellsAux positions msgTotal cid (idx + 1) rest

/-- Sequence note cells (`note${cellId++}`, skipped when the anchor
participant is unknown). -/
def seqNoteCellsAux (positions : List (Str × (ℤ × ℤ))) :
    ℕ → ℕ → List SeqNote → List (Cell Geom)
  | _, _, [] => []
  | cid, idx, note :: rest =>
    match note.participants.head? with
    | none => seqNoteCellsAux positions cid (idx + 1) rest
    | some fstP =>
      match alookup positions fstP with
      | none => seqNoteCellsAux positions cid (idx + 1) rest
      | some pos =>
        let x : ℤ :=
          if containsSub note.position (str "right") then pos.1 + 100 + 20
          else if containsSub note.position (str "left") then pos.1 - 120
          else pos.1
        vcell (str "note" ++ toDec cid) (some (escapeXML note.text))
            (some ⟨x, 80 + 50 + 30 * (idx : ℤ), 100, 40⟩) ::
          seqNoteCellsAux positions (cid + 1) (idx + 1) rest

/-- Cell list of the sequence generator (`generateSequenceDiagramXML`):
participant box and lifeline per participant, then message edges, then notes. -/
def seqCells (m : SeqModel) : List (Cell Geom) :=
  let positions := seqPositions m.participants
  let lifelineHeight : ℤ := 80 + 60 * (m.messages.length : ℤ) + 100
  m.participants.enum.flatMap (fun p =>
    let x : ℤ := 80 + 180 * (p.1 : ℤ)
    [vcell p.2.id (some (escapeXML p.2.label)) (some ⟨x, 20, 100, 50⟩),
     vcell (p.2.id ++ str "_lifeline") none (some ⟨x + 50 - 1, 80, 2, lifelineHeight⟩)]) ++
    seqMessageCellsAux positions m.messages.length 2 0 m.messages ++
    seqNoteCellsAux positions (2 + (seqMessageCellsAux positions m.messages.length 2 0 m.messages).length) 0 m.notes

/-- `\s*(.+)$`: the greedy tail capture after optional whitespace.  When the
remainder has a non-space character the capture starts at the first one; when
it is all whitespace the greedy `\s*` backtracks one step and the capture is
the final whitespace character alone; on an empty remainder the `.+` fails. -/
def restCapture (r : Str) : Option Str :=
  if r = [] then none
  else
    let t := r.dropWhile isWhite
    if t = [] then some (r.drop (r.length - 1)) else some t

/-- `\s+(.+)$`: as `restCapture`, but requiring at least one leading
whitespace character. -/
def plusCapture : Str → Option Str
  | [] => none
  | c :: rest => if isWhite c then restCapture rest else none

/-- Participant declaration
(`^(participant|actor)\s+(\w+)(?:\s+as\s+(.+))?$`, case-insensitive):
keyword, id, optional alias.  The end anchor makes a line with trailing text
that is not an `as` alias fail entirely.  Returns the lower-cased keyword,
the id and the alias. -/
def matchParticipant (l : Str) : Option (Str × Str × Option Str) :=
  let low := toLower l
  let kw? : Option (ℕ × Str) :=
    if startsWithS low (str "participant") then some (11, str "participant")
    else if startsWithS low (str "actor") then some (5, str "actor")
    else none
  match kw? with
  | none => none
  | some (n, ty) =>
    let r := l.drop n
    if (r.takeWhile isWhite).isEmpty then none
    else
      let r1 := r.dropWhile isWhite
      let pid := r1.takeWhile isWordChar
      if pid.isEmpty then none
      else
        let r2 := r1.drop pid.length
        if r2 = [] then some (ty, pid, none)
        else
          if (r2.takeWhile isWhite).isEmpty then none
          else
            let r3 := r2.dropWhile isWhite
            if toLower (r3.take 2) = str "as" then
              (plusCapture (r3.drop 2)).map (fun a => (ty, pid, some a))
            else none

/-- The eight message arrow alternatives
(`->>|-->>|->|-->|-x|--x|-\)|\--\)`), in alternation order. -/
def seqArrows : List Str :=
  [str "->>", str "-->>", str "->", str "-->", str "-x", str "--x",
   str "-)", str "--)"]

/-- `\s*(\w+)\s*:\s*(.+)$`: target id and message text after an arrow. -/
def msgTail (r : Str) : Option (Str × Str) :=
  let r1 := r.dropWhile isWhite
  let dst := r1.takeWhile isWordChar
  if dst.isEmpty then none
  else
    match (r1.drop dst.length).dropWhile isWhite with
    | ':' :: r3 => (restCapture r3).map (fun t => (dst, t))
    | _ => none

/-- Message line (`^(\w+)\s*(arrows)\s*(\w+)\s*:\s*(.+)$`): the arrow
alternation is tried in order with the engine's backtracking — an
alternative that matches but whose continuation fails yields to the next
one.  Returns source, arrow, target, text. -/
def matchMessage (l : Str) : Option (Str × Str × Str × Str) :=
  let src := l.takeWhile isWordChar
  if src.isEmpty then none
  else
    let r1 := (l.dropWhile isWordChar).dropWhile isWhite
    firstSome (fun a =>
      if startsWithS r1 a then
        (msgTail (r1.drop a.length)).map (fun p => (src, a, p.1, p.2))
      else none) seqArrows

/-- Message classification (the `arrow.includes(..)` chain). -/
def msgType (arrow : Str) : Str :=
  if containsSub arrow (str "--") then str "async"
  else if containsSub arrow (str "x") then str "lost"
  else if containsSub arrow (str ")") then str "create"
  else str "sync"

/-- Note annotation
(`^Note\s+(right of|left of|over)\s+(\w+(?:,\s*\w+)?)\s*:\s*(.+)$`,
case-insensitive): the position capture keeps its original casing; the
participant capture is split on the comma and trimmed. -/
def matchNote (l : Str) : Option SeqNote :=
  let low := toLower l
  if startsWithS low (str "note") then
    let r := l.drop 4
    if (r.takeWhile isWhite).isEmpty then none
    else
      let r1 := r.dropWhile isWhite
      let low1 := toLower r1
      let pos? : Option ℕ :=
        if startsWithS low1 (str "right of") then some 8
        else if startsWithS low1 (str "left of") then some 7
        else if startsWithS low1 (str "over") then some 4
        else none
      match pos? with
      | none => none
      | some n =>
        let posStr := r1.take n
        let r2 := r1.drop n
        if (r2.takeWhile isWhite).isEmpty then none
        else
          let r3 := r2.dropWhile isWhite
          let p1 := r3.takeWhile isWordChar
          if p1.isEmpty then none
          else
            let pr : Option (List Str × Str) :=
              match r3.drop p1.length with
              | ',' :: rr =>
                let rr2 := rr.dropWhile isWhite
                let p2 := rr2.takeWhile isWordChar
                if p2.isEmpty then none else some ([p1, p2], rr2.drop p2.length)
              | other => some ([p1], other)
            match pr with
            | none => none
            | some (ps, r5) =>
              match r5.dropWhile isWhite with
              | ':' :: r6 => (restCapture r6).map (fun t => ⟨posStr, ps, t⟩)
              | _ => none
  else none

/-- `participants.set`: replace in place (a JS Map keeps the original
insertion position) or append. -/
def setParticipant : List Participant → Participant → List Participant
  | [], p => [p]
  | q :: rest, p => if q.id = p.id then p :: rest else q :: setParticipant rest p

/-- Membership test in the participant registry (`participants.has`). -/
def hasParticipant (ps : List Participant) (i : Str) : Bool :=
  ps.any (fun p => p.id = i)

/-- Parser state of `parseSequenceDiagram`; `order` is the running
`participantOrder` counter. -/
structure SeqState where
  participants : List Participant
  messages : List SeqMessage
  notes : List SeqNote
  order : ℕ
deriving DecidableEq

/-- Processing of one sequence line, in the source's match order: skip
`sequenceDiagram`/blank, participant declaration, message (auto-registering
both endpoints, each registration consuming one counter value), note.
Activation lines and anything unrecognized leave the model unchanged (the
parsed activations list is not part of the canonical model the generator
reads). -/
def seqStep (st : SeqState) (line : Str) : SeqState :=
  let trimmed := trim line
  if trimmed = str "sequenceDiagram" || trimmed = [] then st
  else
    match matchParticipant trimmed with
    | some (ty, pid, al) =>
      { st with
        participants := setParticipant st.participants
          ⟨pid, al.getD pid, ty, st.order⟩,
        order := st.order + 1 }
    | none =>
      match matchMessage trimmed with
      | some (src, arrow, dst, text) =>
        let st1 :=
          if hasParticipant st.participants src then st
          else { st with
            participants := st.participants ++
              [⟨src, src, str "participant", st.order⟩],
            order := st.order + 1 }
        let st2 :=
          if hasParticipant st1.participants dst then st1
          else { st1 with
            participants := st1.participants ++
              [⟨dst, dst, str "participant", st1.order⟩],
            order := st1.order + 1 }
        { st2 with messages := st2.messages ++ [⟨src, dst, text, msgType arrow, arrow⟩] }
      | none =>
        match matchNote trimmed with
        | some note => { st with notes := st.notes ++ [note] }
        | none => st

/-- Stable insertion by the `order` field.  The orders assigned by the parser
are pairwise distinct, so the resulting insertion sort agrees with the
source's `sort((a, b) => a.order - b.order)`. -/
def insertByOrder (p : Participant) : List Participant → List Participant
  | [] => [p]
  | q :: rest => if p.order ≤ q.order then p :: q :: rest else q :: insertByOrder p rest

/-- `Array.from(participants.values()).sort((a, b) => a.order - b.order)`. -/
def sortByOrder (ps : List Participant) : List Participant :=
  ps.foldr insertByOrder []

/-- Sequence dialect parsing (`parseSequenceDiagram`): participants sorted by
their order of (re)declaration, messages and notes in encounter order. -/
def parseSequenceDiagram (mermaidCode : Str) : SeqModel :=
  let fin := (splitLines (trim mermaidCode)).foldl seqStep ⟨[], [], [], 0⟩
  ⟨sortByOrder fin.participants, fin.messages, fin.notes⟩

/-- Class attribute (visibility character, name, type). -/
structure ClassAttr where
  visibility : Char
  name : Str
  typ : Str
deriving DecidableEq

/-- Class method (visibility character, name, parameter text, return type). -/
structure ClassMethod where
  visibility : Char
  name : Str
  params : Str
  returnType : Str
deriving DecidableEq

/-- Class definition with optional stereotype. -/
structure ClassDef where
  name : Str
  attributes : List ClassAttr
  methods : List ClassMethod
  stereotype : Option Str
deriving DecidableEq

/-- Class relationship; `src`/`dst` model the source's `from`/`to`. -/
structure ClassRel where
  src : Str
  dst : Str
  typ : Str
  label : Option Str
  arrow : Str
deriving DecidableEq

/-- Canonical class model (`parseClassDiagram`'s result). -/
structure ClassModel where
  classes : List ClassDef
  relationships : List ClassRel
deriving DecidableEq

/-- Total swimlane height: header 30 + 22 per attribute + 22 when the
separator row is present + 22 per method + 10. -/
def classHeight (c : ClassDef) : ℤ :=
  30 + 22 * (c.attributes.length : ℤ) +
    (if c.methods.length > 0 then 22 else 0) + 22 * (c.methods.length : ℤ) + 10

/-- Grid geometry of the `index`-th class (3 columns, 250×200 pitch). -/
def classGeom (index : ℕ) (c : ClassDef) : Geom :=
  ⟨60 + 250 * ((index % 3 : ℕ) : ℤ), 60 + 200 * ((index / 3 : ℕ) : ℤ), 180, classHeight c⟩

/-- Visibility marker normalisation used when printing members. -/
def visChar (v : Char) : Char :=
  if v = '+' then '+' else if v = '-' then '-' else if v = '#' then '#' else '~'

/-- Display name of a class cell; with a stereotype the source interpolates
pre-escaped `&lt;&lt;..&gt;&gt;` text and a literal backslash-n, bypassing
`escapeXML` (as does the plain name). -/
def classDisplayName (c : ClassDef) : Str :=
  match c.stereotype with
  | some st => str "&lt;&lt;" ++ st ++ str "&gt;&gt;" ++ ['\\', 'n'] ++ c.name
  | none => c.name

/-- Vertex cells of one class: container, attribute rows, separator (when
methods exist), method rows, at cumulative member offsets. -/
def classCellBlock (index : ℕ) (c : ClassDef) : List (Cell Geom) :=
  let na := (c.attributes.length : ℤ)
  vcell c.name (some (classDisplayName c)) (some (classGeom index c)) ::
    (c.attributes.enum.map (fun p =>
      vcell (c.name ++ str "_attr" ++ toDec p.1)
        (some (escapeXML ([visChar p.2.visibility, ' '] ++ p.2.name ++ str ": " ++ p.2.typ)))
        (some ⟨0, 30 + 22 * (p.1 : ℤ), 180, 22⟩)) ++
     (if c.methods.length > 0 then
        [vcell (c.name ++ str "_sep") none (some ⟨0, 30 + 22 * na, 180, 8⟩)]
      else []) ++
     c.methods.enum.map (fun p =>
       vcell (c.name ++ str "_method" ++ toDec p.1)
         (some (escapeXML ([visChar p.2.visibility, ' '] ++ p.2.name ++ ['('] ++ p.2.params ++
           str "): " ++ p.2.returnType)))
         (some ⟨0, 30 + 22 * na + 8 + 22 * (p.1 : ℤ), 180, 22⟩)))

/-- Class-position map built during class-cell emission. -/
def classPositions (cs : List ClassDef) : List (Str × Geom) :=
  cs.enum.map (fun p => (p.2.name, classGeom p.1 p.2))

/-- Class relationship edge cells: `rel${cellId++}` advances for every
relationship; ones with a missing endpoint are dropped after the increment. -/
def classEdgeCellsAux (pos : List (Str × Geom)) : ℕ → List ClassRel → List (Cell Geom)
  | _, [] => []
  | cid, r :: rest =>
    match alookup pos r.src, alookup pos r.dst with
    | some sp, some tp =>
      ecell (str "rel" ++ toDec cid)
          (some (match r.label with | some l => escapeXML l | none => []))
          r.src r.dst (some (calculateERExitEntry sp tp)) ::
        classEdgeCellsAux pos (cid + 1) rest
    | _, _ => classEdgeCellsAux pos (cid + 1) rest

/-- Cell list of the class generator (`generateClassDiagramXML`). -/
def classCells (m : ClassModel) : List (Cell Geom) :=
  m.classes.enum.flatMap (fun p => classCellBlock p.1 p.2) ++
    classEdgeCellsAux (classPositions m.classes) 2 m.relationships

/-- Class declaration line (`^class\s+(\w+)(?:\s*\x7b)?$`): the keyword is
case-sensitive, the optional open brace must end the line. -/
def matchClassStart (l : Str) : Option Str :=
  if startsWithS l (str "class") then
    let r := l.drop 5
    if (r.takeWhile isWhite).isEmpty then none
    else
      let r1 := r.dropWhile isWhite
      let name := r1.takeWhile isWordChar
      if name.isEmpty then none
      else
        let r2 := r1.drop name.length
        if r2 = [] then some name
        else if r2.dropWhile isWhite = ['\x7b'] then some name
        else none
  else none

/-- Interface/abstract annotation (`^<<(\w+)>>\s*(\w+)$`), returning the
raw stereotype and the class name. -/
def matchAnnotation (l : Str) : Option (Str × Str) :=
  if startsWithS l (str "<<") then
    let r := l.drop 2
    let stereo := r.takeWhile isWordChar
    if stereo.isEmpty then none
    else
      let r2 := r.drop stereo.length
      if startsWithS r2 (str ">>") then
        let r3 := (r2.drop 2).dropWhile isWhite
        let name := r3.takeWhile isWordChar
        if name.isEmpty then none
        else if r3.drop name.length = [] then some (stereo, name)
        else none
      else none
  else none

/-- Visibility prefix `([+\-#~])?`: the captured character and the rest. -/
def visPrefix (l : Str) : Option Char × Str :=
  match l with
  | c :: rest =>
    if c = '+' || c = '-' || c = '#' || c = '~' then (some c, rest) else (none, l)
  | [] => (none, l)

/-- The tail of the method regex after the closing parenthesis
(`(?:\s*:\s*(\w+))?(?:\s*\*|\s*\$)?$`), returning the return-type
capture.  Neither optional group can be skipped over a stray character, and
a trailing whitespace run fails the end anchor. -/
def methodTail (rest : Str) : Option (Option Str) :=
  if rest = [] then some none
  else
    match rest.dropWhile isWhite with
    | [] => none
    | c :: r2 =>
      if c = ':' then
        let r3 := r2.dropWhile isWhite
        let ret := r3.takeWhile isWordChar
        if ret.isEmpty then none
        else
          let r4 := r3.drop ret.length
          if r4 = [] then some (some ret)
          else
            match r4.dropWhile isWhite with
            | ['*'] => some (some ret)
            | ['$'] => some (some ret)
            | _ => none
      else if (c = '*' || c = '$') && r2 = [] then some none
      else none

/-- Method line
(`^([+\-#~])?\s*(\w+)\s*\((.*)\)(?:\s*:\s*(\w+))?(?:\s*\*|\s*\$)?$`):
the greedy `(.*)` prefers the LAST closing parenthesis whose tail still
matches, so nested parentheses stay inside the parameter capture.  Defaults:
visibility `+`, return type `void`. -/
def matchMethod (l : Str) : Option ClassMethod :=
  let vp := visPrefix l
  let r1 := vp.2.dropWhile isWhite
  let name := r1.takeWhile isWordChar
  if name.isEmpty then none
  else
    match (r1.drop name.length).dropWhile isWhite with
    | '(' :: r2 =>
      firstSome (fun p =>
        (methodTail p.2).map (fun ret =>
          ⟨vp.1.getD '+', name, p.1.dropLast, ret.getD (str "void")⟩))
        ((widenings ')' r2).reverse)
    | _ => none

/-- Attribute line (`^([+\-#~])?\s*(\w+)\s*:\s*(\w+)$`). -/
def matchClassAttr (l : Str) : Option ClassAttr :=
  let vp := visPrefix l
  let r1 := vp.2.dropWhile isWhite
  let name := r1.takeWhile isWordChar
  if name.isEmpty then none
  else
    match (r1.drop name.length).dropWhile isWhite with
    | ':' :: r2 =>
      let r3 := r2.dropWhile isWhite
      let typ := r3.takeWhile isWordChar
      if typ.isEmpty then none
      else if r3.drop typ.length = [] then some ⟨vp.1.getD '+', name, typ⟩
      else none
    | _ => none

/-- The twelve relationship arrow alternatives
(`<\|--|<\|-|<--|\*--|o--|-->|--\*|--o|\.\.>|<\.\.|\.\.|--`), in
alternation order. -/
def classArrows : List Str :=
  [str "<|--", str "<|-", str "<--", str "*--", str "o--", str "-->",
   str "--*", str "--o", str "..>", str "<..", str "..", str "--"]

/-- Relationship classification (the `rel.includes(..)` chain). -/
def classRelType (arrow : Str) : Str :=
  if containsSub arrow (str "<|") then str "inheritance"
  else if containsSub arrow (str "*") then str "composition"
  else if containsSub arrow (str "o") then str "aggregation"
  else if containsSub arrow (str "..") then str "dependency"
  else str "association"

/-- `(?:\s*:\s*(.+))?$`: the optional trailing relationship label. -/
def labelTail (r : Str) : Option (Option Str) :=
  if r = [] then some none
  else
    match r.dropWhile isWhite with
    | ':' :: r2 => (restCapture r2).map some
    | _ => none

/-- Relationship line (`^(\w+)\s+(arrows)\s+(\w+)(?:\s*:\s*(.+))?$`):
the arrow alternation tried in order with backtracking into the
continuation. -/
def matchClassRel (l : Str) : Option ClassRel :=
  let src := l.takeWhile isWordChar
  if src.isEmpty then none
  else
    let r := l.drop src.length
    if (r.takeWhile isWhite).isEmpty then none
    else
      let r1 := r.dropWhile isWhite
      firstSome (fun a =>
        if startsWithS r1 a then
          let r2 := r1.drop a.length
          if (r2.takeWhile isWhite).isEmpty then none
          else
            let r3 := r2.dropWhile isWhite
            let dst := r3.takeWhile isWordChar
            if dst.isEmpty then none
            else
              (labelTail (r3.drop dst.length)).map (fun lab =>
                ⟨src, dst, classRelType a, lab, a⟩)
        else none) classArrows

/-- Membership test in the class registry (`classes.has`). -/
def hasClass (cs : List ClassDef) (n : Str) : Bool := cs.any (fun c => c.name = n)

/-- Register a class if absent (`if (!classes.has(..)) classes.set(..)`). -/
def addClassIfAbsent (cs : List ClassDef) (n : Str) : List ClassDef :=
  if hasClass cs n then cs else cs ++ [⟨n, [], [], none⟩]

/-- Parser state of `parseClassDiagram`. -/
structure ClassState where
  classes : List ClassDef
  relationships : List ClassRel
  current : Option Str
deriving DecidableEq

/-- Processing of one class-diagram line, in the source's match order: skip
`classDiagram`/blank, class declaration, closing brace, stereotype
annotation, members (only inside a class body: method first, then
attribute), relationship (also reachable from inside a body when neither
member form matches).  The member updates rewrite the current class in place
— it is always registered, since only `class` lines set `current` and they
register the name first. -/
def classStep (st : ClassState) (line : Str) : ClassState :=
  let trimmed := trim line
  if trimmed = str "classDiagram" || trimmed = [] then st
  else
    match matchClassStart trimmed with
    | some name =>
      { st with
        current := some name,
        classes := addClassIfAbsent st.classes name }
    | none =>
      if trimmed = ['\x7d'] then { st with current := none }
      else
        match matchAnnotation trimmed with
        | some (stereo, name) =>
          { st with classes :=
              if hasClass st.classes name then
                st.classes.map (fun c =>
                  if c.name = name then { c with stereotype := some (toLower stereo) }
                  else c)
              else st.classes ++ [⟨name, [], [], some (toLower stereo)⟩] }
        | none =>
          let relStep : ClassState :=
            match matchClassRel trimmed with
            | some rel =>
              { st with
                classes := addClassIfAbsent (addClassIfAbsent st.classes rel.src) rel.dst,
                relationships := st.relationships ++ [rel] }
            | none => st
          match st.current with
          | some cur =>
            match matchMethod trimmed with
            | some m =>
              { st with classes := st.classes.map (fun c =>
                  if c.name = cur then { c with methods := c.methods ++ [m] } else c) }
            | none =>
              match matchClassAttr trimmed with
              | some a =>
                { st with classes := st.classes.map (fun c =>
                    if c.name = cur then { c with attributes := c.attributes ++ [a] }
                    else c) }
              | none => relStep
          | none => relStep

/-- Class dialect parsing (`parseClassDiagram`). -/
def parseClassDiagram (mermaidCode : Str) : ClassModel :=
  let fin := (splitLines (trim mermaidCode)).foldl classStep ⟨[], [], none⟩
  ⟨fin.classes, fin.relationships⟩

/-- Mindmap node: generated id `node{i}`, label, shape, indentation level, and
the parent link recorded at parse time (`null` for top-level nodes). -/
structure MNode where
  id : Str
  label : Str
  shape : Str
  level : ℕ
  parentId : Option Str
deriving DecidableEq

/-- Generated mindmap node id (`node${nodeId++}`). -/
def nodeIdStr (i : ℕ) : Str := str "node" ++ toDec i

/-- Shape/label recognition from the trimmed line text, in the source's test
order: `((..))` circle, `{{..}}` hexagon, `(..)` rounded, `[..]` square,
`)..(` cloud, else the raw text with shape `default`. -/
def mindmapShape (text : Str) : Str × Str :=
  if startsWithS text (str "((") && endsWithS text (str "))") then
    (((text.drop 2).dropLast).dropLast, str "circle")
  else if startsWithS text (str "\x7b\x7b") && endsWithS text (str "\x7d\x7d") then
    (((text.drop 2).dropLast).dropLast, str "hexagon")
  else if startsWithS text (str "(") && endsWithS text (str ")") then
    ((text.drop 1).dropLast, str "rounded")
  else if startsWithS text (str "[") && endsWithS text (str "]") then
    ((text.drop 1).dropLast, str "square")
  else if startsWithS text (str ")") && endsWithS text (str "(") then
    ((text.drop 1).dropLast, str "cloud")
  else (text, str "default")

/-- Parser state of `parseMindmap`: accumulated nodes and the ancestor stack,
top first, as (node index, level) pairs.  The source's synthetic stack bottom
`{id:'root', level:-1}` is the empty list here: its level −1 is below every
node level, so it is never popped, and attaching to it records a null
parent. -/
structure MState where
  nodes : List MNode
  stack : List (ℕ × ℕ)
deriving DecidableEq

/-- Processing of one mindmap line: skip `mindmap`/blank lines, compute the
level as `floor(indent / 2)`, pop stack entries with level ≥ the new level,
attach to the remaining top, push. -/
def mindStep (st : MState) (line : Str) : MState :=
  if trim line = str "mindmap" || trim line = [] then st
  else
    let level := (line.takeWhile isWhite).length / 2
    let ls := mindmapShape (trim line)
    let stack2 := st.stack.dropWhile (fun e => level ≤ e.2)
    { nodes := st.nodes ++
        [⟨nodeIdStr st.nodes.length, ls.1, ls.2, level,
          stack2.head?.map (fun e => nodeIdStr e.1)⟩],
      stack := (st.nodes.length, level) :: stack2 }

/-- Canonical mindmap model: flat node list plus the id of the first top-level
node (the source's `root`, used by the generator only as a non-null check). -/
structure MModel where
  nodes : List MNode
  root : Option Str
deriving DecidableEq

/-- Mindmap dialect parsing (`parseMindmap`); the `nodeId` counter always
equals the number of nodes parsed so far. -/
def parseMindmap (mermaidCode : Str) : MModel :=
  let fin := (splitLines (trim mermaidCode)).foldl mindStep ⟨[], []⟩
  ⟨fin.nodes, fin.nodes.head?.map (fun n => n.id)⟩

example :
    (parseMindmap (str "mindmap\nRoot\n  Child1\n  Child2")).nodes =
      [⟨str "node0", str "Root", str "default", 0, none⟩,
       ⟨str "node1", str "Child1", str "default", 1, some (str "node0")⟩,
       ⟨str "node2", str "Child2", str "default", 1, some (str "node0")⟩] := by decide

/-- Rose tree rebuilt by the generator's `buildTree` from the flat node
list. -/
inductive MTree where
  | node (id : Str) (children : List MTree)

/-- Children of `pid` in node order; the fuel bounds recursion depth (parent
indices strictly precede their children in parse results, so `nodes.length`
fuel is never exhausted on parser output). -/
def buildChildren (nodes : List MNode) : ℕ → Str → List MTree
  | 0, _ => []
  | fuel + 1, pid =>
    (nodes.filter (fun n => n.parentId = some pid)).map
      (fun n => MTree.node n.id (buildChildren nodes fuel n.id))

/-- The generator's tree root: `buildTree` keeps overwriting `rootNode` for
every parentless node, so the LAST top-level node wins. -/
def lastRoot (nodes : List MNode) : Option MNode :=
  (nodes.filter (fun n => n.parentId = none)).getLast?

/-- Tree rebuilt from the flat list (`buildTree`). -/
def mindmapTree (nodes : List MNode) : Option MTree :=
  (lastRoot nodes).map (fun n => MTree.node n.id (buildChildren nodes nodes.length n.id))

/-- Real-valued node geometry of the mindmap radial layout. -/
structure GeoR where
  x : ℝ
  y : ℝ
  w : ℝ
  h : ℝ

/-- Level radius: `LEVEL_RADII[level] || 150` over `[0, 350, 280, 220, 180]`
(index 0 holds 0, which is falsy, so level 0 also yields 150 — unused, since
the root is placed absolutely). -/
def levelRadius (level : ℕ) : ℝ :=
  if level = 1 then 350 else if level = 2 then 280
  else if level = 3 then 220 else if level = 4 then 180 else 150

/-- Node width per level (`NODE_SIZES[level] || NODE_SIZES[3]`). -/
def nodeW (level : ℕ) : ℝ :=
  if level = 0 then 180 else if level = 1 then 160 else if level = 2 then 140 else 120

/-- Node height per level. -/
def nodeH (level : ℕ) : ℝ :=
  if level = 0 then 90 else if level = 1 then 70 else if level = 2 then 55 else 45

/-- Mindmap canvas constants (`CANVAS_WIDTH`, `CANVAS_HEIGHT`, centre). -/
def CANVAS_WIDTH : ℝ := 2400

/-- Mindmap canvas height. -/
def CANVAS_HEIGHT : ℝ := 1800

/-- Radial position computation (`calculateNodePositions`): the root at the
canvas centre, every other node at its level's radius from the parent centre
along its fan angle; children fan over 2π (root) or 1.2π around the incoming
angle.  The fuel argument makes the recursion structural; any fuel exceeding
the tree height yields the source's positions. -/
noncomputable def layoutNode : ℕ → MTree → ℝ → ℝ → ℝ → ℕ → List (Str × GeoR)
  | 0, _, _, _, _, _ => []
  | fuel + 1, MTree.node id children, angle, px, py, level =>
    let w := nodeW level
    let h := nodeH level
    let x : ℝ := if level = 0 then 1200 - w / 2
                 else px + Real.cos angle * levelRadius level - w / 2
    let y : ℝ := if level = 0 then 900 - h / 2
                 else py + Real.sin angle * levelRadius level - h / 2
    let n := children.length
    let fan : ℝ := Real.pi * (if level = 0 then 2 else 6 / 5)
    let startAngle : ℝ := if level = 0 then 0 else angle - fan / 2
    let step : ℝ := fan / ((max (n - 1) 1 : ℕ) : ℝ)
    (id, ⟨x, y, w, h⟩) ::
      children.enum.flatMap (fun p =>
        layoutNode fuel p.2
          (if n = 1 then angle else startAngle + (p.1 : ℝ) * step)
          (x + w / 2) (y + h / 2) (level + 1))

/-- Position map of the mindmap generator: radial layout of the rebuilt tree,
entered at the canvas centre with angle 0 and level 0; empty when there is no
top-level node. -/
noncomputable def mindmapComputedPositions (nodes : List MNode) : List (Str × GeoR) :=
  match mindmapTree nodes with
  | some t => layoutNode (nodes.length + 1) t 0 1200 900 0
  | none => []

/-- Mindmap node and connector cells: a node outside the position map is
skipped entirely (cell and connector); a connector is emitted only when the
parent also has a position (`conn${cellId++}` advances per emitted
connector). -/
def mindmapCellsAux (positions : List (Str × GeoR)) : ℕ → List MNode → List (Cell GeoR)
  | _, [] => []
  | cid, n :: rest =>
    match alookup positions n.id with
    | none => mindmapCellsAux positions cid rest
    | some pos =>
      vcell n.id (some (escapeXML n.label)) (some pos) ::
        (match n.parentId with
         | some pid =>
           match alookup positions pid with
           | some _ =>
             ecell (str "conn" ++ toDec cid) none pid n.id none ::
               mindmapCellsAux positions (cid + 1) rest
           | none => mindmapCellsAux positions cid rest
         | none => mindmapCellsAux positions cid rest)

/-- Cell list of the mindmap generator (`generateMindmapXML`); empty when the
parse produced no nodes. -/
noncomputable def mindmapCells (m : MModel) : List (Cell GeoR) :=
  match m.root with
  | none => []
  | some _ => mindmapCellsAux (mindmapComputedPositions m.nodes) 2 m.nodes

/-- Git commit (generated or user-supplied id, optional tag, type, owning
branch, and the merged-from branch for merge commits). -/
structure Commit where
  id : Str
  tag : Option Str
  typ : Str
  branch : Str
  mergeFrom : Option Str
deriving DecidableEq

/-- Git branch registry entry. -/
structure Branch where
  name : Str
  commits : List Str
  parentBranch : Option Str
deriving DecidableEq

/-- Canonical commit-graph model. -/
structure GitModel where
  commits : List Commit
  branches : List Branch
deriving DecidableEq

/-- Optional `\s+key\s*"([^"]+)"` group (the `id:`/`tag:` arguments; the key
comparison is case-insensitive, the captured text keeps its case). -/
def quotedArg (key : Str) (l : Str) : Option (Str × Str) :=
  if (l.takeWhile isWhite).isEmpty then none
  else
    let r1 := l.dropWhile isWhite
    if startsWithS (toLower r1) key then
      let r3 := (r1.drop key.length).dropWhile isWhite
      match r3 with
      | '"' :: r4 =>
        let inner := r4.takeWhile (fun c => c ≠ '"')
        if inner.isEmpty then none
        else
          match r4.dropWhile (fun c => c ≠ '"') with
          | '"' :: r5 => some (inner, r5)
          | _ => none
      | _ => none
    else none

/-- Optional `\s+type:\s*(\w+)` group of the commit line. -/
def gitTypeArg (l : Str) : Option Str :=
  if (l.takeWhile isWhite).isEmpty then none
  else
    let r1 := l.dropWhile isWhite
    if startsWithS (toLower r1) (str "type:") then
      let w := ((r1.drop 5).dropWhile isWhite).takeWhile isWordChar
      if w.isEmpty then none else some w
    else none

/-- A `\s+(\w+)` argument (branch/checkout/merge names). -/
def wordArg (l : Str) : Option (Str × Str) :=
  if (l.takeWhile isWhite).isEmpty then none
  else
    let r1 := l.dropWhile isWhite
    let w := r1.takeWhile isWordChar
    if w.isEmpty then none else some (w, r1.dropWhile isWordChar)

/-- JS `Map.set` on an association list. -/
def setKV {α : Type} : List (Str × α) → Str → α → List (Str × α)
  | [], k, v => [(k, v)]
  | (k0, v0) :: rest, k, v =>
    if k0 = k then (k, v) :: rest else (k0, v0) :: setKV rest k v

/-- `branches.set(name, ...)`: replace in place or append. -/
def setBranch : List Branch → Branch → List Branch
  | [], b => [b]
  | x :: rest, b => if x.name = b.name then b :: rest else x :: setBranch rest b

/-- `branches.get(currentBranch).commits.push(id)`; `none` models the
TypeError thrown when the current branch was never created. -/
def pushBranchCommit : List Branch → Str → Str → Option (List Branch)
  | [], _, _ => none
  | b :: rest, n, cid =>
    if b.name = n then some ({ b with commits := b.commits ++ [cid] } :: rest)
    else (pushBranchCommit rest n cid).map (fun bs => b :: bs)

/-- Parser state of `parseGitGraph`. -/
structure GitState where
  commits : List Commit
  branches : List Branch
  currentBranch : Str
  commitId : ℕ
deriving DecidableEq

/-- Processing of one commit-graph line, in the source's match order: skip
`gitGraph`/blank, `commit` (all arguments optional — the counter advances only
when the generated id is actually used), `branch`, `checkout`, `merge`.
Returns `none` where the source throws. -/
def gitStep (st : GitState) (line : Str) : Option GitState :=
  let trimmed := trim line
  if startsWithS trimmed (str "gitGraph") || trimmed = [] then some st
  else
    let low := toLower trimmed
    if startsWithS low (str "commit") then
      let r0 := trimmed.drop 6
      let p1 : Option Str × Str :=
        match quotedArg (str "id:") r0 with
        | some (v, r) => (some v, r)
        | none => (none, r0)
      let p2 : Option Str × Str :=
        match quotedArg (str "tag:") p1.2 with
        | some (v, r) => (some v, r)
        | none => (none, p1.2)
      let ty := gitTypeArg p2.2
      let cid := match p1.1 with | some v => v | none => 'c' :: toDec st.commitId
      let counter2 := match p1.1 with | some _ => st.commitId | none => st.commitId + 1
      match pushBranchCommit st.branches st.currentBranch cid with
      | none => none
      | some bs =>
        some ⟨st.commits ++
            [⟨cid, p2.1, (match ty with | some t => t | none => str "NORMAL"),
              st.currentBranch, none⟩],
          bs, st.currentBranch, counter2⟩
    else if startsWithS low (str "branch") then
      match wordArg (trimmed.drop 6) with
      | some (name, _) =>
        some ⟨st.commits, setBranch st.branches ⟨name, [], some st.currentBranch⟩, name,
          st.commitId⟩
      | none => some st
    else if startsWithS low (str "checkout") then
      match wordArg (trimmed.drop 8) with
      | some (name, _) => some ⟨st.commits, st.branches, name, st.commitId⟩
      | none => some st
    else if startsWithS low (str "merge") then
      match wordArg (trimmed.drop 5) with
      | some (name, r) =>
        let cid := str "merge_" ++ toDec st.commitId
        match pushBranchCommit st.branches st.currentBranch cid with
        | none => none
        | some bs =>
          some ⟨st.commits ++
              [⟨cid, (quotedArg (str "tag:") r).map (fun p => p.1), str "MERGE",
                st.currentBranch, some name⟩],
            bs, st.currentBranch, st.commitId + 1⟩
      | none => some st
    else some st

/-- Fold of `gitStep` over the lines, propagating the thrown state. -/
def gitFold : GitState → List Str → Option GitState
  | st, [] => some st
  | st, l :: rest =>
    match gitStep st l with
    | none => none
    | some st2 => gitFold st2 rest

/-- Initial git parser state: the branch registry starts with `main`, which is
also the current branch. -/
def gitInit : GitState := ⟨[], [⟨str "main", [], none⟩], str "main", 0⟩

/-- Commit-graph dialect parsing (`parseGitGraph`); `none` models the
uncaught TypeError. -/
def parseGitGraph (mermaidCode : Str) : Option GitModel :=
  (gitFold gitInit (splitLines (trim mermaidCode))).map (fun st => ⟨st.commits, st.branches⟩)

example :
    parseGitGraph (str "gitGraph\nmerge ghost") =
      some ⟨[⟨str "merge_0", none, str "MERGE", str "main", some (str "ghost")⟩],
        [⟨str "main", [str "merge_0"], none⟩]⟩ := by decide

example : parseGitGraph (str "gitGraph\ncheckout ghost\ncommit") = none := by decide

/-- Branch x-positions (`START_X + index*BRANCH_SPACING_X`), as a map. -/
def gitBranchX (bs : List Branch) : List (Str × ℤ) :=
  bs.enum.foldl (fun acc p => setKV acc p.2.name (100 + 100 * (p.1 : ℤ))) []

/-- Commit positions keyed by commit id: the branch column and the row
`START_Y + index*COMMIT_SPACING_Y`; duplicate ids overwrite (`Map.set`). -/
def gitCommitPositions (bx : List (Str × ℤ)) (cs : List Commit) : List (Str × (ℤ × ℤ)) :=
  cs.enum.foldl
    (fun acc p => setKV acc p.2.id ((alookup bx p.2.branch).getD 100, 50 + 60 * (p.1 : ℤ))) []

/-- Branch label cells (`branch_${name}`). -/
def gitBranchCells (bx : List (Str × ℤ)) (bs : List Branch) : List (Cell Geom) :=
  bs.map (fun b =>
    let x := (alookup bx b.name).getD 0
    vcell (str "branch_" ++ b.name) (some (escapeXML b.name)) (some ⟨x - 20, 10, 80, 20⟩))

/-- Commit, connector and tag cells, walking the commit list with the
previous commit in hand.  A connector is emitted from the second commit on
when the previous commit shares the branch or the commit is a merge; a merge
commit's connector source is the last commit id of the merged-from branch
when that branch exists and has commits (falling back to the previous
commit).  The commit cell's value is the raw (unescaped) tag; the tag label
cell's value is escaped. -/
def gitCommitCellsAux (bs : List Branch) (positions : List (Str × (ℤ × ℤ))) :
    ℕ → Option Commit → List Commit → List (Cell Geom)
  | _, _, [] => []
  | cid, prev, c :: rest =>
    let pos := (alookup positions c.id).getD (100, 50)
    let conn : List (Cell Geom) :=
      match prev with
      | none => []
      | some p =>
        if p.branch = c.branch || c.typ = str "MERGE" then
          let sourceId :=
            if c.typ = str "MERGE" then
              match c.mergeFrom with
              | some mf =>
                match bs.find? (fun b => b.name = mf) with
                | some b =>
                  match b.commits.getLast? with
                  | some last => if last = [] then p.id else last
                  | none => p.id
                | none => p.id
              | none => p.id
            else p.id
          [ecell (str "conn" ++ toDec cid) none sourceId c.id none]
        else []
    let tagCells : List (Cell Geom) :=
      match c.tag with
      | some t =>
        [vcell (str "tag_" ++ c.id) (some (escapeXML t)) (some ⟨pos.1 + 30, pos.2 - 10, 60, 20⟩)]
      | none => []
    vcell c.id (some (c.tag.getD [])) (some ⟨pos.1 - 15, pos.2 - 15, 30, 30⟩) ::
      conn ++ tagCells ++ gitCommitCellsAux bs positions (cid + conn.length) (some c) rest

/-- Cell list of the commit-graph generator (`generateGitGraphXML`). -/
def gitCells (m : GitModel) : List (Cell Geom) :=
  let bx := gitBranchX m.branches
  gitBranchCells bx m.branches ++
    gitCommitCellsAux m.branches (gitCommitPositions bx m.commits) 2 none m.commits

/-- Output document envelope (`wrapInDrawioXML`): fixed boilerplate around
the cell list, canvas size, and the two clock-derived fields (`modified`
timestamp and `diagram_${Date.now()}` id), with the clock passed explicitly
since the embedding is pure. -/
structure Document (γ : Type) where
  name : Str
  width : ℤ
  height : ℤ
  modifiedAt : ℕ
  diagramId : Str
  cells : List (Cell γ)

/-- Envelope assembly (`wrapInDrawioXML`). -/
def wrapInDrawioXML {γ : Type} (name : Str) (cells : List (Cell γ)) (width height : ℤ)
    (now : ℕ) : Document γ :=
  ⟨name, width, height, now, str "diagram_" ++ toDec now, cells⟩

/-- Full flowchart conversion output (`generateFlowchartXML`). -/
def generateFlowchartXML (m : FlowModel) (now : ℕ) : Document Geom :=
  wrapInDrawioXML (str "Flowchart") (flowCells m) 850 1100 now

/-- Full ER conversion output (`generateERDiagramXML`). -/
def generateERDiagramXML (m : ERModel) (now : ℕ) : Document Geom :=
  wrapInDrawioXML (str "ER Diagram") (erCells m) 1600 1200 now

/-- Full sequence conversion output (`generateSequenceDiagramXML`). -/
def generateSequenceDiagramXML (m : SeqModel) (now : ℕ) : Document Geom :=
  wrapInDrawioXML (str "Sequence Diagram") (seqCells m)
    (max 800 (180 * (m.participants.length : ℤ) + 100))
    (80 + 60 * (m.messages.length : ℤ) + 200) now

/-- Full class conversion output (`generateClassDiagramXML`);
`Math.ceil(n/3)` is `(n + 2) / 3` on naturals. -/
def generateClassDiagramXML (m : ClassModel) (now : ℕ) : Document Geom :=
  wrapInDrawioXML (str "Class Diagram") (classCells m)
    (max 800 (250 * (((m.classes.length + 2) / 3 : ℕ) : ℤ) + 150))
    (max 600 (200 * (((m.classes.length + 2) / 3 : ℕ) : ℤ) + 150)) now

/-- Full mindmap conversion output (`generateMindmapXML`): an empty 800×600
document when there is no root, else the positioned cells on the 2400×1800
canvas. -/
noncomputable def generateMindmapXML (m : MModel) (now : ℕ) : Document GeoR :=
  match m.root with
  | none => wrapInDrawioXML (str "Mindmap") [] 800 600 now
  | some _ => wrapInDrawioXML (str "Mindmap") (mindmapCells m) 2400 1800 now

/-- Full commit-graph conversion output (`generateGitGraphXML`). -/
def generateGitGraphXML (m : GitModel) (now : ℕ) : Document Geom :=
  wrapInDrawioXML (str "Git Graph") (gitCells m)
    (max 600 (100 * (m.branches.length : ℤ) + 200))
    (max 400 (60 * (m.commits.length : ℤ) + 100)) now

/-- Decimal parsing, left inverse of `toDec`. -/
def fromDec (l : Str) : ℕ := l.foldl (fun acc c => acc * 10 + (c.toNat - 48)) 0

theorem digitChar_toNat (d : ℕ) (h : d < 10) : (digitChar d).toNat = 48 + d := by
  interval_cases d <;> decide

theorem fromDec_append_digit (l : Str) (c : Char) :
    fromDec (l ++ [c]) = fromDec l * 10 + (c.toNat - 48) := by
  simp [fromDec, List.foldl_append]

theorem fromDec_toDecAux : ∀ fuel n, n < fuel → fromDec (toDecAux fuel n) = n := by
  intro fuel
  induction fuel with
  | zero => intro n h; omega
  | succ f ih =>
    intro n h
    by_cases h10 : n < 10
    · simp [toDecAux, h10, fromDec, digitChar_toNat n h10]
    · have hd : n / 10 < f := by
        have h1 : n / 10 < n := Nat.div_lt_self (by omega) (by omega)
        omega
      have hmod : n % 10 < 10 := Nat.mod_lt _ (by omega)
      simp only [toDecAux, if_neg h10]
      rw [fromDec_append_digit, ih _ hd, digitChar_toNat _ hmod]
      omega

theorem fromDec_toDec (n : ℕ) : fromDec (toDec n) = n :=
  fromDec_toDecAux (n + 1) n (Nat.lt_succ_self n)

theorem toDec_inj : Function.Injective toDec := by
  intro a b h
  have := congrArg fromDec h
  rwa [fromDec_toDec, fromDec_toDec] at this

/-- C8: the flow-dialect input `flowchart TD\nA[Start] --> B{Check}\nB
-->|Yes| C[Done]` parses to exactly the model with nodes A (label Start,
rectangle `[]`), B (label Check, diamond `{}`), C (label Done, rectangle
`[]`), and the two edges A→B unlabelled and B→C labelled "Yes", direction
TD. -/
theorem flowchart_example_parse :
    parseFlowchart (str "flowchart TD\nA[Start] --> B\x7bCheck\x7d\nB -->|Yes| C[Done]") =
      ⟨[⟨str "A", str "Start", str "[]"⟩, ⟨str "B", str "Check", str "\x7b\x7d"⟩,
        ⟨str "C", str "Done", str "[]"⟩],
       [⟨str "A", str "B", none⟩, ⟨str "B", str "C", some (str "Yes")⟩],
       str "TD"⟩ := by decide

/-- C9: every layout engine/generator is a pure function of the canonical
model — the only external input of the conversion, the clock `now` used by the
envelope, does not influence any emitted cell (ids, values, positions, sizes,
routing); so two runs on the same model produce identical cell lists. -/
theorem layout_deterministic :
    (∀ (m : FlowModel) (t1 t2 : ℕ),
      (generateFlowchartXML m t1).cells = (generateFlowchartXML m t2).cells)
    ∧ (∀ (m : ERModel) (t1 t2 : ℕ),
      (generateERDiagramXML m t1).cells = (generateERDiagramXML m t2).cells)
    ∧ (∀ (m : SeqModel) (t1 t2 : ℕ),
      (generateSequenceDiagramXML m t1).cells = (generateSequenceDiagramXML m t2).cells)
    ∧ (∀ (m : ClassModel) (t1 t2 : ℕ),
      (generateClassDiagramXML m t1).cells = (generateClassDiagramXML m t2).cells)
    ∧ (∀ (m : MModel) (t1 t2 : ℕ),
      (generateMindmapXML m t1).cells = (generateMindmapXML m t2).cells)
    ∧ (∀ (m : GitModel) (t1 t2 : ℕ),
      (generateGitGraphXML m t1).cells = (generateGitGraphXML m t2).cells) := by
  refine ⟨fun m t1 t2 => rfl, fun m t1 t2 => rfl, fun m t1 t2 => rfl, fun m t1 t2 => rfl,
    fun m t1 t2 => ?_, fun m t1 t2 => rfl⟩
  cases h : m.root <;> simp [generateMindmapXML, wrapInDrawioXML, h]

/-- C1: the gitGraph parser does NOT tolerate every undeclared-branch input:
`gitGraph\ncheckout ghost\ncommit` makes the source dereference
`branches.get('ghost').commits` with `branches.get('ghost')` undefined and
throw (modelled as `none`), contradicting the never-throws contract.  The
specific example of the claim does hold: `gitGraph\nmerge ghost` yields
exactly one MERGE commit on main and its serialization contains no connecting
edge. -/
theorem gitgraph_checkout_ghost_throws :
    parseGitGraph (str "gitGraph\ncheckout ghost\ncommit") = none
    ∧ (parseGitGraph (str "gitGraph\nmerge ghost")).map (fun m => m.commits) =
        some [⟨str "merge_0", none, str "MERGE", str "main", some (str "ghost")⟩]
    ∧ (parseGitGraph (str "gitGraph\nmerge ghost")).map (fun m => countEdges (gitCells m)) =
        some 0 := by decide


theorem repChar_append (c : Char) (r : Str) (a b : Str) :
    repChar c r (a ++ b) = repChar c r a ++ repChar c r b := by
  simp [repChar]

theorem escapeXML_append (a b : Str) :
    escapeXML (a ++ b) = escapeXML a ++ escapeXML b := by
  simp [escapeXML, repChar_append]

theorem escapeXML_single (c : Char) : escapeXML [c] = escChar c := by
  by_cases h1 : c = '&'
  · subst h1; rfl
  · by_cases h2 : c = '<'
    · subst h2; rfl
    · by_cases h3 : c = '>'
      · subst h3; rfl
      · by_cases h4 : c = '"'
        · subst h4; rfl
        · by_cases h5 : c = '\''
          · subst h5; rfl
          · simp [escapeXML, escChar, repChar, h1, h2, h3, h4, h5]

theorem escapeXML_eq_flatMap (l : Str) : escapeXML l = l.flatMap escChar := by
  induction l with
  | nil => rfl
  | cons c t ih =>
    have h : (c :: t) = [c] ++ t := rfl
    rw [h, escapeXML_append, ih, escapeXML_single]
    simp

theorem decode_cons_ne (c : Char) (r : Str) (h : c ≠ '&') :
    decodeEntities (c :: r) = c :: decodeEntities r := by
  rw [decodeEntities, if_neg h]

theorem decode_entity_amp (r : Str) :
    decodeEntities (str "&amp;" ++ r) = '&' :: decodeEntities r := by
  have h1 : str "&amp;" ++ r = '&' :: (str "amp;" ++ r) := rfl
  have h2 : startsWithS (str "amp;" ++ r) (str "amp;") = true := by
    simp [startsWithS, List.isPrefixOf_iff_prefix]
  rw [h1, decodeEntities.eq_2, if_pos rfl, if_pos h2]
  have h3 : (str "amp;" ++ r).drop 4 = r := List.drop_left (str "amp;") r
  rw [h3]

theorem decode_entity_lt (r : Str) :
    decodeEntities (str "&lt;" ++ r) = '<' :: decodeEntities r := by
  have h1 : str "&lt;" ++ r = '&' :: (str "lt;" ++ r) := rfl
  have h2 : startsWithS (str "lt;" ++ r) (str "amp;") = false := rfl
  have h3 : startsWithS (str "lt;" ++ r) (str "lt;") = true := by
    simp [startsWithS, List.isPrefixOf_iff_prefix]
  rw [h1, decodeEntities.eq_2, if_pos rfl, h2, if_pos h3]
  have h4 : (str "lt;" ++ r).drop 3 = r := List.drop_left (str "lt;") r
  rw [h4]
  simp

theorem decode_entity_gt (r : Str) :
    decodeEntities (str "&gt;" ++ r) = '>' :: decodeEntities r := by
  have h1 : str "&gt;" ++ r = '&' :: (str "gt;" ++ r) := rfl
  have h2 : startsWithS (str "gt;" ++ r) (str "amp;") = false := rfl
  have h2b : startsWithS (str "gt;" ++ r) (str "lt;") = false := rfl
  have h3 : startsWithS (str "gt;" ++ r) (str "gt;") = true := by
    simp [startsWithS, List.isPrefixOf_iff_prefix]
  rw [h1, decodeEntities.eq_2, if_pos rfl, h2, h2b, if_pos h3]
  have h4 : (str "gt;" ++ r).drop 3 = r := List.drop_left (str "gt;") r
  rw [h4]
  simp

theorem decode_entity_quot (r : Str) :
    decodeEntities (str "&quot;" ++ r) = '"' :: decodeEntities r := by
  have h1 : str "&quot;" ++ r = '&' :: (str "quot;" ++ r) := rfl
  have h2 : startsWithS (str "quot;" ++ r) (str "amp;") = false := rfl
  have h2b : startsWithS (str "quot;" ++ r) (str "lt;") = false := rfl
  have h2c : startsWithS (str "quot;" ++ r) (str "gt;") = false := rfl
  have h3 : startsWithS (str "quot;" ++ r) (str "quot;") = true := by
    simp [startsWithS, List.isPrefixOf_iff_prefix]
  rw [h1, decodeEntities.eq_2, if_pos rfl, h2, h2b, h2c, if_pos h3]
  have h4 : (str "quot;" ++ r).drop 5 = r := List.drop_left (str "quot;") r
  rw [h4]
  simp

theorem decode_entity_apos (r : Str) :
    decodeEntities (str "&apos;" ++ r) = '\'' :: decodeEntities r := by
  have h1 : str "&apos;" ++ r = '&' :: (str "apos;" ++ r) := rfl
  have h2 : startsWithS (str "apos;" ++ r) (str "amp;") = false := rfl
  have h2b : startsWithS (str "apos;" ++ r) (str "lt;") = false := rfl
  have h2c : startsWithS (str "apos;" ++ r) (str "gt;") = false := rfl
  have h2d : startsWithS (str "apos;" ++ r) (str "quot;") = false := rfl
  have h3 : startsWithS (str "apos;" ++ r) (str "apos;") = true := by
    simp [startsWithS, List.isPrefixOf_iff_prefix]
  rw [h1, decodeEntities.eq_2, if_pos rfl, h2, h2b, h2c, h2d, if_pos h3]
  have h4 : (str "apos;" ++ r).drop 5 = r := List.drop_left (str "apos;") r
  rw [h4]
  simp

theorem decode_escChar (c : Char) (r : Str) :
    decodeEntities (escChar c ++ r) = c :: decodeEntities r := by
  by_cases h1 : c = '&'
  · subst h1; exact decode_entity_amp r
  · by_cases h2 : c = '<'
    · subst h2; exact decode_entity_lt r
    · by_cases h3 : c = '>'
      · subst h3; exact decode_entity_gt r
      · by_cases h4 : c = '"'
        · subst h4; exact decode_entity_quot r
        · by_cases h5 : c = '\''
          · subst h5; exact decode_entity_apos r
          · simp only [escChar, h1, h2, h3, h4, h5, if_false]
            exact decode_cons_ne c r h1

theorem escChar_no_meta (c x : Char) (hx : x ∈ escChar c) :
    x ≠ '<' ∧ x ≠ '>' ∧ x ≠ '"' ∧ x ≠ '\'' := by
  by_cases h1 : c = '&'
  · subst h1; simp [escChar, str] at hx
    rcases hx with rfl | rfl | rfl | rfl | rfl <;> decide
  · by_cases h2 : c = '<'
    · subst h2; simp [escChar, str] at hx
      rcases hx with rfl | rfl | rfl | rfl <;> decide
    · by_cases h3 : c = '>'
      · subst h3; simp [escChar, str] at hx
        rcases hx with rfl | rfl | rfl | rfl <;> decide
      · by_cases h4 : c = '"'
        · subst h4; simp [escChar, str] at hx
          rcases hx with rfl | rfl | rfl | rfl | rfl | rfl <;> decide
        · by_cases h5 : c = '\''
          · subst h5; simp [escChar, str] at hx
            rcases hx with rfl | rfl | rfl | rfl | rfl | rfl <;> decide
          · simp [escChar, h1, h2, h3, h4, h5] at hx
            subst hx
            exact ⟨h2, h3, h4, h5⟩

/-- C4: `escapeXML` rewrites every character through the five-entity table
(all occurrences of the metacharacters are replaced and no raw `<`, `>`, `"`,
`'` survives), and decoding the five entities in the escaped result
reproduces the original label: decoding after escaping is the identity on
all strings. -/
theorem escape_decode_roundtrip (label : Str) :
    escapeXML label = label.flatMap escChar
    ∧ decodeEntities (escapeXML label) = label
    ∧ ∀ x ∈ escapeXML label, x ≠ '<' ∧ x ≠ '>' ∧ x ≠ '"' ∧ x ≠ '\'' := by
  refine ⟨escapeXML_eq_flatMap label, ?_, ?_⟩
  · rw [escapeXML_eq_flatMap]
    induction label with
    | nil => simp [decodeEntities]
    | cons c t ih => rw [List.flatMap_cons, decode_escChar, ih]
  · intro x hx
    rw [escapeXML_eq_flatMap] at hx
    obtain ⟨c, _, hc⟩ := List.mem_flatMap.mp hx
    exact escChar_no_meta c x hc

theorem toNat_ofNat_small (n : ℕ) (h : n < 55296) : (Char.ofNat n).toNat = n := by
  have hv : n.isValidChar := Or.inl h
  simp [Char.ofNat, hv, Char.ofNatAux, Char.toNat, UInt32.toNat]

theorem char_eq_iff (c d : Char) : c = d ↔ c.toNat = d.toNat := by
  constructor
  · intro h; rw [h]
  · intro h
    have h1 := Char.ofNat_toNat c
    have h2 := Char.ofNat_toNat d
    rw [h] at h1
    rw [← h1]
    exact h2

theorem isWhite_iff (c : Char) :
    isWhite c = true ↔
      (c.toNat = 32 ∨ c.toNat = 9 ∨ c.toNat = 10 ∨ c.toNat = 13 ∨ c.toNat = 11 ∨
        c.toNat = 12) := by
  have h1 : (' ').toNat = 32 := rfl
  have h2 : ('\t').toNat = 9 := rfl
  have h3 : ('\n').toNat = 10 := rfl
  have h4 : ('\r').toNat = 13 := rfl
  have h5 : ('\x0b').toNat = 11 := rfl
  have h6 : ('\x0c').toNat = 12 := rfl
  simp only [isWhite, Bool.or_eq_true, decide_eq_true_eq, char_eq_iff, h1, h2, h3, h4, h5, h6]
  tauto

theorem isWhite_toLowerChar (c : Char) : isWhite (toLowerChar c) = isWhite c := by
  unfold toLowerChar
  by_cases h : ('A' ≤ c && c ≤ 'Z') = true
  · rw [if_pos h]
    simp only [Bool.and_eq_true, decide_eq_true_eq] at h
    obtain ⟨h1, h2⟩ := h
    rw [Char.le_def] at h1 h2
    have h1n : 65 ≤ c.toNat := h1
    have h2n : c.toNat ≤ 90 := h2
    have hn : (Char.ofNat (c.toNat + 32)).toNat = c.toNat + 32 :=
      toNat_ofNat_small _ (by omega)
    have hl : isWhite (Char.ofNat (c.toNat + 32)) = false := by
      rw [← Bool.not_eq_true, isWhite_iff, hn]
      omega
    have hr : isWhite c = false := by
      rw [← Bool.not_eq_true, isWhite_iff]
      omega
    rw [hl, hr]
  · rw [if_neg h]

theorem dropWhile_append_all {p : Char → Bool} (a b : Str) (ha : ∀ x ∈ a, p x = true) :
    (a ++ b).dropWhile p = b.dropWhile p := by
  induction a with
  | nil => simp
  | cons x t ih =>
    simp only [List.cons_append, List.dropWhile_cons, ha x (by simp)]
    exact ih (fun y hy => ha y (by simp [hy]))

theorem takeWhile_all {p : Char → Bool} (l : Str) (h : ∀ x ∈ l, p x = true) :
    l.takeWhile p = l := by
  induction l with
  | nil => rfl
  | cons x t ih =>
    simp only [List.takeWhile_cons, h x (by simp)]
    simp only [if_true]
    rw [ih (fun y hy => h y (by simp [hy]))]

/-- Whitespace-only string. -/
def allWhite (l : Str) : Prop := ∀ c ∈ l, isWhite c = true

instance (l : Str) : Decidable (allWhite l) := List.decidableBAll _ l

theorem trim_sandwich (ws0 s ws : Str) (h0 : allWhite ws0) (hw : allWhite ws)
    (hs : s ≠ []) (hh : ∀ c ∈ s.head?, isWhite c = false)
    (hl : ∀ c ∈ s.getLast?, isWhite c = false) :
    trim (ws0 ++ s ++ ws) = s := by
  obtain ⟨c, t, rfl⟩ := List.exists_cons_of_ne_nil hs
  unfold trim
  rw [List.append_assoc, dropWhile_append_all ws0 _ h0]
  have hc : isWhite c = false := hh c rfl
  rw [List.cons_append, List.dropWhile_cons, hc]
  simp only [Bool.false_eq_true, if_false]
  have e1 : c :: (t ++ ws) = (c :: t) ++ ws := rfl
  rw [e1, List.reverse_append,
    dropWhile_append_all _ _ (fun x hx => hw x (by simpa using hx))]
  have hne : (c :: t).reverse ≠ [] := by simp
  obtain ⟨d, u, hdu⟩ := List.exists_cons_of_ne_nil hne
  have hd : (c :: t).getLast? = some d := by
    rw [← List.head?_reverse, hdu]
    rfl
  have hdw : isWhite d = false := hl d hd
  rw [hdu, List.dropWhile_cons, hdw]
  simp only [Bool.false_eq_true, if_false]
  rw [← hdu, List.reverse_reverse]

theorem firstLineOf_sandwich (ws0 s ws : Str) (h0 : allWhite ws0) (hw : allWhite ws)
    (hs : s ≠ []) (hh : ∀ c ∈ s.head?, isWhite c = false)
    (hl : ∀ c ∈ s.getLast?, isWhite c = false) (hn : '\n' ∉ s) :
    firstLineOf (ws0 ++ s ++ ws) = s := by
  unfold firstLineOf
  rw [trim_sandwich ws0 s ws h0 hw hs hh hl]
  exact takeWhile_all s (fun x hx => by
    simp only [decide_eq_true_eq]
    intro hx2
    exact hn (hx2 ▸ hx))

theorem keyword_firstline (ws0 s ws kw : Str) (h0 : allWhite ws0) (hw : allWhite ws)
    (hk : toLower s = kw) (hkne : kw ≠ [])
    (hhd : ∀ c ∈ kw.head?, isWhite c = false)
    (hlt : ∀ c ∈ kw.getLast?, isWhite c = false)
    (hnl : '\n' ∉ kw) :
    toLower (firstLineOf (ws0 ++ s ++ ws)) = kw := by
  have hs : s ≠ [] := by
    intro h
    rw [h] at hk
    exact hkne hk.symm
  have hh : ∀ c ∈ s.head?, isWhite c = false := by
    obtain ⟨c0, t, rfl⟩ := List.exists_cons_of_ne_nil hs
    intro c hc
    simp only [List.head?_cons, Option.mem_def, Option.some.injEq] at hc
    have hkh : kw.head? = some (toLowerChar c0) := by
      rw [← hk]
      rfl
    have hw0 := hhd (toLowerChar c0) hkh
    rw [← hc, ← isWhite_toLowerChar]
    exact hw0
  have hl : ∀ c ∈ s.getLast?, isWhite c = false := by
    intro c hc
    have hmap : kw.getLast? = s.getLast?.map toLowerChar := by
      rw [← hk]
      exact (List.getLast?_map toLowerChar s)
    rw [Option.mem_def] at hc
    have : kw.getLast? = some (toLowerChar c) := by rw [hmap, hc]; rfl
    have := hlt (toLowerChar c) this
    rw [← isWhite_toLowerChar]
    exact this
  have hn : '\n' ∉ s := by
    intro hmem
    apply hnl
    have : toLowerChar '\n' ∈ toLower s := List.mem_map_of_mem toLowerChar hmem
    rw [hk] at this
    exact this
  rw [firstLineOf_sandwich ws0 s ws h0 hw hs hh hl hn, hk]

theorem forall_mem_some {P : Char → Prop} (c0 : Char) (h : P c0) : ∀ c ∈ some c0, P c := by
  intro c hc
  rw [Option.mem_def] at hc
  injection hc with h2
  rwa [← h2]

/-- C3: for each of the six canonical dialect keyword forms on the first
non-blank line — in any letter case, with arbitrary surrounding whitespace —
the type detector returns the matching dialect, testing the keywords in the
fixed precedence order gitgraph, erdiagram, sequencediagram, classdiagram,
mindmap, flowchart/graph; in particular `gitGraph` is classified as the
commit-graph dialect even though it contains the generic keyword `graph`; and
a first line containing none of the keywords is classified `unknown`. -/
theorem detect_roundtrip :
    (∀ ws0 s ws, allWhite ws0 → allWhite ws → toLower s = str "gitgraph" →
      detectDiagramType (ws0 ++ s ++ ws) = str "gitgraph")
    ∧ (∀ ws0 s ws, allWhite ws0 → allWhite ws → toLower s = str "erdiagram" →
      detectDiagramType (ws0 ++ s ++ ws) = str "erDiagram")
    ∧ (∀ ws0 s ws, allWhite ws0 → allWhite ws → toLower s = str "sequencediagram" →
      detectDiagramType (ws0 ++ s ++ ws) = str "sequence")
    ∧ (∀ ws0 s ws, allWhite ws0 → allWhite ws → toLower s = str "classdiagram" →
      detectDiagramType (ws0 ++ s ++ ws) = str "class")
    ∧ (∀ ws0 s ws, allWhite ws0 → allWhite ws → toLower s = str "mindmap" →
      detectDiagramType (ws0 ++ s ++ ws) = str "mindmap")
    ∧ (∀ ws0 s ws, allWhite ws0 → allWhite ws → toLower s = str "flowchart" →
      detectDiagramType (ws0 ++ s ++ ws) = str "flowchart")
    ∧ (∀ input, containsSub (toLower (firstLineOf input)) (str "gitgraph") = false →
        containsSub (toLower (firstLineOf input)) (str "erdiagram") = false →
        containsSub (toLower (firstLineOf input)) (str "sequencediagram") = false →
        containsSub (toLower (firstLineOf input)) (str "classdiagram") = false →
        containsSub (toLower (firstLineOf input)) (str "mindmap") = false →
        containsSub (toLower (firstLineOf input)) (str "flowchart") = false →
        containsSub (toLower (firstLineOf input)) (str "graph") = false →
        detectDiagramType input = str "unknown") := by
  refine ⟨?_, ?_, ?_, ?_, ?_, ?_, ?_⟩
  · intro ws0 s ws h0 hw hk
    have hkey := keyword_firstline ws0 s ws (str "gitgraph") h0 hw hk (by decide)
      (forall_mem_some 'g' (by decide)) (forall_mem_some 'h' (by decide)) (by decide)
    simp only [detectDiagramType, hkey]
    decide
  · intro ws0 s ws h0 hw hk
    have hkey := keyword_firstline ws0 s ws (str "erdiagram") h0 hw hk (by decide)
      (forall_mem_some 'e' (by decide)) (forall_mem_some 'm' (by decide)) (by decide)
    simp only [detectDiagramType, hkey]
    decide
  · intro ws0 s ws h0 hw hk
    have hkey := keyword_firstline ws0 s ws (str "sequencediagram") h0 hw hk (by decide)
      (forall_mem_some 's' (by decide)) (forall_mem_some 'm' (by decide)) (by decide)
    simp only [detectDiagramType, hkey]
    decide
  · intro ws0 s ws h0 hw hk
    have hkey := keyword_firstline ws0 s ws (str "classdiagram") h0 hw hk (by decide)
      (forall_mem_some 'c' (by decide)) (forall_mem_some 'm' (by decide)) (by decide)
    simp only [detectDiagramType, hkey]
    decide
  · intro ws0 s ws h0 hw hk
    have hkey := keyword_firstline ws0 s ws (str "mindmap") h0 hw hk (by decide)
      (forall_mem_some 'm' (by decide)) (forall_mem_some 'p' (by decide)) (by decide)
    simp only [detectDiagramType, hkey]
    decide
  · intro ws0 s ws h0 hw hk
    have hkey := keyword_firstline ws0 s ws (str "flowchart") h0 hw hk (by decide)
      (forall_mem_some 'f' (by decide)) (forall_mem_some 't' (by decide)) (by decide)
    simp only [detectDiagramType, hkey]
    decide
  · intro input h1 h2 h3 h4 h5 h6 h7
    simp [detectDiagramType, h1, h2, h3, h4, h5, h6, h7]

/-- Witness for C3: concrete instantiations — a cased `GitGraph` line with
trailing blanks detects as the commit-graph dialect (not flow), each other
canonical keyword detects as its dialect, and a keyword-free first line is
unknown. -/
theorem detect_roundtrip_witness :
    detectDiagramType ([] ++ str "GitGraph" ++ [' ', ' ']) = str "gitgraph"
    ∧ detectDiagramType ([' '] ++ str "erDiagram" ++ ['\t']) = str "erDiagram"
    ∧ detectDiagramType ([] ++ str "sequenceDiagram" ++ []) = str "sequence"
    ∧ detectDiagramType ([] ++ str "classDiagram" ++ []) = str "class"
    ∧ detectDiagramType ([] ++ str "MindMap" ++ []) = str "mindmap"
    ∧ detectDiagramType ([] ++ str "Flowchart" ++ [' ']) = str "flowchart"
    ∧ detectDiagramType (str "hello world\ngraph TD") = str "unknown" :=
  ⟨detect_roundtrip.1 [] (str "GitGraph") [' ', ' '] (by decide) (by decide) (by decide),
   detect_roundtrip.2.1 [' '] (str "erDiagram") ['\t'] (by decide) (by decide) (by decide),
   detect_roundtrip.2.2.1 [] (str "sequenceDiagram") [] (by decide) (by decide) (by decide),
   detect_roundtrip.2.2.2.1 [] (str "classDiagram") [] (by decide) (by decide) (by decide),
   detect_roundtrip.2.2.2.2.1 [] (str "MindMap") [] (by decide) (by decide) (by decide),
   detect_roundtrip.2.2.2.2.2.1 [] (str "Flowchart") [' '] (by decide) (by decide) (by decide),
   detect_roundtrip.2.2.2.2.2.2 (str "hello world\ngraph TD") (by decide) (by decide)
     (by decide) (by decide) (by decide) (by decide) (by decide)⟩

theorem hasEntity_add_self (es : List Entity) (n : Str) :
    hasEntity (addEntityIfAbsent es n) n = true := by
  unfold addEntityIfAbsent
  by_cases h : hasEntity es n = true
  · rw [if_pos h]; exact h
  · rw [if_neg h]
    unfold hasEntity
    rw [List.any_append]
    simp [hasEntity] at h ⊢

theorem hasEntity_add_mono (es : List Entity) (n m : Str) (h : hasEntity es m = true) :
    hasEntity (addEntityIfAbsent es n) m = true := by
  unfold addEntityIfAbsent
  by_cases hn : hasEntity es n = true
  · rw [if_pos hn]; exact h
  · rw [if_neg hn]
    unfold hasEntity at h ⊢
    rw [List.any_append, h]
    rfl

theorem hasEntity_pushAttr (es : List Entity) (n m : Str) (a : ERAttr) :
    hasEntity (pushAttr es n a) m = hasEntity es m := by
  induction es with
  | nil => rfl
  | cons e rest ih =>
    unfold pushAttr
    by_cases h : e.name = n
    · rw [if_pos h]
      simp [hasEntity]
    · rw [if_neg h]
      simp [hasEntity] at ih ⊢
      rw [ih]

/-- Both endpoints of every recorded relationship are registered entities. -/
def erEndpointsOk (st : ERState) : Prop :=
  ∀ r ∈ st.relationships,
    hasEntity st.entities r.source = true ∧ hasEntity st.entities r.target = true

theorem erStep_endpoints (st : ERState) (line : Str) (h : erEndpointsOk st) :
    erEndpointsOk (erStep st line) := by
  unfold erStep
  by_cases hskip : (trim line = str "erDiagram" || decide (trim line = [])) = true
  · simp only [Bool.or_eq_true, decide_eq_true_eq] at hskip
    rcases hskip with hs | hs <;> simp [hs, h]
  · simp only [Bool.or_eq_true, decide_eq_true_eq] at hskip
    push_neg at hskip
    rw [if_neg (by simp [hskip.1, hskip.2])]
    cases hrel : matchERRel (trim line) with
    | some rel =>
      intro r hr
      simp only [List.mem_append, List.mem_singleton] at hr
      rcases hr with hr | hr
      · obtain ⟨h1, h2⟩ := h r hr
        exact ⟨hasEntity_add_mono _ _ _ (hasEntity_add_mono _ _ _ h1),
          hasEntity_add_mono _ _ _ (hasEntity_add_mono _ _ _ h2)⟩
      · subst hr
        exact ⟨hasEntity_add_mono _ _ _ (hasEntity_add_self _ _),
          hasEntity_add_self _ _⟩
    | none =>
      cases hent : matchEntityStart (trim line) with
      | some n =>
        intro r hr
        obtain ⟨h1, h2⟩ := h r hr
        exact ⟨hasEntity_add_mono _ _ _ h1, hasEntity_add_mono _ _ _ h2⟩
      | none =>
        by_cases hclose : trim line = ['\x7d']
        · rw [if_pos hclose]
          exact fun r hr => h r hr
        · rw [if_neg hclose]
          cases hcur : st.currentEntity with
          | some cur =>
            cases hattr : matchERAttr (trim line) with
            | some a =>
              intro r hr
              obtain ⟨h1, h2⟩ := h r hr
              rw [hasEntity_pushAttr, hasEntity_pushAttr]
              exact ⟨h1, h2⟩
            | none => exact h
          | none => exact h

theorem erFold_endpoints (lines : List Str) (st : ERState) (h : erEndpointsOk st) :
    erEndpointsOk (lines.foldl erStep st) := by
  induction lines generalizing st with
  | nil => exact h
  | cons l rest ih => exact ih _ (erStep_endpoints st l h)

theorem alookup_some_of_mem_keys {α : Type} (m : List (Str × α)) (k : Str)
    (h : k ∈ m.map Prod.fst) : ∃ v, alookup m k = some v := by
  induction m with
  | nil => simp at h
  | cons p rest ih =>
    simp only [List.map_cons, List.mem_cons] at h
    unfold alookup
    by_cases hk : p.1 = k
    · rw [if_pos hk]; exact ⟨p.2, rfl⟩
    · rw [if_neg hk]
      rcases h with h | h
      · exact absurd h.symm hk
      · exact ih h

theorem erPositions_keys (es : List Entity) :
    (erPositions es).map Prod.fst = es.map Entity.name := by
  unfold erPositions
  rw [List.map_map]
  have h : (Prod.fst ∘ fun p : ℕ × Entity => (p.2.name, erEntityGeom p.1 p.2)) =
      (Entity.name ∘ Prod.snd) := rfl
  rw [h, ← List.map_map, List.enum_map_snd]

theorem alookup_erPositions (es : List Entity) (n : Str) (h : hasEntity es n = true) :
    (alookup (erPositions es) n).isSome = true := by
  unfold hasEntity at h
  rw [List.any_eq_true] at h
  obtain ⟨e, he, hn⟩ := h
  rw [decide_eq_true_eq] at hn
  have hmem : n ∈ (erPositions es).map Prod.fst := by
    rw [erPositions_keys]
    exact hn ▸ List.mem_map_of_mem Entity.name he
  obtain ⟨v, hv⟩ := alookup_some_of_mem_keys _ _ hmem
  rw [hv]
  rfl

theorem erEdgeCellsAux_length (pos : List (Str × Geom)) (rels : List ERRel)
    (h : ∀ r ∈ rels,
      (alookup pos r.source).isSome = true ∧ (alookup pos r.target).isSome = true) :
    ∀ cid, (erEdgeCellsAux pos cid rels).length = rels.length ∧
      ∀ c ∈ erEdgeCellsAux pos cid rels, c.kind = CellKind.edge := by
  induction rels with
  | nil => intro cid; exact ⟨rfl, by simp [erEdgeCellsAux]⟩
  | cons r rest ih =>
    intro cid
    obtain ⟨h1, h2⟩ := h r (by simp)
    obtain ⟨g1, hg1⟩ := Option.isSome_iff_exists.mp h1
    obtain ⟨g2, hg2⟩ := Option.isSome_iff_exists.mp h2
    have ihr := ih (fun x hx => h x (by simp [hx])) (cid + 1)
    constructor
    · simp only [erEdgeCellsAux, hg1, hg2, List.length_cons, ihr.1]
    · intro c hc
      simp only [erEdgeCellsAux, hg1, hg2, List.mem_cons] at hc
      rcases hc with hc | hc
      · rw [hc]; rfl
      · exact ihr.2 c hc

theorem countEdges_append {γ : Type} (a b : List (Cell γ)) :
    countEdges (a ++ b) = countEdges a + countEdges b := by
  simp [countEdges, List.filter_append]

theorem countEdges_vertex_zero {γ : Type} (cells : List (Cell γ))
    (h : ∀ c ∈ cells, c.kind = CellKind.vertex) : countEdges cells = 0 := by
  unfold countEdges
  rw [List.filter_eq_nil_iff.mpr]
  · rfl
  · intro c hc
    rw [h c hc]
    decide

theorem countEdges_all_edges {γ : Type} (cells : List (Cell γ))
    (h : ∀ c ∈ cells, c.kind = CellKind.edge) : countEdges cells = cells.length := by
  unfold countEdges
  rw [List.filter_eq_self.mpr]
  intro c hc
  rw [h c hc]
  rfl

theorem erEntityBlock_vertex (i : ℕ) (e : Entity) :
    ∀ c ∈ erEntityCellBlock i e, c.kind = CellKind.vertex := by
  intro c hc
  unfold erEntityCellBlock at hc
  rcases List.mem_cons.mp hc with hc | hc
  · rw [hc]; rfl
  · obtain ⟨p, _, hp⟩ := List.mem_map.mp hc
    rw [← hp]
    rfl

/-- For every diagram produced by the ER parser, the number of relationship
edge cells in the serialized output equals the number of parsed
relationships — the silent-drop branch of the layout is never taken, because
the ER parser auto-registers both endpoints of every relationship it
records. -/
theorem er_relationship_conservation (input : Str) :
    countEdges (erCells (parseERDiagram input)) =
      (parseERDiagram input).relationships.length := by
  unfold parseERDiagram
  have hinv : erEndpointsOk ((splitLines (trim input)).foldl erStep ⟨[], [], none⟩) :=
    erFold_endpoints _ _ (by intro r hr; simp at hr)
  set fin := (splitLines (trim input)).foldl erStep ⟨[], [], none⟩ with hfin
  have hlk : ∀ r ∈ fin.relationships,
      (alookup (erPositions fin.entities) r.source).isSome = true ∧
      (alookup (erPositions fin.entities) r.target).isSome = true := by
    intro r hr
    obtain ⟨h1, h2⟩ := hinv r hr
    exact ⟨alookup_erPositions _ _ h1, alookup_erPositions _ _ h2⟩
  have haux := erEdgeCellsAux_length (erPositions fin.entities) fin.relationships hlk 2
  unfold erCells
  rw [countEdges_append]
  have hz : countEdges ((ERModel.mk fin.entities fin.relationships).entities.enum.flatMap
      (fun p => erEntityCellBlock p.1 p.2)) = 0 := by
    apply countEdges_vertex_zero
    intro c hc
    obtain ⟨p, _, hp⟩ := List.mem_flatMap.mp hc
    exact erEntityBlock_vertex p.1 p.2 c hp
  rw [hz, countEdges_all_edges _ haux.2, haux.1]
  simp

/-- Counterexample to C2 as stated: for the mindmap input
`mindmap\nA\n  B\nC` the canonical model records one parent/child
relationship (B under A), but the serialized output contains zero connector
edge cells — the generator lays out only the subtree of the LAST top-level
node (C), so the node cells for A and B and the connector into that subtree
are silently dropped. -/
theorem relationship_conservation_counterexample :
    countEdges (mindmapCells (parseMindmap (str "mindmap\nA\n  B\nC"))) = 0
    ∧ ((parseMindmap (str "mindmap\nA\n  B\nC")).nodes.filter
        (fun n => n.parentId.isSome)).length = 1 := by decide

/-- Modelled from the spec: downward scan for the greatest index `j` below
the scan start whose level is strictly smaller than `L` — "the nearest
preceding node with a smaller nesting depth". -/
def scanSmaller (levels : List ℕ) (L : ℕ) : ℕ → Option ℕ
  | 0 => none
  | j + 1 => if levels.getD j 0 < L then some j else scanSmaller levels L j

/-- Modelled from the spec: the nearest preceding index with strictly smaller
level than index `i`. -/
def nearestSmaller (levels : List ℕ) (i : ℕ) : Option ℕ :=
  scanSmaller levels (levels.getD i 0) i

/-- Level/text pairs of the content lines (everything `parseMindmap` does not
skip), in order. -/
def mindContent (lines : List Str) : List (ℕ × Str) :=
  lines.filterMap (fun l =>
    if trim l = str "mindmap" || trim l = [] then none
    else some ((l.takeWhile isWhite).length / 2, trim l))

/-- The node `parseMindmap` builds at index `i` from a level/text pair, with
its parent resolved through `scanSmaller`. -/
def mkMNode (levels : List ℕ) (i : ℕ) (p : ℕ × Str) : MNode :=
  ⟨nodeIdStr i, (mindmapShape p.2).1, (mindmapShape p.2).2, p.1,
   (scanSmaller levels p.1 i).map nodeIdStr⟩

/-- Indexed node construction for a content list. -/
def nodesForAux (levels : List ℕ) : ℕ → List (ℕ × Str) → List MNode
  | _, [] => []
  | i, p :: rest => mkMNode levels i p :: nodesForAux levels (i + 1) rest

/-- Nodes of a content list. -/
def nodesFor (c : List (ℕ × Str)) : List MNode := nodesForAux (c.map Prod.fst) 0 c

/-- Replay of the ancestor-stack evolution over a level list. -/
def stackForAux : ℕ → List ℕ → List (ℕ × ℕ) → List (ℕ × ℕ)
  | _, [], stk => stk
  | i, L :: rest, stk =>
    stackForAux (i + 1) rest ((i, L) :: stk.dropWhile (fun e => L ≤ e.2))

/-- The ancestor stack after processing a level list. -/
def stackFor (ls : List ℕ) : List (ℕ × ℕ) := stackForAux 0 ls []

/-- Closed form of the parser state after any content prefix. -/
def stateFor (c : List (ℕ × Str)) : MState := ⟨nodesFor c, stackFor (c.map Prod.fst)⟩

theorem scanSmaller_congr (ls more : List ℕ) (L : ℕ) :
    ∀ j, j ≤ ls.length → scanSmaller (ls ++ more) L j = scanSmaller ls L j := by
  intro j
  induction j with
  | zero => intro _; rfl
  | succ j ih =>
    intro hj
    unfold scanSmaller
    rw [List.getD_append _ _ _ _ (by omega), ih (by omega)]

theorem dropWhile_dropWhile {α : Type} {p q : α → Bool} (l : List α)
    (h : ∀ e, q e = true → p e = true) :
    (l.dropWhile q).dropWhile p = l.dropWhile p := by
  induction l with
  | nil => rfl
  | cons x t ih =>
    by_cases hq : q x = true
    · rw [List.dropWhile_cons, if_pos hq, List.dropWhile_cons, if_pos (h x hq), ih]
    · rw [List.dropWhile_cons, if_neg hq]

theorem nodesForAux_snoc (levels : List ℕ) (c : List (ℕ × Str)) (x : ℕ × Str) :
    ∀ i, nodesForAux levels i (c ++ [x]) =
      nodesForAux levels i c ++ [mkMNode levels (i + c.length) x] := by
  induction c with
  | nil => intro i; simp [nodesForAux]
  | cons p rest ih =>
    intro i
    simp only [List.cons_append, nodesForAux, List.append_eq]
    rw [ih (i + 1)]
    have h : i + 1 + rest.length = i + (p :: rest).length := by
      simp only [List.length_cons]
      omega
    rw [h]

theorem nodesForAux_congr (ls more : List ℕ) (c : List (ℕ × Str)) :
    ∀ i, i + c.length ≤ ls.length →
      nodesForAux (ls ++ more) i c = nodesForAux ls i c := by
  induction c with
  | nil => intro i _; rfl
  | cons p rest ih =>
    intro i hi
    simp only [List.length_cons] at hi
    unfold nodesForAux
    rw [ih (i + 1) (by omega)]
    unfold mkMNode
    rw [scanSmaller_congr ls more p.1 i (by omega)]

theorem nodesForAux_length (levels : List ℕ) :
    ∀ i (c : List (ℕ × Str)), (nodesForAux levels i c).length = c.length := by
  intro i c
  induction c generalizing i with
  | nil => rfl
  | cons p rest ih => simp [nodesForAux, ih]

theorem nodesForAux_get (levels : List ℕ) :
    ∀ (c : List (ℕ × Str)) i k, (nodesForAux levels i c).get? k =
      (c.get? k).map (fun p => mkMNode levels (i + k) p) := by
  intro c
  induction c with
  | nil => intro i k; simp [nodesForAux]
  | cons p rest ih =>
    intro i k
    cases k with
    | zero => simp [nodesForAux]
    | succ k =>
      simp only [nodesForAux, List.get?_cons_succ, ih (i + 1) k]
      have h : i + 1 + k = i + (k + 1) := by omega
      rw [h]

theorem stackForAux_snoc (ls : List ℕ) (L : ℕ) :
    ∀ i stk, stackForAux i (ls ++ [L]) stk =
      (i + ls.length, L) ::
        (stackForAux i ls stk).dropWhile (fun e => L ≤ e.2) := by
  induction ls with
  | nil => intro i stk; simp [stackForAux]
  | cons L0 rest ih =>
    intro i stk
    simp only [List.cons_append, stackForAux, List.append_eq]
    rw [ih (i + 1)]
    have h : i + 1 + rest.length = i + (L0 :: rest).length := by
      simp only [List.length_cons]
      omega
    rw [h]

theorem stackFor_snoc (ls : List ℕ) (L : ℕ) :
    stackFor (ls ++ [L]) = (ls.length, L) :: (stackFor ls).dropWhile (fun e => L ≤ e.2) := by
  unfold stackFor
  rw [stackForAux_snoc]
  rw [Nat.zero_add]

theorem scanSmaller_succ (ls : List ℕ) (L j : ℕ) :
    scanSmaller ls L (j + 1) = if ls.getD j 0 < L then some j else scanSmaller ls L j := rfl

theorem stackFor_head (ls : List ℕ) (L : ℕ) :
    (((stackFor ls).dropWhile (fun e => L ≤ e.2)).head?).map Prod.fst =
      scanSmaller ls L ls.length := by
  induction ls using List.reverseRecOn with
  | nil => rfl
  | append_singleton ls L0 ih =>
    have hlen : (ls ++ [L0]).length = ls.length + 1 := by simp
    have hget : (ls ++ [L0]).getD ls.length 0 = L0 := by
      rw [List.getD_append_right _ _ _ _ (le_refl _)]
      simp
    rw [stackFor_snoc, hlen, scanSmaller_succ, hget]
    by_cases hL : L ≤ L0
    · rw [List.dropWhile_cons, if_pos (by simpa using hL),
        dropWhile_dropWhile _ (fun e he => by
          simp only [decide_eq_true_eq] at he ⊢
          omega),
        ih, if_neg (by omega), scanSmaller_congr ls [L0] L ls.length (le_refl _)]
    · rw [List.dropWhile_cons, if_neg (by simpa using hL), if_pos (by omega)]
      rfl

theorem mindStep_content (c : List (ℕ × Str)) (l : Str)
    (h : ¬((trim l = str "mindmap" || trim l = []) = true)) :
    mindStep (stateFor c) l =
      stateFor (c ++ [((l.takeWhile isWhite).length / 2, trim l)]) := by
  unfold mindStep
  rw [if_neg h]
  have hlenm : (c.map Prod.fst).length = c.length := List.length_map _ _
  have hmap : (c ++ [((l.takeWhile isWhite).length / 2, trim l)]).map Prod.fst =
      c.map Prod.fst ++ [(l.takeWhile isWhite).length / 2] := by
    rw [List.map_append]
    rfl
  simp only [stateFor, MState.mk.injEq]
  constructor
  · show nodesFor c ++ _ = nodesFor (c ++ [((l.takeWhile isWhite).length / 2, trim l)])
    unfold nodesFor
    rw [hmap, nodesForAux_snoc, nodesForAux_congr _ _ c 0 (by omega)]
    congr 1
    unfold mkMNode
    simp only [Nat.zero_add]
    have hid : (nodesForAux (c.map Prod.fst) 0 c).length = c.length :=
      nodesForAux_length _ _ _
    rw [hid]
    have hpar : (((stackFor (c.map Prod.fst)).dropWhile
          (fun e => (l.takeWhile isWhite).length / 2 ≤ e.2)).head?).map
            (fun e => nodeIdStr e.1) =
        (scanSmaller (c.map Prod.fst ++ [(l.takeWhile isWhite).length / 2])
          ((l.takeWhile isWhite).length / 2) c.length).map nodeIdStr := by
      rw [scanSmaller_congr _ _ _ c.length (by omega)]
      rw [← hlenm, ← stackFor_head]
      rw [Option.map_map]
      rfl
    rw [hpar]
  · show (_, _) :: _ = stackFor _
    rw [hmap, stackFor_snoc]
    have hid : (nodesForAux (c.map Prod.fst) 0 c).length = c.length :=
      nodesForAux_length _ _ _
    show ((nodesFor c).length, _) :: _ = _
    unfold nodesFor
    rw [hid, hlenm]

theorem mindFold_stateFor (lines : List Str) : ∀ (c : List (ℕ × Str)),
    lines.foldl mindStep (stateFor c) = stateFor (c ++ mindContent lines) := by
  induction lines with
  | nil => intro c; simp [mindContent]
  | cons l rest ih =>
    intro c
    rw [List.foldl_cons]
    by_cases hskip : (trim l = str "mindmap" || trim l = []) = true
    · have h1 : mindStep (stateFor c) l = stateFor c := by
        unfold mindStep
        rw [if_pos hskip]
      have h2 : mindContent (l :: rest) = mindContent rest := by
        unfold mindContent
        rw [List.filterMap_cons, if_pos hskip]
      rw [h1, ih c, h2]
    · have h2 : mindContent (l :: rest) =
          ((l.takeWhile isWhite).length / 2, trim l) :: mindContent rest := by
        unfold mindContent
        rw [List.filterMap_cons, if_neg hskip]
      rw [mindStep_content c l hskip, ih _, h2]
      congr 1
      simp

theorem parseMindmap_nodes (input : Str) :
    (parseMindmap input).nodes = nodesFor (mindContent (splitLines (trim input))) := by
  unfold parseMindmap
  have h0 : (⟨[], []⟩ : MState) = stateFor [] := rfl
  rw [h0, mindFold_stateFor (splitLines (trim input)) [], List.nil_append]
  rfl

theorem scanSmaller_spec (ls : List ℕ) (L : ℕ) : ∀ i,
    (∀ j, scanSmaller ls L i = some j →
      j < i ∧ ls.getD j 0 < L ∧ ∀ k, j < k → k < i → ¬(ls.getD k 0 < L))
    ∧ (scanSmaller ls L i = none → ∀ k, k < i → ¬(ls.getD k 0 < L)) := by
  intro i
  induction i with
  | zero =>
    refine ⟨fun j hj => by simp [scanSmaller] at hj, fun _ k hk => absurd hk (by omega)⟩
  | succ i ih =>
    by_cases hlt : ls.getD i 0 < L
    · refine ⟨fun j hj => ?_, fun hn => ?_⟩
      · rw [scanSmaller_succ, if_pos hlt] at hj
        injection hj with hj
        subst hj
        exact ⟨by omega, hlt, fun k hk1 hk2 => by omega⟩
      · rw [scanSmaller_succ, if_pos hlt] at hn
        exact absurd hn (by simp)
    · refine ⟨fun j hj => ?_, fun hn => ?_⟩
      · rw [scanSmaller_succ, if_neg hlt] at hj
        obtain ⟨hj1, hj2, hj3⟩ := ih.1 j hj
        refine ⟨by omega, hj2, fun k hk1 hk2 => ?_⟩
        by_cases hk : k = i
        · subst hk; exact hlt
        · exact hj3 k hk1 (by omega)
      · rw [scanSmaller_succ, if_neg hlt] at hn
        intro k hk
        by_cases hki : k = i
        · subst hki; exact hlt
        · exact ih.2 hn k (by omega)

/-- Levels of the parsed mindmap nodes, in order. -/
def mindLevels (input : Str) : List ℕ :=
  (mindContent (splitLines (trim input))).map Prod.fst

/-- C5 (amended): the parsed mindmap structure is a forest, not always a
single-rooted tree: node `i`'s parent link is exactly the nearest preceding
node with strictly smaller nesting level (level = floor(leading spaces / 2))
when one exists, and null otherwise; the parent always precedes its child, so
the structure is acyclic.  It is single-rooted only when exactly one node has
no smaller-levelled predecessor. -/
theorem mindmap_forest_structure (input : Str) (i : ℕ) (n : MNode)
    (h : (parseMindmap input).nodes.get? i = some n) :
    n.id = nodeIdStr i
    ∧ n.parentId = (nearestSmaller (mindLevels input) i).map nodeIdStr
    ∧ (∀ j, nearestSmaller (mindLevels input) i = some j →
        j < i ∧ (mindLevels input).getD j 0 < n.level
        ∧ ∀ k, j < k → k < i → ¬((mindLevels input).getD k 0 < n.level))
    ∧ (nearestSmaller (mindLevels input) i = none →
        ∀ k, k < i → ¬((mindLevels input).getD k 0 < n.level)) := by
  rw [parseMindmap_nodes] at h
  unfold nodesFor at h
  rw [nodesForAux_get] at h
  set c := mindContent (splitLines (trim input)) with hc
  cases hcg : c.get? i with
  | none =>
    rw [hcg] at h
    exact absurd h (by simp)
  | some p =>
    rw [hcg] at h
    simp only [Option.map_some', Option.some.injEq] at h
    have hlv : (mindLevels input).getD i 0 = p.1 := by
      unfold mindLevels
      rw [← hc]
      have := List.get?_eq_some.mp hcg
      obtain ⟨hi, hval⟩ := this
      rw [List.getD_eq_getElem?_getD]
      rw [List.getElem?_map]
      rw [← List.get?_eq_getElem?, hcg]
      rfl
    have hn : n = mkMNode (c.map Prod.fst) i p := by rw [← h]; congr 1; omega
    have hid : n.id = nodeIdStr i := by rw [hn]; rfl
    have hlevel : n.level = p.1 := by rw [hn]; rfl
    have hpar : n.parentId = (scanSmaller (c.map Prod.fst) p.1 i).map nodeIdStr := by
      rw [hn]; rfl
    have hml : mindLevels input = c.map Prod.fst := by rw [hc]; rfl
    refine ⟨hid, ?_, ?_, ?_⟩
    · rw [hpar, hml]
      unfold nearestSmaller
      rw [← hml, hlv]
    · intro j hj
      unfold nearestSmaller at hj
      rw [hlv] at hj
      rw [hml] at hj ⊢
      rw [hlevel]
      exact (scanSmaller_spec (c.map Prod.fst) p.1 i).1 j hj
    · intro hnone k hk
      unfold nearestSmaller at hnone
      rw [hlv] at hnone
      rw [hml] at hnone ⊢
      rw [hlevel]
      exact (scanSmaller_spec (c.map Prod.fst) p.1 i).2 hnone k hk

/-- Counterexample to C5 as stated: the input `mindmap\nA\nB` parses to TWO
top-level nodes with no parent, while the recorded root is the first of them
— so the parsed structure is a forest, and "every node except the root has
exactly one parent" fails for node1. -/
theorem mindmap_single_root_counterexample :
    (parseMindmap (str "mindmap\nA\nB")).root = some (str "node0")
    ∧ (parseMindmap (str "mindmap\nA\nB")).nodes.map (fun n => (n.id, n.parentId)) =
        [(str "node0", none), (str "node1", none)] := by decide

/-- Witness for C5: in `mindmap\nRoot\n  Child1\n  Child2`, node 2 (Child2,
level 1) has parent node0, the nearest preceding node of smaller level. -/
theorem mindmap_forest_structure_witness :
    (parseMindmap (str "mindmap\nRoot\n  Child1\n  Child2")).nodes.get? 2 =
        some ⟨str "node2", str "Child2", str "default", 1, some (str "node0")⟩
    ∧ (MNode.mk (str "node2") (str "Child2") (str "default") 1
        (some (str "node0"))).parentId =
      (nearestSmaller (mindLevels (str "mindmap\nRoot\n  Child1\n  Child2")) 2).map nodeIdStr :=
  ⟨by decide,
   (mindmap_forest_structure (str "mindmap\nRoot\n  Child1\n  Child2") 2
     ⟨str "node2", str "Child2", str "default", 1, some (str "node0")⟩ (by decide)).2.1⟩

/-- A seven-level single-child chain of mindmap nodes (levels 0–6). -/
def chainTree : MTree :=
  MTree.node (str "node0") [MTree.node (str "node1") [MTree.node (str "node2")
    [MTree.node (str "node3") [MTree.node (str "node4") [MTree.node (str "node5")
      [MTree.node (str "node6") []]]]]]]

/-- The x coordinate assigned to an id by a layout result. -/
noncomputable def xCoordOf (positions : List (Str × GeoR)) (id : Str) : Option ℝ :=
  (alookup positions id).map GeoR.x

/-- Counterexample to C6 as stated: on a straight single-child chain the
radial layout walks right by the full radius each level (cos 0 = 1), and the
level-6 node is placed at x = 2470, beyond the 2400-wide canvas — positions
are NOT bounded for all tree depths. -/
theorem mindmap_bounds_counterexample :
    xCoordOf (layoutNode 8 chainTree 0 1200 900 0) (str "node6") = some 2470
    ∧ CANVAS_WIDTH < 2470 := by
  constructor
  · norm_num [xCoordOf, layoutNode, alookup, chainTree, levelRadius, nodeW, nodeH,
      Real.cos_zero, Real.sin_zero, List.enum, List.enumFrom, str]
    simp
  · norm_num [CANVAS_WIDTH]

/-- Decision procedure for "tree height at most `d`". -/
def heightLe : ℕ → MTree → Bool
  | _, MTree.node _ [] => true
  | 0, MTree.node _ (_ :: _) => false
  | d + 1, MTree.node _ cs => cs.all (fun c => heightLe d c)

/-- Distance bound from the canvas centre for the parent centre handed to a
node at each level (0 at levels 0/1, then cumulative radii). -/
def SS : ℕ → ℝ
  | 0 => 0
  | 1 => 0
  | 2 => 350
  | _ => 630

theorem snd_mem_of_mem_enumFrom {α : Type} : ∀ (l : List α) (n : ℕ) (p : ℕ × α),
    p ∈ List.enumFrom n l → p.2 ∈ l := by
  intro l
  induction l with
  | nil => intro n p hp; simp [List.enumFrom] at hp
  | cons x t ih =>
    intro n p hp
    rcases List.mem_cons.mp hp with hp | hp
    · rw [hp]; simp
    · exact List.mem_cons_of_mem x (ih (n + 1) p hp)

theorem layoutNode_bounded_aux : ∀ (fuel : ℕ) (t : MTree) (angle px py : ℝ) (level : ℕ),
    level ≤ 3 → heightLe (3 - level) t = true →
    |px - 1200| ≤ SS level → |py - 900| ≤ SS level →
    ∀ e ∈ layoutNode fuel t angle px py level,
      0 ≤ e.2.x ∧ e.2.x + e.2.w ≤ CANVAS_WIDTH ∧ 0 ≤ e.2.y ∧ e.2.y + e.2.h ≤ CANVAS_HEIGHT := by
  intro fuel
  induction fuel with
  | zero =>
    intro t angle px py level _ _ _ _ e he
    obtain ⟨id, cs⟩ := t
    simp [layoutNode] at he
  | succ fuel ih =>
    intro t angle px py level hl3 hht hpx hpy e he
    obtain ⟨id, cs⟩ := t
    have hcos1 := Real.cos_le_one angle
    have hcos2 := Real.neg_one_le_cos angle
    have hsin1 := Real.sin_le_one angle
    have hsin2 := Real.neg_one_le_sin angle
    rw [abs_le] at hpx hpy
    simp only [layoutNode] at he
    rcases List.mem_cons.mp he with he | he
    · subst he
      simp only [CANVAS_WIDTH, CANVAS_HEIGHT]
      interval_cases level
      · norm_num [nodeW, nodeH, SS] at hpx hpy ⊢
      · norm_num [nodeW, nodeH, levelRadius, SS] at hpx hpy ⊢
        refine ⟨by nlinarith, by nlinarith, by nlinarith, by nlinarith⟩
      · norm_num [nodeW, nodeH, levelRadius, SS] at hpx hpy ⊢
        refine ⟨by nlinarith, by nlinarith, by nlinarith, by nlinarith⟩
      · norm_num [nodeW, nodeH, levelRadius, SS] at hpx hpy ⊢
        refine ⟨by nlinarith, by nlinarith, by nlinarith, by nlinarith⟩
    · obtain ⟨q, hq, he2⟩ := List.mem_flatMap.mp he
      have hc : q.2 ∈ cs := snd_mem_of_mem_enumFrom cs 0 q hq
      have hcs_ne : cs ≠ [] := by
        intro hnil
        subst hnil
        simp [List.enum, List.enumFrom] at hq
      obtain ⟨c0, cs', rfl⟩ := List.exists_cons_of_ne_nil hcs_ne
      have hlv2 : level ≤ 2 := by
        by_contra hgt
        have h3 : level = 3 := by omega
        subst h3
        simp [heightLe] at hht
      have h31 : 3 - level = (3 - (level + 1)) + 1 := by omega
      rw [h31] at hht
      have hrec : heightLe (3 - (level + 1)) q.2 = true := by
        have hall : ∀ c ∈ c0 :: cs', heightLe (3 - (level + 1)) c = true := by
          intro c hcmem
          exact List.all_eq_true.mp hht c hcmem
        exact hall q.2 hc
      interval_cases level
      · refine ih q.2 _ _ _ 1 (by omega) hrec ?_ ?_ e he2
        · rw [abs_le]
          norm_num [nodeW, SS] at hpx ⊢
        · rw [abs_le]
          norm_num [nodeH, SS] at hpy ⊢
      · refine ih q.2 _ _ _ 2 (by omega) hrec ?_ ?_ e he2
        · rw [abs_le]
          norm_num [nodeW, levelRadius, SS] at hpx ⊢
          constructor <;> nlinarith
        · rw [abs_le]
          norm_num [nodeH, levelRadius, SS] at hpy ⊢
          constructor <;> nlinarith
      · refine ih q.2 _ _ _ 3 (by omega) hrec ?_ ?_ e he2
        · rw [abs_le]
          norm_num [nodeW, levelRadius, SS] at hpx ⊢
          constructor <;> nlinarith
        · rw [abs_le]
          norm_num [nodeH, levelRadius, SS] at hpy ⊢
          constructor <;> nlinarith

/-- C6 (amended): for mindmap trees of height at most 3 (the four levels the
sizing/radius tables provide), every node box computed by the radial layout
lies inside the 2400×1800 canvas; deeper trees can escape it
(`mindmap_bounds_counterexample`). -/
theorem mindmap_layout_bounded (fuel : ℕ) (t : MTree) (h : heightLe 3 t = true) :
    ∀ e ∈ layoutNode fuel t 0 1200 900 0,
      0 ≤ e.2.x ∧ e.2.x + e.2.w ≤ CANVAS_WIDTH ∧ 0 ≤ e.2.y ∧ e.2.y + e.2.h ≤ CANVAS_HEIGHT := by
  have h0 : |(1200 : ℝ) - 1200| ≤ SS 0 := by
    simp [SS]
  have h1 : |(900 : ℝ) - 900| ≤ SS 0 := by
    simp [SS]
  exact layoutNode_bounded_aux fuel t 0 1200 900 0 (by omega) h h0 h1

/-- Witness for C6: a concrete two-level tree satisfies the height bound and
its layout stays within the canvas. -/
theorem mindmap_layout_bounded_witness :
    heightLe 3 (MTree.node (str "a") [MTree.node (str "b") []]) = true
    ∧ ∀ e ∈ layoutNode 5 (MTree.node (str "a") [MTree.node (str "b") []]) 0 1200 900 0,
        0 ≤ e.2.x ∧ e.2.x + e.2.w ≤ CANVAS_WIDTH ∧ 0 ≤ e.2.y ∧ e.2.y + e.2.h ≤ CANVAS_HEIGHT :=
  ⟨by decide, mindmap_layout_bounded 5 (MTree.node (str "a") [MTree.node (str "b") []]) (by decide)⟩

theorem ne_of_head (a b : Str) (h : a.head? ≠ b.head?) : a ≠ b :=
  fun he => h (he ▸ rfl)

theorem mem_setBranch_names (bs : List Branch) (b : Branch) (m : Str) :
    m ∈ (setBranch bs b).map Branch.name → m ∈ bs.map Branch.name ∨ m = b.name := by
  induction bs with
  | nil =>
    intro h
    simp [setBranch] at h
    exact Or.inr h
  | cons x rest ih =>
    intro h
    unfold setBranch at h
    by_cases hx : x.name = b.name
    · rw [if_pos hx] at h
      simp only [List.map_cons, List.mem_cons] at h ⊢
      tauto
    · rw [if_neg hx] at h
      simp only [List.map_cons, List.mem_cons] at h ⊢
      rcases h with h | h
      · exact Or.inl (Or.inl h)
      · rcases ih h with h2 | h2
        · exact Or.inl (Or.inr h2)
        · exact Or.inr h2

theorem setBranch_names_nodup (bs : List Branch) (b : Branch)
    (h : (bs.map Branch.name).Nodup) : ((setBranch bs b).map Branch.name).Nodup := by
  induction bs with
  | nil => simp [setBranch]
  | cons x rest ih =>
    rw [List.map_cons, List.nodup_cons] at h
    unfold setBranch
    by_cases hx : x.name = b.name
    · rw [if_pos hx]
      rw [List.map_cons, List.nodup_cons]
      exact ⟨by rw [← hx]; exact h.1, h.2⟩
    · rw [if_neg hx]
      rw [List.map_cons, List.nodup_cons]
      refine ⟨?_, ih h.2⟩
      intro hmem
      rcases mem_setBranch_names rest b x.name hmem with h2 | h2
      · exact h.1 h2
      · exact hx h2

theorem pushBranchCommit_names (bs : List Branch) (n cid : Str) :
    ∀ bs2, pushBranchCommit bs n cid = some bs2 →
      bs2.map Branch.name = bs.map Branch.name := by
  induction bs with
  | nil => intro bs2 h; simp [pushBranchCommit] at h
  | cons b rest ih =>
    intro bs2 h
    unfold pushBranchCommit at h
    by_cases hb : b.name = n
    · rw [if_pos hb] at h
      injection h with h
      rw [← h]
      rfl
    · rw [if_neg hb] at h
      cases hrest : pushBranchCommit rest n cid with
      | none => rw [hrest] at h; simp at h
      | some bs3 =>
        rw [hrest] at h
        simp only [Option.map_some', Option.some.injEq] at h
        rw [← h, List.map_cons, ih bs3 hrest]
        rfl

/-- Well-formedness of the git parser state: unique branch names, pairwise
distinct commit ids, every commit id generated from a counter value below the
current counter. -/
def gitIdsOk (st : GitState) : Prop :=
  (st.branches.map Branch.name).Nodup
  ∧ (st.commits.map Commit.id).Nodup
  ∧ ∀ c ∈ st.commits, ∃ k, k < st.commitId ∧
      (c.id = 'c' :: toDec k ∨ c.id = str "merge_" ++ toDec k)

theorem genId_ne (a b : ℕ) : 'c' :: toDec a ≠ str "merge_" ++ toDec b := by
  apply ne_of_head
  simp [str]

theorem genId_inj (a b : ℕ) (h : 'c' :: toDec a = 'c' :: toDec b) : a = b := by
  injection h with _ h2
  exact toDec_inj h2

theorem mergeId_inj (a b : ℕ)
    (h : str "merge_" ++ toDec a = str "merge_" ++ toDec b) : a = b := by
  have h2 : toDec a = toDec b := List.append_cancel_left h
  exact toDec_inj h2

theorem fresh_commit_id (commits : List Commit) (cnt : ℕ)
    (hsh : ∀ c ∈ commits, ∃ k, k < cnt ∧
      (c.id = 'c' :: toDec k ∨ c.id = str "merge_" ++ toDec k)) :
    ('c' :: toDec cnt) ∉ commits.map Commit.id := by
  intro hmem
  obtain ⟨c, hc, hid⟩ := List.mem_map.mp hmem
  obtain ⟨k, hk, hsk⟩ := hsh c hc
  rcases hsk with hsk | hsk
  · rw [hsk] at hid
    have := genId_inj k cnt hid
    omega
  · rw [hsk] at hid
    exact genId_ne cnt k hid.symm

theorem fresh_merge_id (commits : List Commit) (cnt : ℕ)
    (hsh : ∀ c ∈ commits, ∃ k, k < cnt ∧
      (c.id = 'c' :: toDec k ∨ c.id = str "merge_" ++ toDec k)) :
    (str "merge_" ++ toDec cnt) ∉ commits.map Commit.id := by
  intro hmem
  obtain ⟨c, hc, hid⟩ := List.mem_map.mp hmem
  obtain ⟨k, hk, hsk⟩ := hsh c hc
  rcases hsk with hsk | hsk
  · rw [hsk] at hid
    exact genId_ne k cnt hid
  · rw [hsk] at hid
    have := mergeId_inj k cnt hid
    omega

theorem gitStep_idsOk (st : GitState) (l : Str) (st2 : GitState)
    (hstep : gitStep st l = some st2)
    (hu : quotedArg (str "id:") ((trim l).drop 6) = none)
    (h : gitIdsOk st) : gitIdsOk st2 := by
  unfold gitStep at hstep
  by_cases h1 : (startsWithS (trim l) (str "gitGraph") || trim l = []) = true
  · rw [if_pos h1] at hstep
    injection hstep with hstep
    rwa [← hstep]
  · rw [if_neg h1] at hstep
    by_cases h2 : startsWithS (toLower (trim l)) (str "commit") = true
    · rw [if_pos h2] at hstep
      simp only [hu] at hstep
      cases hpb : pushBranchCommit st.branches st.currentBranch ('c' :: toDec st.commitId) with
      | none => rw [hpb] at hstep; simp at hstep
      | some bs =>
        rw [hpb] at hstep
        injection hstep with hstep
        rw [← hstep]
        obtain ⟨hb, hid, hsh⟩ := h
        refine ⟨?_, ?_, ?_⟩
        · show (bs.map Branch.name).Nodup
          rw [pushBranchCommit_names st.branches _ _ bs hpb]
          exact hb
        · show ((st.commits ++ [_]).map Commit.id).Nodup
          rw [List.map_append]
          rw [List.nodup_append]
          refine ⟨hid, List.nodup_singleton _, ?_⟩
          intro x hx hx2
          simp only [List.map_cons, List.map_nil, List.mem_singleton] at hx2
          rw [hx2] at hx
          exact fresh_commit_id st.commits st.commitId hsh hx
        · intro c hc
          rcases List.mem_append.mp hc with hc | hc
          · obtain ⟨k, hk, hsk⟩ := hsh c hc
            exact ⟨k, by show k < st.commitId + 1; omega, hsk⟩
          · simp only [List.mem_singleton] at hc
            rw [hc]
            exact ⟨st.commitId, by show st.commitId < st.commitId + 1; omega, Or.inl rfl⟩
    · rw [if_neg h2] at hstep
      by_cases h3 : startsWithS (toLower (trim l)) (str "branch") = true
      · rw [if_pos h3] at hstep
        cases hw : wordArg ((trim l).drop 6) with
        | none =>
          rw [hw] at hstep
          injection hstep with hstep
          rwa [← hstep]
        | some p =>
          rw [hw] at hstep
          injection hstep with hstep
          rw [← hstep]
          obtain ⟨hb, hid, hsh⟩ := h
          exact ⟨setBranch_names_nodup _ _ hb, hid, hsh⟩
      · rw [if_neg h3] at hstep
        by_cases h4 : startsWithS (toLower (trim l)) (str "checkout") = true
        · rw [if_pos h4] at hstep
          cases hw : wordArg ((trim l).drop 8) with
          | none =>
            rw [hw] at hstep
            injection hstep with hstep
            rwa [← hstep]
          | some p =>
            rw [hw] at hstep
            injection hstep with hstep
            rw [← hstep]
            exact h
        · rw [if_neg h4] at hstep
          by_cases h5 : startsWithS (toLower (trim l)) (str "merge") = true
          · rw [if_pos h5] at hstep
            cases hw : wordArg ((trim l).drop 5) with
            | none =>
              rw [hw] at hstep
              injection hstep with hstep
              rwa [← hstep]
            | some p =>
              rw [hw] at hstep
              obtain ⟨name, r⟩ := p
              cases hpb : pushBranchCommit st.branches st.currentBranch
                  (str "merge_" ++ toDec st.commitId) with
              | none =>
                simp only [hpb] at hstep
                exact absurd hstep (by simp)
              | some bs =>
                simp only [hpb, Option.some.injEq] at hstep
                rw [← hstep]
                obtain ⟨hb, hid, hsh⟩ := h
                refine ⟨?_, ?_, ?_⟩
                · show (bs.map Branch.name).Nodup
                  rw [pushBranchCommit_names st.branches _ _ bs hpb]
                  exact hb
                · show ((st.commits ++ [_]).map Commit.id).Nodup
                  rw [List.map_append, List.nodup_append]
                  refine ⟨hid, List.nodup_singleton _, ?_⟩
                  intro x hx hx2
                  simp only [List.map_cons, List.map_nil, List.mem_singleton] at hx2
                  rw [hx2] at hx
                  exact fresh_merge_id st.commits st.commitId hsh hx
                · intro c hc
                  rcases List.mem_append.mp hc with hc | hc
                  · obtain ⟨k, hk, hsk⟩ := hsh c hc
                    exact ⟨k, by show k < st.commitId + 1; omega, hsk⟩
                  · simp only [List.mem_singleton] at hc
                    rw [hc]
                    exact ⟨st.commitId, by show st.commitId < st.commitId + 1; omega,
                      Or.inr rfl⟩
          · rw [if_neg h5] at hstep
            injection hstep with hstep
            rwa [← hstep]

theorem gitFold_idsOk : ∀ (lines : List Str) (st fin : GitState),
    gitFold st lines = some fin →
    (∀ l ∈ lines, quotedArg (str "id:") ((trim l).drop 6) = none) →
    gitIdsOk st → gitIdsOk fin := by
  intro lines
  induction lines with
  | nil =>
    intro st fin hf _ h
    injection hf with hf
    rwa [← hf]
  | cons l rest ih =>
    intro st fin hf hu h
    unfold gitFold at hf
    cases hstep : gitStep st l with
    | none => rw [hstep] at hf; simp at hf
    | some st2 =>
      rw [hstep] at hf
      exact ih st2 fin hf (fun x hx => hu x (by simp [hx]))
        (gitStep_idsOk st l st2 hstep (hu l (by simp)) h)

/-- Absence of user-supplied commit ids: no line carries an `id:"..."`
argument in the position the commit matcher reads it. -/
def noUserIds (input : Str) : Bool :=
  (splitLines (trim input)).all
    (fun l => (quotedArg (str "id:") ((trim l).drop 6)).isNone)

theorem parseGitGraph_idsOk (input : Str) (m : GitModel)
    (hp : parseGitGraph input = some m) (hu : noUserIds input = true) :
    (m.branches.map Branch.name).Nodup
    ∧ (m.commits.map Commit.id).Nodup
    ∧ ∀ c ∈ m.commits, ∃ k, (c.id = 'c' :: toDec k ∨ c.id = str "merge_" ++ toDec k) := by
  unfold parseGitGraph at hp
  cases hf : gitFold gitInit (splitLines (trim input)) with
  | none => rw [hf] at hp; simp at hp
  | some fin =>
    rw [hf] at hp
    simp only [Option.map_some', Option.some.injEq] at hp
    have hinit : gitIdsOk gitInit := by
      refine ⟨by decide, by decide, ?_⟩
      intro c hc
      simp [gitInit] at hc
    have hu2 : ∀ l ∈ splitLines (trim input),
        quotedArg (str "id:") ((trim l).drop 6) = none := by
      intro l hl
      have := List.all_eq_true.mp hu l hl
      rwa [Option.isNone_iff_eq_none] at this
    obtain ⟨hb, hid, hsh⟩ := gitFold_idsOk _ _ _ hf hu2 hinit
    rw [← hp]
    refine ⟨hb, hid, ?_⟩
    intro c hc
    obtain ⟨k, _, hsk⟩ := hsh c hc
    exact ⟨k, hsk⟩

theorem vertexIds_append {γ : Type} (a b : List (Cell γ)) :
    vertexIds (a ++ b) = vertexIds a ++ vertexIds b := by
  simp [vertexIds, List.filter_append]

theorem gitBranchCells_vertexIds (bx : List (Str × ℤ)) (bs : List Branch) :
    vertexIds (gitBranchCells bx bs) = bs.map (fun b => str "branch_" ++ b.name) := by
  induction bs with
  | nil => rfl
  | cons b rest ih =>
    simp only [gitBranchCells, List.map_cons] at ih ⊢
    simp only [vertexIds, List.filter_cons] at ih ⊢
    simp only [vcell, List.map_cons]
    rw [if_pos (by decide)]
    simp only [List.map_cons]
    congr 1

/-- The vertex ids the commit loop emits: each commit id, followed by its tag
cell id when tagged. -/
def commitTagIds (commits : List Commit) : List Str :=
  commits.flatMap (fun c =>
    c.id :: (match c.tag with | some _ => [str "tag_" ++ c.id] | none => []))

theorem vertexIds_cons_v {γ : Type} (x : Cell γ) (rest : List (Cell γ))
    (h : x.kind = CellKind.vertex) : vertexIds (x :: rest) = x.id :: vertexIds rest := by
  simp [vertexIds, List.filter_cons, h]

theorem vertexIds_cons_e {γ : Type} (x : Cell γ) (rest : List (Cell γ))
    (h : x.kind = CellKind.edge) : vertexIds (x :: rest) = vertexIds rest := by
  simp [vertexIds, List.filter_cons, h]

theorem gitCommitCells_vertexIds (bs : List Branch) (pos : List (Str × (ℤ × ℤ))) :
    ∀ (commits : List Commit) (cid : ℕ) (prev : Option Commit),
      vertexIds (gitCommitCellsAux bs pos cid prev commits) = commitTagIds commits := by
  intro commits
  induction commits with
  | nil => intro cid prev; rfl
  | cons c rest ih =>
    intro cid prev
    unfold gitCommitCellsAux
    have hrec := fun k => ih k (some c)
    rcases prev with _ | p
    · cases hct : c.tag with
      | none =>
        simp only [hct, List.append_assoc, List.nil_append, List.append_nil, List.singleton_append, List.cons_append]
        rw [vertexIds_cons_v _ _ rfl, hrec]
        simp [commitTagIds, hct, vcell]
      | some t =>
        simp only [hct, List.append_assoc, List.nil_append, List.append_nil, List.singleton_append, List.cons_append]
        rw [vertexIds_cons_v _ _ rfl, vertexIds_cons_v _ _ rfl, hrec]
        simp [commitTagIds, hct, vcell]
    · by_cases hcond : (p.branch = c.branch || c.typ = str "MERGE") = true
      · cases hct : c.tag with
        | none =>
          simp only [hct, hcond, if_true, List.append_assoc, List.nil_append, List.append_nil, List.singleton_append, List.cons_append]
          rw [vertexIds_cons_v _ _ rfl, vertexIds_cons_e _ _ rfl, hrec]
          simp [commitTagIds, hct, vcell]
        | some t =>
          simp only [hct, hcond, if_true, List.append_assoc, List.nil_append, List.append_nil, List.singleton_append, List.cons_append]
          rw [vertexIds_cons_v _ _ rfl, vertexIds_cons_e _ _ rfl,
            vertexIds_cons_v _ _ rfl, hrec]
          simp [commitTagIds, hct, vcell]
      · cases hct : c.tag with
        | none =>
          simp only [hct, hcond, Bool.false_eq_true, if_false, List.append_assoc, List.nil_append, List.append_nil, List.singleton_append, List.cons_append]
          rw [vertexIds_cons_v _ _ rfl, hrec]
          simp [commitTagIds, hct, vcell]
        | some t =>
          simp only [hct, hcond, Bool.false_eq_true, if_false, List.append_assoc, List.nil_append, List.append_nil, List.singleton_append, List.cons_append]
          rw [vertexIds_cons_v _ _ rfl, vertexIds_cons_v _ _ rfl, hrec]
          simp [commitTagIds, hct, vcell]


theorem gen_head (x : Str)
    (hsh : ∃ k, x = 'c' :: toDec k ∨ x = str "merge_" ++ toDec k) :
    x.head? = some 'c' ∨ x.head? = some 'm' := by
  obtain ⟨k, h | h⟩ := hsh
  · rw [h]; exact Or.inl rfl
  · rw [h]; exact Or.inr rfl

theorem tag_ne_gen (x y : Str)
    (hsh : ∃ k, x = 'c' :: toDec k ∨ x = str "merge_" ++ toDec k) :
    x ≠ str "tag_" ++ y := by
  apply ne_of_head
  rcases gen_head x hsh with h | h <;> rw [h]
  · intro h2
    injection h2 with h2
    exact absurd h2 (by decide)
  · intro h2
    injection h2 with h2
    exact absurd h2 (by decide)

theorem mem_commitTagIds (commits : List Commit) (y : Str)
    (h : y ∈ commitTagIds commits) :
    ∃ c ∈ commits, y = c.id ∨ y = str "tag_" ++ c.id := by
  obtain ⟨c, hc, hy⟩ := List.mem_flatMap.mp h
  refine ⟨c, hc, ?_⟩
  rcases List.mem_cons.mp hy with hy | hy
  · exact Or.inl hy
  · cases hct : c.tag with
    | none => rw [hct] at hy; simp at hy
    | some t =>
      rw [hct] at hy
      simp only [List.mem_singleton] at hy
      exact Or.inr hy

theorem commitTagIds_nodup (commits : List Commit)
    (hid : (commits.map Commit.id).Nodup)
    (hsh : ∀ c ∈ commits, ∃ k,
      (c.id = 'c' :: toDec k ∨ c.id = str "merge_" ++ toDec k)) :
    (commitTagIds commits).Nodup := by
  induction commits with
  | nil => exact List.nodup_nil
  | cons c rest ih =>
    rw [List.map_cons, List.nodup_cons] at hid
    have hcsh := hsh c (by simp)
    have hrestsh : ∀ d ∈ rest, ∃ k,
        (d.id = 'c' :: toDec k ∨ d.id = str "merge_" ++ toDec k) :=
      fun d hd => hsh d (by simp [hd])
    have hrest := ih hid.2 hrestsh
    have hnotinrest : ∀ y ∈ commitTagIds rest, c.id ≠ y ∧ str "tag_" ++ c.id ≠ y := by
      intro y hy
      obtain ⟨d, hd, hyd⟩ := mem_commitTagIds rest y hy
      have hdsh := hrestsh d hd
      constructor
      · rcases hyd with hyd | hyd
        · rw [hyd]
          intro he
          exact hid.1 (he ▸ List.mem_map_of_mem Commit.id hd)
        · rw [hyd]
          exact tag_ne_gen c.id d.id hcsh
      · rcases hyd with hyd | hyd
        · rw [hyd]
          exact (tag_ne_gen d.id c.id hdsh).symm
        · rw [hyd]
          intro he
          have he2 : c.id = d.id := List.append_cancel_left he
          exact hid.1 (he2 ▸ List.mem_map_of_mem Commit.id hd)
    show (c.id :: (_ ++ commitTagIds rest)).Nodup
    rw [List.nodup_cons]
    cases hct : c.tag with
    | none =>
      simp only [hct, List.nil_append]
      refine ⟨fun hmem => (hnotinrest c.id hmem).1 rfl, hrest⟩
    | some t =>
      simp only [hct, List.singleton_append]
      constructor
      · intro hmem
        rcases List.mem_cons.mp hmem with hmem | hmem
        · exact tag_ne_gen c.id c.id hcsh hmem
        · exact (hnotinrest c.id hmem).1 rfl
      · rw [List.nodup_cons]
        refine ⟨fun hmem => (hnotinrest _ hmem).2 rfl, hrest⟩

/-- For any commit-graph input with no user-supplied commit ids, the
serialized output contains no two vertex cells with the same id: branch
label ids are the distinct branch names under the `branch_` prefix, commit
ids come from a strictly increasing counter, tag cell ids are the commit
ids under the `tag_` prefix, and the three id families start with the
pairwise distinct characters `b`, `c`/`m` and `t`.  (User-supplied ids are
excluded: they are taken verbatim and can collide.) -/
theorem gitgraph_vertex_ids_nodup (input : Str) (m : GitModel)
    (hp : parseGitGraph input = some m) (hu : noUserIds input = true) :
    (vertexIds (gitCells m)).Nodup := by
  obtain ⟨hb, hid, hsh⟩ := parseGitGraph_idsOk input m hp hu
  have h1 : vertexIds (gitCells m)
      = m.branches.map (fun b => str "branch_" ++ b.name) ++ commitTagIds m.commits := by
    rw [gitCells, vertexIds_append, gitBranchCells_vertexIds, gitCommitCells_vertexIds]
  rw [h1, List.nodup_append]
  refine ⟨?_, ?_, ?_⟩
  · have h2 : m.branches.map (fun b => str "branch_" ++ b.name)
        = (m.branches.map Branch.name).map (fun n => str "branch_" ++ n) := by
      rw [List.map_map]; rfl
    rw [h2]
    exact hb.map (fun n1 n2 h => List.append_cancel_left h)
  · exact commitTagIds_nodup m.commits hid hsh
  · intro a ha ha2
    obtain ⟨br, _, rfl⟩ := List.mem_map.mp ha
    obtain ⟨c, hc, hyd⟩ := mem_commitTagIds m.commits _ ha2
    have hhb : (str "branch_" ++ br.name).head? = some 'b' := rfl
    rcases hyd with hyd | hyd
    · rcases gen_head c.id (hsh c hc) with hh | hh
      · rw [← hyd, hhb] at hh; exact absurd hh (by decide)
      · rw [← hyd, hhb] at hh; exact absurd hh (by decide)
    · have hht : (str "tag_" ++ c.id).head? = some 't' := rfl
      rw [← hyd, hhb] at hht
      exact absurd hht (by decide)

/-- Counterexample to C7 as stated, in two of the claim's own families.
Commit cells with user-supplied ids: the parser takes the id verbatim, so
`gitGraph` with two `commit id:"dup"` lines emits two vertex cells both with
id `dup`.  ER container/attribute cells: an entity named `X_attr0` declared
beside an entity `X` with one attribute collides with the constructed
attribute id `X_attr0`, so the output again carries two vertex cells with
the same id. -/
theorem vertex_id_duplicate_counterexample :
    (parseGitGraph (str "gitGraph\ncommit id:\"dup\"\ncommit id:\"dup\"") =
      some ⟨[⟨str "dup", none, str "NORMAL", str "main", none⟩,
             ⟨str "dup", none, str "NORMAL", str "main", none⟩],
            [⟨str "main", [str "dup", str "dup"], none⟩]⟩
    ∧ ¬ (vertexIds (gitCells
          ⟨[⟨str "dup", none, str "NORMAL", str "main", none⟩,
             ⟨str "dup", none, str "NORMAL", str "main", none⟩],
            [⟨str "main", [str "dup", str "dup"], none⟩]⟩)).Nodup)
    ∧ (vertexIds (erCells (parseERDiagram
          (str "erDiagram\nX \x7b\n  int a\n\x7d\nX_attr0 \x7b\n\x7d"))) =
        [str "X", str "X_attr0", str "X_attr0"]
    ∧ ¬ (vertexIds (erCells (parseERDiagram
          (str "erDiagram\nX \x7b\n  int a\n\x7d\nX_attr0 \x7b\n\x7d")))).Nodup) := by
  refine ⟨⟨?_, ?_⟩, ?_, ?_⟩
  · decide
  · decide
  · decide
  · decide

/-- Witness for the no-duplicate-ids theorem at a concrete tagged,
multi-branch input. -/
theorem gitgraph_vertex_ids_nodup_witness :
    (vertexIds (gitCells
      ⟨[⟨str "c0", some (str "v1"), str "NORMAL", str "main", none⟩,
        ⟨str "c1", none, str "NORMAL", str "dev", none⟩],
       [⟨str "main", [str "c0"], none⟩,
        ⟨str "dev", [str "c1"], some (str "main")⟩]⟩)).Nodup :=
  gitgraph_vertex_ids_nodup (str "gitGraph\ncommit tag:\"v1\"\nbranch dev\ncommit")
    ⟨[⟨str "c0", some (str "v1"), str "NORMAL", str "main", none⟩,
      ⟨str "c1", none, str "NORMAL", str "dev", none⟩],
     [⟨str "main", [str "c0"], none⟩,
      ⟨str "dev", [str "c1"], some (str "main")⟩]⟩ (by decide) (by decide)

/-- A line that changes the current branch: a `branch` or `checkout`
directive (matched case-insensitively on the trimmed line, as the source
does). -/
def isSwitch (l : Str) : Bool :=
  startsWithS (toLower (trim l)) (str "branch")
    || startsWithS (toLower (trim l)) (str "checkout")

theorem setBranch_head_name (bs : List Branch) (b : Branch)
    (h : (bs.map Branch.name).head? = some (str "main")) :
    (((setBranch bs b).map Branch.name).head?) = some (str "main") := by
  cases bs with
  | nil => simp at h
  | cons x rest =>
    simp only [List.map_cons, List.head?_cons, Option.some.injEq] at h
    unfold setBranch
    by_cases hx : x.name = b.name
    · rw [if_pos hx]
      simp only [List.map_cons, List.head?_cons, Option.some.injEq]
      rw [← hx, h]
    · rw [if_neg hx]
      simp only [List.map_cons, List.head?_cons, Option.some.injEq]
      exact h

theorem gitStep_headMain (st : GitState) (l : Str) (st2 : GitState)
    (hstep : gitStep st l = some st2)
    (h : (st.branches.map Branch.name).head? = some (str "main")) :
    (st2.branches.map Branch.name).head? = some (str "main") := by
  unfold gitStep at hstep
  by_cases h1 : (startsWithS (trim l) (str "gitGraph") || trim l = []) = true
  · rw [if_pos h1] at hstep
    injection hstep with hstep
    rwa [← hstep]
  · rw [if_neg h1] at hstep
    by_cases h2 : startsWithS (toLower (trim l)) (str "commit") = true
    · rw [if_pos h2] at hstep
      cases hqa : quotedArg (str "id:") ((trim l).drop 6) with
      | none =>
        simp only [hqa] at hstep
        cases hpb : pushBranchCommit st.branches st.currentBranch
            ('c' :: toDec st.commitId) with
        | none => rw [hpb] at hstep; simp at hstep
        | some bs =>
          rw [hpb] at hstep
          injection hstep with hstep
          rw [← hstep]
          show (bs.map Branch.name).head? = some (str "main")
          rw [pushBranchCommit_names st.branches _ _ bs hpb]
          exact h
      | some p =>
        obtain ⟨v, r⟩ := p
        simp only [hqa] at hstep
        cases hpb : pushBranchCommit st.branches st.currentBranch v with
        | none => rw [hpb] at hstep; simp at hstep
        | some bs =>
          rw [hpb] at hstep
          injection hstep with hstep
          rw [← hstep]
          show (bs.map Branch.name).head? = some (str "main")
          rw [pushBranchCommit_names st.branches _ _ bs hpb]
          exact h
    · rw [if_neg h2] at hstep
      by_cases h3 : startsWithS (toLower (trim l)) (str "branch") = true
      · rw [if_pos h3] at hstep
        cases hw : wordArg ((trim l).drop 6) with
        | none =>
          rw [hw] at hstep
          injection hstep with hstep
          rwa [← hstep]
        | some p =>
          obtain ⟨name, r⟩ := p
          rw [hw] at hstep
          injection hstep with hstep
          rw [← hstep]
          exact setBranch_head_name st.branches _ h
      · rw [if_neg h3] at hstep
        by_cases h4 : startsWithS (toLower (trim l)) (str "checkout") = true
        · rw [if_pos h4] at hstep
          cases hw : wordArg ((trim l).drop 8) with
          | none =>
            rw [hw] at hstep
            injection hstep with hstep
            rwa [← hstep]
          | some p =>
            obtain ⟨name, r⟩ := p
            rw [hw] at hstep
            injection hstep with hstep
            rwa [← hstep]
        · rw [if_neg h4] at hstep
          by_cases h5 : startsWithS (toLower (trim l)) (str "merge") = true
          · rw [if_pos h5] at hstep
            cases hw : wordArg ((trim l).drop 5) with
            | none =>
              rw [hw] at hstep
              injection hstep with hstep
              rwa [← hstep]
            | some p =>
              rw [hw] at hstep
              obtain ⟨name, r⟩ := p
              cases hpb : pushBranchCommit st.branches st.currentBranch
                  (str "merge_" ++ toDec st.commitId) with
              | none =>
                simp only [hpb] at hstep
                exact absurd hstep (by simp)
              | some bs =>
                simp only [hpb, Option.some.injEq] at hstep
                rw [← hstep]
                show (bs.map Branch.name).head? = some (str "main")
                rw [pushBranchCommit_names st.branches _ _ bs hpb]
                exact h
          · rw [if_neg h5] at hstep
            injection hstep with hstep
            rwa [← hstep]

theorem gitFold_headMain : ∀ (lines : List Str) (st fin : GitState),
    gitFold st lines = some fin →
    (st.branches.map Branch.name).head? = some (str "main") →
    (fin.branches.map Branch.name).head? = some (str "main") := by
  intro lines
  induction lines with
  | nil =>
    intro st fin hf h
    injection hf with hf
    rwa [← hf]
  | cons l rest ih =>
    intro st fin hf h
    unfold gitFold at hf
    cases hstep : gitStep st l with
    | none => rw [hstep] at hf; simp at hf
    | some st2 =>
      rw [hstep] at hf
      exact ih st2 fin hf (gitStep_headMain st l st2 hstep h)

theorem gitStep_noSwitch (st : GitState) (l : Str) (st2 : GitState)
    (hstep : gitStep st l = some st2) (hsw : isSwitch l = false) :
    st2.currentBranch = st.currentBranch
    ∧ (st2.commits = st.commits
       ∨ ∃ c, st2.commits = st.commits ++ [c] ∧ c.branch = st.currentBranch) := by
  simp only [isSwitch, Bool.or_eq_false_iff] at hsw
  obtain ⟨h3, h4⟩ := hsw
  unfold gitStep at hstep
  by_cases h1 : (startsWithS (trim l) (str "gitGraph") || trim l = []) = true
  · rw [if_pos h1] at hstep
    injection hstep with hstep
    rw [← hstep]
    exact ⟨rfl, Or.inl rfl⟩
  · rw [if_neg h1] at hstep
    by_cases h2 : startsWithS (toLower (trim l)) (str "commit") = true
    · rw [if_pos h2] at hstep
      cases hqa : quotedArg (str "id:") ((trim l).drop 6) with
      | none =>
        simp only [hqa] at hstep
        cases hpb : pushBranchCommit st.branches st.currentBranch
            ('c' :: toDec st.commitId) with
        | none => rw [hpb] at hstep; simp at hstep
        | some bs =>
          rw [hpb] at hstep
          injection hstep with hstep
          rw [← hstep]
          exact ⟨rfl, Or.inr ⟨_, rfl, rfl⟩⟩
      | some p =>
        obtain ⟨v, r⟩ := p
        simp only [hqa] at hstep
        cases hpb : pushBranchCommit st.branches st.currentBranch v with
        | none => rw [hpb] at hstep; simp at hstep
        | some bs =>
          rw [hpb] at hstep
          injection hstep with hstep
          rw [← hstep]
          exact ⟨rfl, Or.inr ⟨_, rfl, rfl⟩⟩
    · rw [if_neg h2] at hstep
      rw [if_neg (by simp [h3])] at hstep
      rw [if_neg (by simp [h4])] at hstep
      by_cases h5 : startsWithS (toLower (trim l)) (str "merge") = true
      · rw [if_pos h5] at hstep
        cases hw : wordArg ((trim l).drop 5) with
        | none =>
          rw [hw] at hstep
          injection hstep with hstep
          rw [← hstep]
          exact ⟨rfl, Or.inl rfl⟩
        | some p =>
          rw [hw] at hstep
          obtain ⟨name, r⟩ := p
          cases hpb : pushBranchCommit st.branches st.currentBranch
              (str "merge_" ++ toDec st.commitId) with
          | none =>
            simp only [hpb] at hstep
            exact absurd hstep (by simp)
          | some bs =>
            simp only [hpb, Option.some.injEq] at hstep
            rw [← hstep]
            exact ⟨rfl, Or.inr ⟨_, rfl, rfl⟩⟩
      · rw [if_neg h5] at hstep
        injection hstep with hstep
        rw [← hstep]
        exact ⟨rfl, Or.inl rfl⟩

theorem gitStep_commits_mono (st : GitState) (l : Str) (st2 : GitState)
    (hstep : gitStep st l = some st2) :
    ∃ suff, st2.commits = st.commits ++ suff := by
  unfold gitStep at hstep
  by_cases h1 : (startsWithS (trim l) (str "gitGraph") || trim l = []) = true
  · rw [if_pos h1] at hstep
    injection hstep with hstep
    rw [← hstep]
    exact ⟨[], (List.append_nil _).symm⟩
  · rw [if_neg h1] at hstep
    by_cases h2 : startsWithS (toLower (trim l)) (str "commit") = true
    · rw [if_pos h2] at hstep
      cases hqa : quotedArg (str "id:") ((trim l).drop 6) with
      | none =>
        simp only [hqa] at hstep
        cases hpb : pushBranchCommit st.branches st.currentBranch
            ('c' :: toDec st.commitId) with
        | none => rw [hpb] at hstep; simp at hstep
        | some bs =>
          rw [hpb] at hstep
          injection hstep with hstep
          rw [← hstep]
          exact ⟨_, rfl⟩
      | some p =>
        obtain ⟨v, r⟩ := p
        simp only [hqa] at hstep
        cases hpb : pushBranchCommit st.branches st.currentBranch v with
        | none => rw [hpb] at hstep; simp at hstep
        | some bs =>
          rw [hpb] at hstep
          injection hstep with hstep
          rw [← hstep]
          exact ⟨_, rfl⟩
    · rw [if_neg h2] at hstep
      by_cases h3 : startsWithS (toLower (trim l)) (str "branch") = true
      · rw [if_pos h3] at hstep
        cases hw : wordArg ((trim l).drop 6) with
        | none =>
          rw [hw] at hstep
          injection hstep with hstep
          rw [← hstep]
          exact ⟨[], (List.append_nil _).symm⟩
        | some p =>
          obtain ⟨name, r⟩ := p
          rw [hw] at hstep
          injection hstep with hstep
          rw [← hstep]
          exact ⟨[], (List.append_nil _).symm⟩
      · rw [if_neg h3] at hstep
        by_cases h4 : startsWithS (toLower (trim l)) (str "checkout") = true
        · rw [if_pos h4] at hstep
          cases hw : wordArg ((trim l).drop 8) with
          | none =>
            rw [hw] at hstep
            injection hstep with hstep
            rw [← hstep]
            exact ⟨[], (List.append_nil _).symm⟩
          | some p =>
            obtain ⟨name, r⟩ := p
            rw [hw] at hstep
            injection hstep with hstep
            rw [← hstep]
            exact ⟨[], (List.append_nil _).symm⟩
        · rw [if_neg h4] at hstep
          by_cases h5 : startsWithS (toLower (trim l)) (str "merge") = true
          · rw [if_pos h5] at hstep
            cases hw : wordArg ((trim l).drop 5) with
            | none =>
              rw [hw] at hstep
              injection hstep with hstep
              rw [← hstep]
              exact ⟨[], (List.append_nil _).symm⟩
            | some p =>
              rw [hw] at hstep
              obtain ⟨name, r⟩ := p
              cases hpb : pushBranchCommit st.branches st.currentBranch
                  (str "merge_" ++ toDec st.commitId) with
              | none =>
                simp only [hpb] at hstep
                exact absurd hstep (by simp)
              | some bs =>
                simp only [hpb, Option.some.injEq] at hstep
                rw [← hstep]
                exact ⟨_, rfl⟩
          · rw [if_neg h5] at hstep
            injection hstep with hstep
            rw [← hstep]
            exact ⟨[], (List.append_nil _).symm⟩

theorem gitFold_cons (st : GitState) (l : Str) (rest : List Str) :
    gitFold st (l :: rest) = match gitStep st l with
      | none => none
      | some st2 => gitFold st2 rest := rfl

theorem gitFold_append (a b : List Str) : ∀ st, gitFold st (a ++ b) =
    match gitFold st a with
    | none => none
    | some st2 => gitFold st2 b := by
  induction a with
  | nil => intro st; rfl
  | cons l rest ih =>
    intro st
    rw [List.cons_append, gitFold_cons, gitFold_cons]
    cases gitStep st l with
    | none => rfl
    | some st2 => exact ih st2

theorem gitFold_commits_mono : ∀ (lines : List Str) (st fin : GitState),
    gitFold st lines = some fin → ∃ suff, fin.commits = st.commits ++ suff := by
  intro lines
  induction lines with
  | nil =>
    intro st fin hf
    injection hf with hf
    rw [← hf]
    exact ⟨[], (List.append_nil _).symm⟩
  | cons l rest ih =>
    intro st fin hf
    unfold gitFold at hf
    cases hstep : gitStep st l with
    | none => rw [hstep] at hf; simp at hf
    | some st2 =>
      rw [hstep] at hf
      obtain ⟨s1, hs1⟩ := gitStep_commits_mono st l st2 hstep
      obtain ⟨s2, hs2⟩ := ih st2 fin hf
      exact ⟨s1 ++ s2, by rw [hs2, hs1, List.append_assoc]⟩

theorem gitFold_mainOnly : ∀ (lines : List Str) (st fin : GitState),
    gitFold st lines = some fin →
    (∀ l ∈ lines, isSwitch l = false) →
    st.currentBranch = str "main" →
    (∀ c ∈ st.commits, c.branch = str "main") →
    fin.currentBranch = str "main" ∧ ∀ c ∈ fin.commits, c.branch = str "main" := by
  intro lines
  induction lines with
  | nil =>
    intro st fin hf _ hcur hc
    injection hf with hf
    rw [← hf]
    exact ⟨hcur, hc⟩
  | cons l rest ih =>
    intro st fin hf hsw hcur hc
    unfold gitFold at hf
    cases hstep : gitStep st l with
    | none => rw [hstep] at hf; simp at hf
    | some st2 =>
      rw [hstep] at hf
      obtain ⟨hcur2, hcom2⟩ := gitStep_noSwitch st l st2 hstep (hsw l (by simp))
      refine ih st2 fin hf (fun x hx => hsw x (by simp [hx])) (hcur2.trans hcur) ?_
      rcases hcom2 with hcom2 | ⟨c, hcom2, hcb⟩
      · rw [hcom2]; exact hc
      · rw [hcom2]
        intro d hd
        rcases List.mem_append.mp hd with hd | hd
        · exact hc d hd
        · simp only [List.mem_singleton] at hd
          rw [hd, hcb, hcur]

theorem map_branch_replicate (cs : List Commit)
    (h : ∀ c ∈ cs, c.branch = str "main") :
    cs.map Commit.branch = List.replicate cs.length (str "main") := by
  induction cs with
  | nil => rfl
  | cons c rest ih =>
    rw [List.map_cons, List.length_cons, List.replicate_succ,
      h c (by simp), ih (fun d hd => h d (by simp [hd]))]

/-- C10: every successfully parsed commit-graph model has `main` as the first
branch of its branch registry (the registry is seeded with `main` and `main`
is never displaced), and every commit issued before the first `branch` or
`checkout` directive — the state `st` reached by folding the parser over the
longest directive-free prefix of the lines — is attributed to branch `main`
and survives as a prefix of the final commit list. -/
theorem gitgraph_main_branch_invariant (input : Str) (m : GitModel) (st : GitState)
    (hp : parseGitGraph input = some m)
    (hpre : gitFold gitInit
      ((splitLines (trim input)).takeWhile (fun l => ! isSwitch l)) = some st) :
    (m.branches.map Branch.name).head? = some (str "main")
    ∧ m.commits.take st.commits.length = st.commits
    ∧ st.commits.map Commit.branch = List.replicate st.commits.length (str "main") := by
  unfold parseGitGraph at hp
  cases hf : gitFold gitInit (splitLines (trim input)) with
  | none => rw [hf] at hp; simp at hp
  | some fin =>
    rw [hf] at hp
    simp only [Option.map_some', Option.some.injEq] at hp
    have hf0 := hf
    have hsplit : ((splitLines (trim input)).takeWhile (fun l => ! isSwitch l))
        ++ ((splitLines (trim input)).dropWhile (fun l => ! isSwitch l))
        = splitLines (trim input) :=
      List.takeWhile_append_dropWhile (fun l => ! isSwitch l) (splitLines (trim input))
    rw [← hsplit, gitFold_append, hpre] at hf
    obtain ⟨suff, hsuff⟩ := gitFold_commits_mono _ st fin hf
    have hpref : ∀ l ∈ (splitLines (trim input)).takeWhile (fun l => ! isSwitch l),
        isSwitch l = false := by
      intro l hl
      have := List.mem_takeWhile_imp hl
      rwa [Bool.not_eq_true'] at this
    obtain ⟨_, hmain⟩ := gitFold_mainOnly _ gitInit st hpre hpref rfl
      (fun c hc => absurd hc (by simp [gitInit]))
    rw [← hp]
    refine ⟨?_, ?_, map_branch_replicate st.commits hmain⟩
    · exact gitFold_headMain _ gitInit fin hf0 rfl
    · show fin.commits.take st.commits.length = st.commits
      rw [hsuff, List.take_left]

/-- Witness for the main-branch invariant: one commit before a `branch dev`
directive, one after. -/
theorem gitgraph_main_branch_invariant_witness :
    (((⟨[⟨str "c0", none, str "NORMAL", str "main", none⟩,
         ⟨str "c1", none, str "NORMAL", str "dev", none⟩],
        [⟨str "main", [str "c0"], none⟩,
         ⟨str "dev", [str "c1"], some (str "main")⟩]⟩ : GitModel)).branches.map
        Branch.name).head? = some (str "main")
    ∧ ((⟨[⟨str "c0", none, str "NORMAL", str "main", none⟩,
         ⟨str "c1", none, str "NORMAL", str "dev", none⟩],
        [⟨str "main", [str "c0"], none⟩,
         ⟨str "dev", [str "c1"], some (str "main")⟩]⟩ : GitModel)).commits.take
        ((⟨[⟨str "c0", none, str "NORMAL", str "main", none⟩],
           [⟨str "main", [str "c0"], none⟩], str "main", 1⟩ : GitState)).commits.length
      = ((⟨[⟨str "c0", none, str "NORMAL", str "main", none⟩],
           [⟨str "main", [str "c0"], none⟩], str "main", 1⟩ : GitState)).commits
    ∧ ((⟨[⟨str "c0", none, str "NORMAL", str "main", none⟩],
         [⟨str "main", [str "c0"], none⟩], str "main", 1⟩ : GitState)).commits.map
        Commit.branch
      = List.replicate ((⟨[⟨str "c0", none, str "NORMAL", str "main", none⟩],
           [⟨str "main", [str "c0"], none⟩], str "main", 1⟩ : GitState)).commits.length
          (str "main") :=
  gitgraph_main_branch_invariant (str "gitGraph\ncommit\nbranch dev\ncommit")
    ⟨[⟨str "c0", none, str "NORMAL", str "main", none⟩,
      ⟨str "c1", none, str "NORMAL", str "dev", none⟩],
     [⟨str "main", [str "c0"], none⟩,
      ⟨str "dev", [str "c1"], some (str "main")⟩]⟩
    ⟨[⟨str "c0", none, str "NORMAL", str "main", none⟩],
     [⟨str "main", [str "c0"], none⟩], str "main", 1⟩
    (by decide) (by decide)

theorem flowEdgeCellsAux_length (positions : List (Str × (ℤ × ℤ))) (direction : Str) :
    ∀ (edges : List FlowEdge) (cid : ℕ),
      (flowEdgeCellsAux positions direction cid edges).length = edges.length ∧
      ∀ c ∈ flowEdgeCellsAux positions direction cid edges, c.kind = CellKind.edge := by
  intro edges
  induction edges with
  | nil => intro cid; exact ⟨rfl, by simp [flowEdgeCellsAux]⟩
  | cons e rest ih =>
    intro cid
    obtain ⟨ih1, ih2⟩ := ih (cid + 1)
    refine ⟨by simp [flowEdgeCellsAux, ih1], ?_⟩
    intro c hc
    rcases List.mem_cons.mp hc with hc | hc
    · rw [hc]; rfl
    · exact ih2 c hc

/-- The flowchart generator emits one edge cell per model edge,
unconditionally: `getExitPoints` degrades to an empty routing hint on a
missing endpoint instead of dropping the edge. -/
theorem flow_edge_conservation (m : FlowModel) :
    countEdges (flowCells m) = m.edges.length := by
  unfold flowCells
  rw [countEdges_append]
  have hz : ∀ (f : ℕ × FlowNode → Cell Geom),
      (∀ p, (f p).kind = CellKind.vertex) →
      countEdges (m.nodes.enum.map f) = 0 := by
    intro f hf
    apply countEdges_vertex_zero
    intro c hc
    obtain ⟨p, _, hp⟩ := List.mem_map.mp hc
    rw [← hp]
    exact hf p
  rw [hz _ (fun p => rfl), Nat.zero_add]
  obtain ⟨h1, h2⟩ := flowEdgeCellsAux_length
    (calculateFlowchartLayout m.nodes m.edges
      (m.direction = str "TD" || m.direction = str "TB" || m.direction = str "BT"))
    m.direction m.edges 2
  rw [countEdges_all_edges _ h2, h1]

theorem hasParticipant_append (ps : List Participant) (p : Participant) (n : Str)
    (h : hasParticipant ps n = true) : hasParticipant (ps ++ [p]) n = true := by
  simp only [hasParticipant, List.any_append, Bool.or_eq_true]
  exact Or.inl h

theorem hasParticipant_append_self (ps : List Participant) (p : Participant) :
    hasParticipant (ps ++ [p]) p.id = true := by
  simp [hasParticipant, List.any_append]

theorem hasParticipant_set (ps : List Participant) (p : Participant) (n : Str)
    (h : hasParticipant ps n = true) :
    hasParticipant (setParticipant ps p) n = true := by
  induction ps with
  | nil => simp [hasParticipant] at h
  | cons q rest ih =>
    unfold setParticipant
    simp only [hasParticipant, List.any_cons, Bool.or_eq_true, decide_eq_true_eq] at h
    by_cases hq : q.id = p.id
    · rw [if_pos hq]
      simp only [hasParticipant, List.any_cons, Bool.or_eq_true, decide_eq_true_eq]
      rcases h with h | h
      · exact Or.inl (by rw [← hq]; exact h)
      · exact Or.inr h
    · rw [if_neg hq]
      simp only [hasParticipant, List.any_cons, Bool.or_eq_true, decide_eq_true_eq]
      rcases h with h | h
      · exact Or.inl h
      · exact Or.inr (ih h)

/-- Both endpoints of every recorded message are registered participants. -/
def seqEndpointsOk (st : SeqState) : Prop :=
  ∀ g ∈ st.messages,
    hasParticipant st.participants g.src = true
    ∧ hasParticipant st.participants g.dst = true

theorem seqStep_endpoints (st : SeqState) (line : Str) (h : seqEndpointsOk st) :
    seqEndpointsOk (seqStep st line) := by
  unfold seqStep
  by_cases hskip :
      (decide (trim line = str "sequenceDiagram") || decide (trim line = [])) = true
  · rw [if_pos hskip]
    exact h
  · rw [if_neg hskip]
    cases hp : matchParticipant (trim line) with
    | some t =>
      obtain ⟨ty, pid, al⟩ := t
      intro g hg
      obtain ⟨h1, h2⟩ := h g hg
      exact ⟨hasParticipant_set _ _ _ h1, hasParticipant_set _ _ _ h2⟩
    | none =>
      cases hm : matchMessage (trim line) with
      | some t =>
        obtain ⟨src, arrow, dst, text⟩ := t
        dsimp only
        by_cases hs : hasParticipant st.participants src = true
        · rw [if_pos hs]
          by_cases hd : hasParticipant st.participants dst = true
          · rw [if_pos hd]
            intro g hg
            rcases List.mem_append.mp hg with hg | hg
            · exact h g hg
            · rw [List.mem_singleton] at hg
              rw [hg]
              exact ⟨hs, hd⟩
          · rw [if_neg hd]
            intro g hg
            rcases List.mem_append.mp hg with hg | hg
            · obtain ⟨h1, h2⟩ := h g hg
              exact ⟨hasParticipant_append _ _ _ h1, hasParticipant_append _ _ _ h2⟩
            · rw [List.mem_singleton] at hg
              rw [hg]
              exact ⟨hasParticipant_append _ _ _ hs,
                hasParticipant_append_self st.participants _⟩
        · rw [if_neg hs]
          by_cases hd :
              hasParticipant (st.participants ++ [⟨src, src, str "participant", st.order⟩])
                dst = true
          · rw [if_pos hd]
            intro g hg
            rcases List.mem_append.mp hg with hg | hg
            · obtain ⟨h1, h2⟩ := h g hg
              exact ⟨hasParticipant_append _ _ _ h1, hasParticipant_append _ _ _ h2⟩
            · rw [List.mem_singleton] at hg
              rw [hg]
              exact ⟨hasParticipant_append_self st.participants _, hd⟩
          · rw [if_neg hd]
            intro g hg
            rcases List.mem_append.mp hg with hg | hg
            · obtain ⟨h1, h2⟩ := h g hg
              exact ⟨hasParticipant_append _ _ _ (hasParticipant_append _ _ _ h1),
                hasParticipant_append _ _ _ (hasParticipant_append _ _ _ h2)⟩
            · rw [List.mem_singleton] at hg
              rw [hg]
              exact ⟨hasParticipant_append _ _ _
                  (hasParticipant_append_self st.participants _),
                hasParticipant_append_self _ _⟩
      | none =>
        cases hn : matchNote (trim line) with
        | some note => exact fun g hg => h g hg
        | none => exact h

theorem seqFold_endpoints (lines : List Str) (st : SeqState) (h : seqEndpointsOk st) :
    seqEndpointsOk (lines.foldl seqStep st) := by
  induction lines generalizing st with
  | nil => exact h
  | cons l rest ih => exact ih _ (seqStep_endpoints st l h)

theorem mem_insertByOrder (p q : Participant) (l : List Participant) :
    q ∈ insertByOrder p l ↔ q = p ∨ q ∈ l := by
  induction l with
  | nil => simp [insertByOrder]
  | cons r rest ih =>
    unfold insertByOrder
    by_cases hle : p.order ≤ r.order
    · rw [if_pos hle]
      simp [List.mem_cons]
    · rw [if_neg hle]
      simp only [List.mem_cons, ih]
      tauto

theorem mem_sortByOrder (ps : List Participant) (q : Participant) :
    q ∈ sortByOrder ps ↔ q ∈ ps := by
  induction ps with
  | nil => simp [sortByOrder]
  | cons p rest ih =>
    show q ∈ insertByOrder p (sortByOrder rest) ↔ _
    rw [mem_insertByOrder]
    simp [ih]

theorem hasParticipant_sortByOrder (ps : List Participant) (n : Str) :
    hasParticipant (sortByOrder ps) n = hasParticipant ps n := by
  simp only [hasParticipant]
  apply Bool.eq_iff_iff.mpr
  simp only [List.any_eq_true, decide_eq_true_eq]
  constructor
  · rintro ⟨p, hp, hid⟩
    exact ⟨p, (mem_sortByOrder ps p).mp hp, hid⟩
  · rintro ⟨p, hp, hid⟩
    exact ⟨p, (mem_sortByOrder ps p).mpr hp, hid⟩

theorem seqPositions_keys (ps : List Participant) :
    (seqPositions ps).map Prod.fst = ps.map Participant.id := by
  unfold seqPositions
  rw [List.map_map]
  have h : (Prod.fst ∘ fun p : ℕ × Participant =>
      (p.2.id, ((80 + 180 * (p.1 : ℤ), 80 + 180 * (p.1 : ℤ) + 50) : ℤ × ℤ))) =
      (Participant.id ∘ Prod.snd) := rfl
  rw [h, ← List.map_map, List.enum_map_snd]

theorem alookup_seqPositions (ps : List Participant) (n : Str)
    (h : hasParticipant ps n = true) :
    (alookup (seqPositions ps) n).isSome = true := by
  unfold hasParticipant at h
  rw [List.any_eq_true] at h
  obtain ⟨p, hp, hn⟩ := h
  rw [decide_eq_true_eq] at hn
  have hmem : n ∈ (seqPositions ps).map Prod.fst := by
    rw [seqPositions_keys]
    exact hn ▸ List.mem_map_of_mem Participant.id hp
  obtain ⟨v, hv⟩ := alookup_some_of_mem_keys _ _ hmem
  rw [hv]
  rfl

theorem seqMessageCellsAux_length (positions : List (Str × (ℤ × ℤ))) (msgTotal : ℕ) :
    ∀ (msgs : List SeqMessage),
      (∀ g ∈ msgs, (alookup positions g.src).isSome = true
        ∧ (alookup positions g.dst).isSome = true) →
      ∀ cid idx,
        (seqMessageCellsAux positions msgTotal cid idx msgs).length = msgs.length ∧
        ∀ c ∈ seqMessageCellsAux positions msgTotal cid idx msgs,
          c.kind = CellKind.edge := by
  intro msgs
  induction msgs with
  | nil => intro _ cid idx; exact ⟨rfl, by simp [seqMessageCellsAux]⟩
  | cons g rest ih =>
    intro h cid idx
    obtain ⟨h1, h2⟩ := h g (by simp)
    obtain ⟨p1, hp1⟩ := Option.isSome_iff_exists.mp h1
    obtain ⟨p2, hp2⟩ := Option.isSome_iff_exists.mp h2
    have ihr := ih (fun x hx => h x (by simp [hx])) (cid + 1) (idx + 1)
    constructor
    · simp only [seqMessageCellsAux, hp1, hp2, List.length_cons, ihr.1]
    · intro c hc
      simp only [seqMessageCellsAux, hp1, hp2, List.mem_cons] at hc
      rcases hc with hc | hc
      · rw [hc]
      · exact ihr.2 c hc

theorem seqNoteCellsAux_vertex (positions : List (Str × (ℤ × ℤ))) :
    ∀ (notes : List SeqNote) (cid idx : ℕ),
      ∀ c ∈ seqNoteCellsAux positions cid idx notes, c.kind = CellKind.vertex := by
  intro notes
  induction notes with
  | nil => intro cid idx c hc; simp [seqNoteCellsAux] at hc
  | cons note rest ih =>
    intro cid idx c hc
    unfold seqNoteCellsAux at hc
    cases hh : note.participants.head? with
    | none =>
      rw [hh] at hc
      exact ih cid (idx + 1) c hc
    | some fstP =>
      simp only [hh] at hc
      cases hl : alookup positions fstP with
      | none =>
        simp only [hl] at hc
        exact ih cid (idx + 1) c hc
      | some pos =>
        simp only [hl] at hc
        rcases List.mem_cons.mp hc with hc | hc
        · rw [hc]
          rfl
        · exact ih (cid + 1) (idx + 1) c hc

theorem seqCells_countEdges (m : SeqModel)
    (h : ∀ g ∈ m.messages, hasParticipant m.participants g.src = true
       ∧ hasParticipant m.participants g.dst = true) :
    countEdges (seqCells m) = m.messages.length := by
  unfold seqCells
  dsimp only
  rw [countEdges_append, countEdges_append]
  have hlk : ∀ g ∈ m.messages,
      (alookup (seqPositions m.participants) g.src).isSome = true ∧
      (alookup (seqPositions m.participants) g.dst).isSome = true := by
    intro g hg
    obtain ⟨h1, h2⟩ := h g hg
    exact ⟨alookup_seqPositions _ _ h1, alookup_seqPositions _ _ h2⟩
  obtain ⟨hm1, hm2⟩ :=
    seqMessageCellsAux_length (seqPositions m.participants) m.messages.length
      m.messages hlk 2 0
  have hp0 : ∀ (f : ℕ × Participant → List (Cell Geom)),
      (∀ p c, c ∈ f p → c.kind = CellKind.vertex) →
      countEdges (m.participants.enum.flatMap f) = 0 := by
    intro f hf
    apply countEdges_vertex_zero
    intro c hc
    obtain ⟨p, _, hp⟩ := List.mem_flatMap.mp hc
    exact hf p c hp
  have hn0 : countEdges (seqNoteCellsAux (seqPositions m.participants)
      (2 + (seqMessageCellsAux (seqPositions m.participants) m.messages.length 2 0
        m.messages).length) 0 m.notes) = 0 :=
    countEdges_vertex_zero _ (seqNoteCellsAux_vertex _ _ _ _)
  rw [hp0 _ (fun p c hc => by
        rcases List.mem_cons.mp hc with h2 | h2
        · rw [h2]; rfl
        · rcases List.mem_cons.mp h2 with h3 | h3
          · rw [h3]; rfl
          · simp at h3),
      hn0, countEdges_all_edges _ hm2, hm1]
  omega

/-- The sequence generator emits one message edge cell per recorded message:
the skip branch for an unknown endpoint is never taken, because the parser
auto-registers both endpoints of every message. -/
theorem seq_edge_conservation (input : Str) :
    countEdges (seqCells (parseSequenceDiagram input)) =
      (parseSequenceDiagram input).messages.length := by
  have hinv : seqEndpointsOk ((splitLines (trim input)).foldl seqStep ⟨[], [], [], 0⟩) :=
    seqFold_endpoints _ _ (by intro g hg; simp at hg)
  unfold parseSequenceDiagram
  apply seqCells_countEdges
  intro g hg
  obtain ⟨h1, h2⟩ := hinv g hg
  constructor
  · show hasParticipant (sortByOrder _) g.src = true
    rw [hasParticipant_sortByOrder]
    exact h1
  · show hasParticipant (sortByOrder _) g.dst = true
    rw [hasParticipant_sortByOrder]
    exact h2

theorem hasClass_add_self (cs : List ClassDef) (n : Str) :
    hasClass (addClassIfAbsent cs n) n = true := by
  unfold addClassIfAbsent
  by_cases h : hasClass cs n = true
  · rw [if_pos h]; exact h
  · rw [if_neg h]; simp [hasClass, List.any_append]

theorem hasClass_add_mono (cs : List ClassDef) (k n : Str)
    (h : hasClass cs n = true) : hasClass (addClassIfAbsent cs k) n = true := by
  unfold addClassIfAbsent
  by_cases hk : hasClass cs k = true
  · rw [if_pos hk]; exact h
  · rw [if_neg hk]
    simp only [hasClass, List.any_append, Bool.or_eq_true]
    exact Or.inl h

theorem hasClass_map_name (cs : List ClassDef) (f : ClassDef → ClassDef)
    (hf : ∀ c, (f c).name = c.name) (n : Str) :
    hasClass (cs.map f) n = hasClass cs n := by
  unfold hasClass
  rw [List.any_map]
  congr 1
  funext c
  simp [Function.comp, hf]

/-- Both endpoints of every recorded class relationship are registered
classes. -/
def classEndpointsOk (st : ClassState) : Prop :=
  ∀ r ∈ st.relationships,
    hasClass st.classes r.src = true ∧ hasClass st.classes r.dst = true

theorem classStep_endpoints (st : ClassState) (line : Str) (h : classEndpointsOk st) :
    classEndpointsOk (classStep st line) := by
  unfold classStep
  by_cases hskip :
      (decide (trim line = str "classDiagram") || decide (trim line = [])) = true
  · rw [if_pos hskip]
    exact h
  · rw [if_neg hskip]
    cases hcs : matchClassStart (trim line) with
    | some name =>
      intro r hr
      obtain ⟨h1, h2⟩ := h r hr
      exact ⟨hasClass_add_mono _ _ _ h1, hasClass_add_mono _ _ _ h2⟩
    | none =>
      by_cases hbr : trim line = ['\x7d']
      · rw [if_pos hbr]
        exact h
      · rw [if_neg hbr]
        cases han : matchAnnotation (trim line) with
        | some t =>
          obtain ⟨stereo, name⟩ := t
          dsimp only
          by_cases hh : hasClass st.classes name = true
          · rw [if_pos hh]
            intro r hr
            obtain ⟨h1, h2⟩ := h r hr
            refine ⟨?_, ?_⟩
            · rw [hasClass_map_name _ _ (fun c => by split <;> rfl)]
              exact h1
            · rw [hasClass_map_name _ _ (fun c => by split <;> rfl)]
              exact h2
          · rw [if_neg hh]
            intro r hr
            obtain ⟨h1, h2⟩ := h r hr
            constructor
            · simp only [hasClass, List.any_append, Bool.or_eq_true]
              exact Or.inl h1
            · simp only [hasClass, List.any_append, Bool.or_eq_true]
              exact Or.inl h2
        | none =>
          dsimp only
          cases hcur : st.current with
          | some cur =>
            cases hmm : matchMethod (trim line) with
            | some mth =>
              intro r hr
              obtain ⟨h1, h2⟩ := h r hr
              refine ⟨?_, ?_⟩
              · rw [hasClass_map_name _ _ (fun c => by split <;> rfl)]
                exact h1
              · rw [hasClass_map_name _ _ (fun c => by split <;> rfl)]
                exact h2
            | none =>
              cases hma : matchClassAttr (trim line) with
              | some a =>
                intro r hr
                obtain ⟨h1, h2⟩ := h r hr
                refine ⟨?_, ?_⟩
                · rw [hasClass_map_name _ _ (fun c => by split <;> rfl)]
                  exact h1
                · rw [hasClass_map_name _ _ (fun c => by split <;> rfl)]
                  exact h2
              | none =>
                cases hmr : matchClassRel (trim line) with
                | some rel =>
                  intro r hr
                  simp only [List.mem_append, List.mem_singleton] at hr
                  rcases hr with hr | hr
                  · obtain ⟨h1, h2⟩ := h r hr
                    exact ⟨hasClass_add_mono _ _ _ (hasClass_add_mono _ _ _ h1),
                      hasClass_add_mono _ _ _ (hasClass_add_mono _ _ _ h2)⟩
                  · subst hr
                    exact ⟨hasClass_add_mono _ _ _ (hasClass_add_self _ _),
                      hasClass_add_self _ _⟩
                | none => exact h
          | none =>
            cases hmr : matchClassRel (trim line) with
            | some rel =>
              intro r hr
              simp only [List.mem_append, List.mem_singleton] at hr
              rcases hr with hr | hr
              · obtain ⟨h1, h2⟩ := h r hr
                exact ⟨hasClass_add_mono _ _ _ (hasClass_add_mono _ _ _ h1),
                  hasClass_add_mono _ _ _ (hasClass_add_mono _ _ _ h2)⟩
              · subst hr
                exact ⟨hasClass_add_mono _ _ _ (hasClass_add_self _ _),
                  hasClass_add_self _ _⟩
            | none => exact h

theorem classFold_endpoints (lines : List Str) (st : ClassState)
    (h : classEndpointsOk st) : classEndpointsOk (lines.foldl classStep st) := by
  induction lines generalizing st with
  | nil => exact h
  | cons l rest ih => exact ih _ (classStep_endpoints st l h)

theorem classPositions_keys (cs : List ClassDef) :
    (classPositions cs).map Prod.fst = cs.map ClassDef.name := by
  unfold classPositions
  rw [List.map_map]
  have h : (Prod.fst ∘ fun p : ℕ × ClassDef => (p.2.name, classGeom p.1 p.2)) =
      (ClassDef.name ∘ Prod.snd) := rfl
  rw [h, ← List.map_map, List.enum_map_snd]

theorem alookup_classPositions (cs : List ClassDef) (n : Str)
    (h : hasClass cs n = true) :
    (alookup (classPositions cs) n).isSome = true := by
  unfold hasClass at h
  rw [List.any_eq_true] at h
  obtain ⟨e, he, hn⟩ := h
  rw [decide_eq_true_eq] at hn
  have hmem : n ∈ (classPositions cs).map Prod.fst := by
    rw [classPositions_keys]
    exact hn ▸ List.mem_map_of_mem ClassDef.name he
  obtain ⟨v, hv⟩ := alookup_some_of_mem_keys _ _ hmem
  rw [hv]
  rfl

theorem classEdgeCellsAux_length (pos : List (Str × Geom)) (rels : List ClassRel)
    (h : ∀ r ∈ rels,
      (alookup pos r.src).isSome = true ∧ (alookup pos r.dst).isSome = true) :
    ∀ cid, (classEdgeCellsAux pos cid rels).length = rels.length ∧
      ∀ c ∈ classEdgeCellsAux pos cid rels, c.kind = CellKind.edge := by
  induction rels with
  | nil => intro cid; exact ⟨rfl, by simp [classEdgeCellsAux]⟩
  | cons r rest ih =>
    intro cid
    obtain ⟨h1, h2⟩ := h r (by simp)
    obtain ⟨g1, hg1⟩ := Option.isSome_iff_exists.mp h1
    obtain ⟨g2, hg2⟩ := Option.isSome_iff_exists.mp h2
    have ihr := ih (fun x hx => h x (by simp [hx])) (cid + 1)
    constructor
    · simp only [classEdgeCellsAux, hg1, hg2, List.length_cons, ihr.1]
    · intro c hc
      simp only [classEdgeCellsAux, hg1, hg2, List.mem_cons] at hc
      rcases hc with hc | hc
      · rw [hc]
        rfl
      · exact ihr.2 c hc

theorem classCellBlock_vertex (i : ℕ) (c : ClassDef) :
    ∀ x ∈ classCellBlock i c, x.kind = CellKind.vertex := by
  intro x hx
  unfold classCellBlock at hx
  rcases List.mem_cons.mp hx with hx | hx
  · rw [hx]; rfl
  · rcases List.mem_append.mp hx with hx | hx
    · rcases List.mem_append.mp hx with hx | hx
      · obtain ⟨p, _, hp⟩ := List.mem_map.mp hx
        rw [← hp]
        rfl
      · by_cases hm : c.methods.length > 0
        · rw [if_pos hm] at hx
          rw [List.mem_singleton] at hx
          rw [hx]
          rfl
        · rw [if_neg hm] at hx
          simp at hx
    · obtain ⟨p, _, hp⟩ := List.mem_map.mp hx
      rw [← hp]
      rfl

theorem classCells_countEdges (m : ClassModel)
    (h : ∀ r ∈ m.relationships, hasClass m.classes r.src = true
       ∧ hasClass m.classes r.dst = true) :
    countEdges (classCells m) = m.relationships.length := by
  unfold classCells
  rw [countEdges_append]
  have hlk : ∀ r ∈ m.relationships,
      (alookup (classPositions m.classes) r.src).isSome = true ∧
      (alookup (classPositions m.classes) r.dst).isSome = true := by
    intro r hr
    obtain ⟨h1, h2⟩ := h r hr
    exact ⟨alookup_classPositions _ _ h1, alookup_classPositions _ _ h2⟩
  obtain ⟨he1, he2⟩ := classEdgeCellsAux_length (classPositions m.classes)
    m.relationships hlk 2
  have hz : countEdges (m.classes.enum.flatMap (fun p => classCellBlock p.1 p.2)) = 0 := by
    apply countEdges_vertex_zero
    intro c hc
    obtain ⟨p, _, hp⟩ := List.mem_flatMap.mp hc
    exact classCellBlock_vertex p.1 p.2 c hp
  rw [hz, countEdges_all_edges _ he2, he1]
  omega

/-- The class generator emits one relationship edge cell per recorded
relationship: the `continue` branch for a missing endpoint is never taken,
because the parser registers both endpoints of every relationship. -/
theorem class_edge_conservation (input : Str) :
    countEdges (classCells (parseClassDiagram input)) =
      (parseClassDiagram input).relationships.length := by
  have hinv : classEndpointsOk ((splitLines (trim input)).foldl classStep ⟨[], [], none⟩) :=
    classFold_endpoints _ _ (by intro r hr; simp at hr)
  unfold parseClassDiagram
  apply classCells_countEdges
  intro r hr
  exact hinv r hr

/-- C2 (amended): relationship conservation from parse to serialization
holds for the four pipelines whose canonical models record a
relationship/edge/message list.  The flowchart generator emits one edge cell
per model edge unconditionally; the ER, sequence and class generators each
have a silent-drop branch for an endpoint missing from the geometry map, but
their parsers auto-register every endpoint they record, so on parsed models
the branch is never taken and the edge-cell count equals the model count.
(The commit-graph model records no relationship list — its connectors are
derived from commit adjacency — and the mindmap pipeline refutes the
original universal claim; see the counterexample.) -/
theorem relationship_conservation :
    (∀ m : FlowModel, countEdges (flowCells m) = m.edges.length)
    ∧ (∀ input : Str, countEdges (erCells (parseERDiagram input)) =
        (parseERDiagram input).relationships.length)
    ∧ (∀ input : Str, countEdges (seqCells (parseSequenceDiagram input)) =
        (parseSequenceDiagram input).messages.length)
    ∧ (∀ input : Str, countEdges (classCells (parseClassDiagram input)) =
        (parseClassDiagram input).relationships.length) :=
  ⟨flow_edge_conservation, er_relationship_conservation, seq_edge_conservation,
   class_edge_conservation⟩

theorem nodeIdStr_inj (a b : ℕ) (h : nodeIdStr a = nodeIdStr b) : a = b :=
  toDec_inj (List.append_cancel_left h)

theorem mindFold_ids (lines : List Str) : ∀ (st : MState),
    st.nodes.map MNode.id = (List.range st.nodes.length).map nodeIdStr →
    (lines.foldl mindStep st).nodes.map MNode.id =
      (List.range (lines.foldl mindStep st).nodes.length).map nodeIdStr := by
  induction lines with
  | nil => intro st h; exact h
  | cons l rest ih =>
    intro st h
    apply ih
    unfold mindStep
    by_cases hskip : (decide (trim l = str "mindmap") || decide (trim l = [])) = true
    · rw [if_pos hskip]; exact h
    · rw [if_neg hskip]
      dsimp only
      rw [List.map_append, h]
      simp only [List.map_cons, List.map_nil, List.length_append, List.length_cons,
        List.length_nil, Nat.add_zero]
      rw [List.range_succ, List.map_append]
      rfl

theorem parseMindmap_ids_nodup (input : Str) :
    ((parseMindmap input).nodes.map MNode.id).Nodup := by
  unfold parseMindmap
  dsimp only
  rw [mindFold_ids _ _ (by rfl)]
  exact (List.nodup_range _).map (fun a b h => nodeIdStr_inj a b h)

theorem mindmapCellsAux_vertexIds_sublist (positions : List (Str × GeoR)) :
    ∀ (ns : List MNode) (cid : ℕ),
      (vertexIds (mindmapCellsAux positions cid ns)).Sublist (ns.map MNode.id) := by
  intro ns
  induction ns with
  | nil => intro cid; simp [mindmapCellsAux, vertexIds]
  | cons n rest ih =>
    intro cid
    unfold mindmapCellsAux
    cases hl : alookup positions n.id with
    | none =>
      exact List.Sublist.cons _ (ih cid)
    | some pos =>
      cases hp : n.parentId with
      | some pid =>
        cases hpp : alookup positions pid with
        | some g =>
          simp only [hp, hpp]
          rw [vertexIds_cons_v _ _ rfl, vertexIds_cons_e _ _ rfl]
          exact List.Sublist.cons₂ _ (ih (cid + 1))
        | none =>
          simp only [hp, hpp]
          rw [vertexIds_cons_v _ _ rfl]
          exact List.Sublist.cons₂ _ (ih cid)
      | none =>
        simp only [hp]
        rw [vertexIds_cons_v _ _ rfl]
        exact List.Sublist.cons₂ _ (ih cid)

theorem mindmap_vertexIds_nodup (input : Str) :
    (vertexIds (mindmapCells (parseMindmap input))).Nodup := by
  unfold mindmapCells
  cases hr : (parseMindmap input).root with
  | none => exact List.nodup_nil
  | some r =>
    exact List.Nodup.sublist (mindmapCellsAux_vertexIds_sublist _ _ 2)
      (parseMindmap_ids_nodup input)

theorem takeWhile_append_stop {p : Char → Bool} (n s : Str)
    (hn : ∀ c ∈ n, p c = true) (hs : ∀ c, s.head? = some c → p c = false) :
    (n ++ s).takeWhile p = n := by
  induction n with
  | nil =>
    cases s with
    | nil => rfl
    | cons c cs => simp [List.takeWhile_cons, hs c rfl]
  | cons c cs ih =>
    simp only [List.cons_append, List.takeWhile_cons, hn c (by simp)]
    simp only [if_true]
    rw [ih (fun y hy => hn y (by simp [hy]))]

theorem underscoreFree_mem (names : List Str) (h : underscoreFree names = true)
    (n : Str) (hn : n ∈ names) : ∀ c ∈ n, c ≠ '_' := by
  unfold underscoreFree at h
  rw [List.all_eq_true] at h
  have h2 := h n hn
  simp only [Bool.not_eq_true', List.any_eq_false, decide_eq_false_iff_not,
    decide_eq_true_eq] at h2
  exact h2

theorem pushAttr_names (es : List Entity) (n : Str) (a : ERAttr) :
    (pushAttr es n a).map Entity.name = es.map Entity.name := by
  induction es with
  | nil => rfl
  | cons e rest ih =>
    unfold pushAttr
    by_cases h : e.name = n
    · rw [if_pos h]; rfl
    · rw [if_neg h]
      rw [List.map_cons, List.map_cons, ih]

theorem addEntity_names_nodup (es : List Entity) (n : Str)
    (h : (es.map Entity.name).Nodup) :
    ((addEntityIfAbsent es n).map Entity.name).Nodup := by
  unfold addEntityIfAbsent
  by_cases hh : hasEntity es n = true
  · rw [if_pos hh]; exact h
  · rw [if_neg hh]
    rw [List.map_append]
    simp only [List.map_cons, List.map_nil]
    rw [List.nodup_append]
    refine ⟨h, List.nodup_singleton _, ?_⟩
    intro x hx hx2
    rw [List.mem_singleton] at hx2
    subst hx2
    obtain ⟨e, he, hen⟩ := List.mem_map.mp hx
    apply hh
    unfold hasEntity
    rw [List.any_eq_true]
    exact ⟨e, he, by rw [decide_eq_true_eq]; exact hen⟩

theorem erStep_names_nodup (st : ERState) (line : Str)
    (h : (st.entities.map Entity.name).Nodup) :
    (((erStep st line).entities).map Entity.name).Nodup := by
  unfold erStep
  by_cases hskip : (decide (trim line = str "erDiagram") || decide (trim line = [])) = true
  · rw [if_pos hskip]; exact h
  · rw [if_neg hskip]
    cases hrel : matchERRel (trim line) with
    | some rel => exact addEntity_names_nodup _ _ (addEntity_names_nodup _ _ h)
    | none =>
      cases hent : matchEntityStart (trim line) with
      | some n => exact addEntity_names_nodup _ _ h
      | none =>
        by_cases hclose : trim line = ['\x7d']
        · rw [if_pos hclose]; exact h
        · rw [if_neg hclose]
          cases hcur : st.currentEntity with
          | some cur =>
            cases hattr : matchERAttr (trim line) with
            | some a =>
              show ((pushAttr st.entities cur a).map Entity.name).Nodup
              rw [pushAttr_names]
              exact h
            | none => exact h
          | none => exact h

theorem parseERDiagram_names_nodup (input : Str) :
    ((parseERDiagram input).entities.map Entity.name).Nodup := by
  unfold parseERDiagram
  dsimp only
  have h : ∀ (lines : List Str) (st : ERState), (st.entities.map Entity.name).Nodup →
      ((lines.foldl erStep st).entities.map Entity.name).Nodup := by
    intro lines
    induction lines with
    | nil => exact fun st h => h
    | cons l rest ih => exact fun st hh => ih _ (erStep_names_nodup st l hh)
  exact h _ _ List.nodup_nil

theorem vertexIds_map_vcell {γ α : Type} (l : List α) (f : α → Cell γ)
    (hf : ∀ x, (f x).kind = CellKind.vertex) :
    vertexIds (l.map f) = l.map (fun x => (f x).id) := by
  induction l with
  | nil => rfl
  | cons x rest ih =>
    rw [List.map_cons, vertexIds_cons_v _ _ (hf x), ih, List.map_cons]

theorem vertexIds_edges_nil {γ : Type} (cells : List (Cell γ))
    (h : ∀ c ∈ cells, c.kind = CellKind.edge) : vertexIds cells = [] := by
  unfold vertexIds
  rw [List.filter_eq_nil_iff.mpr, List.map_nil]
  intro c hc
  simp [h c hc]

theorem vertexIds_flatMap {γ α : Type} (l : List α) (f : α → List (Cell γ)) :
    vertexIds (l.flatMap f) = l.flatMap (fun x => vertexIds (f x)) := by
  induction l with
  | nil => rfl
  | cons x rest ih =>
    rw [List.flatMap_cons, vertexIds_append, ih, List.flatMap_cons]

theorem erEdgeCellsAux_edges (pos : List (Str × Geom)) :
    ∀ (rels : List ERRel) (cid : ℕ),
      ∀ c ∈ erEdgeCellsAux pos cid rels, c.kind = CellKind.edge := by
  intro rels
  induction rels with
  | nil => intro cid c hc; simp [erEdgeCellsAux] at hc
  | cons r rest ih =>
    intro cid c hc
    unfold erEdgeCellsAux at hc
    cases h1 : alookup pos r.source with
    | none =>
      simp only [h1] at hc
      exact ih (cid + 1) c hc
    | some g1 =>
      cases h2 : alookup pos r.target with
      | none =>
        simp only [h1, h2] at hc
        exact ih (cid + 1) c hc
      | some g2 =>
        simp only [h1, h2] at hc
        rcases List.mem_cons.mp hc with hc | hc
        · rw [hc]; rfl
        · exact ih (cid + 1) c hc

/-- The vertex ids of one entity block: the entity name followed by its
`name_attr{i}` child ids. -/
def erBlockIds (e : Entity) : List Str :=
  e.name :: e.attributes.enum.map (fun q => e.name ++ str "_attr" ++ toDec q.1)

theorem vertexIds_erEntityCellBlock (i : ℕ) (e : Entity) :
    vertexIds (erEntityCellBlock i e) = erBlockIds e := by
  unfold erEntityCellBlock erBlockIds
  rw [vertexIds_cons_v _ _ rfl, vertexIds_map_vcell _ _ (fun x => rfl)]
  rfl

theorem attr_ids_eq (e : Entity) :
    e.attributes.enum.map (fun q => e.name ++ str "_attr" ++ toDec q.1)
      = (List.range e.attributes.length).map (fun i => e.name ++ str "_attr" ++ toDec i) := by
  rw [← List.enum_map_fst e.attributes, List.map_map]
  rfl

theorem erBlockIds_nodup (e : Entity) (hu : ∀ c ∈ e.name, c ≠ '_') :
    (erBlockIds e).Nodup := by
  unfold erBlockIds
  rw [List.nodup_cons]
  constructor
  · intro hmem
    obtain ⟨q, _, hq⟩ := List.mem_map.mp hmem
    have h1 : '_' ∈ e.name ++ str "_attr" ++ toDec q.1 :=
      List.mem_append_left _ (List.mem_append_right _ (by decide))
    rw [hq] at h1
    exact hu '_' h1 rfl
  · rw [attr_ids_eq]
    apply (List.nodup_range _).map
    intro a b hab
    have hab2 : (e.name ++ str "_attr") ++ toDec a = (e.name ++ str "_attr") ++ toDec b := hab
    exact toDec_inj (List.append_cancel_left hab2)

theorem erBlockIds_owner (e : Entity) (hu : ∀ c ∈ e.name, c ≠ '_') (x : Str)
    (hx : x ∈ erBlockIds e) :
    x.takeWhile (fun c => ! decide (c = '_')) = e.name := by
  unfold erBlockIds at hx
  rcases List.mem_cons.mp hx with hx | hx
  · subst hx
    apply takeWhile_all
    intro c hc
    simp [hu c hc]
  · obtain ⟨q, _, hq⟩ := List.mem_map.mp hx
    rw [← hq, List.append_assoc]
    refine takeWhile_append_stop e.name (str "_attr" ++ toDec q.1) ?_ ?_
    · intro c hc
      simp [hu c hc]
    · intro c hc
      have h2 : c = '_' := by
        have h3 : (str "_attr" ++ toDec q.1).head? = some '_' := rfl
        rw [h3] at hc
        injection hc with hc
        exact hc.symm
      subst h2
      simp

theorem erVertexIds_nodup (m : ERModel)
    (hn : (m.entities.map Entity.name).Nodup)
    (hu : underscoreFree (m.entities.map Entity.name) = true) :
    (vertexIds (erCells m)).Nodup := by
  unfold erCells
  rw [vertexIds_append, vertexIds_edges_nil _ (erEdgeCellsAux_edges _ _ _),
    List.append_nil, vertexIds_flatMap]
  have hfun : (fun p : ℕ × Entity => vertexIds (erEntityCellBlock p.1 p.2))
      = (fun p : ℕ × Entity => erBlockIds p.2) :=
    funext (fun p => vertexIds_erEntityCellBlock p.1 p.2)
  rw [hfun]
  have henum : m.entities.enum.flatMap (fun p : ℕ × Entity => erBlockIds p.2)
      = m.entities.flatMap erBlockIds := by
    conv_rhs => rw [← List.enum_map_snd m.entities]
    rw [List.flatMap_map]
  rw [henum, List.nodup_flatMap]
  constructor
  · intro e he
    exact erBlockIds_nodup e
      (underscoreFree_mem _ hu _ (List.mem_map_of_mem Entity.name he))
  · have hpw : m.entities.Pairwise (fun a b => a.name ≠ b.name) :=
      List.pairwise_map.mp hn
    refine List.Pairwise.imp_of_mem ?_ hpw
    intro a b ha hb hne
    intro x hxa hxb
    have hua := underscoreFree_mem _ hu _ (List.mem_map_of_mem Entity.name ha)
    have hub := underscoreFree_mem _ hu _ (List.mem_map_of_mem Entity.name hb)
    have h1 := erBlockIds_owner a hua x hxa
    have h2 := erBlockIds_owner b hub x hxb
    exact hne (h1 ▸ h2)

theorem addClass_names_nodup (cs : List ClassDef) (n : Str)
    (h : (cs.map ClassDef.name).Nodup) :
    ((addClassIfAbsent cs n).map ClassDef.name).Nodup := by
  unfold addClassIfAbsent
  by_cases hh : hasClass cs n = true
  · rw [if_pos hh]; exact h
  · rw [if_neg hh]
    rw [List.map_append]
    simp only [List.map_cons, List.map_nil]
    rw [List.nodup_append]
    refine ⟨h, List.nodup_singleton _, ?_⟩
    intro x hx hx2
    rw [List.mem_singleton] at hx2
    subst hx2
    obtain ⟨e, he, hen⟩ := List.mem_map.mp hx
    apply hh
    unfold hasClass
    rw [List.any_eq_true]
    exact ⟨e, he, by rw [decide_eq_true_eq]; exact hen⟩

theorem map_name_eq (cs : List ClassDef) (f : ClassDef → ClassDef)
    (hf : ∀ c, (f c).name = c.name) :
    (cs.map f).map ClassDef.name = cs.map ClassDef.name := by
  rw [List.map_map]
  have h : (ClassDef.name ∘ f) = ClassDef.name := funext hf
  rw [h]

theorem classStep_names_nodup (st : ClassState) (line : Str)
    (h : (st.classes.map ClassDef.name).Nodup) :
    (((classStep st line).classes).map ClassDef.name).Nodup := by
  unfold classStep
  by_cases hskip :
      (decide (trim line = str "classDiagram") || decide (trim line = [])) = true
  · rw [if_pos hskip]; exact h
  · rw [if_neg hskip]
    cases hcs : matchClassStart (trim line) with
    | some name => exact addClass_names_nodup _ _ h
    | none =>
      by_cases hbr : trim line = ['\x7d']
      · rw [if_pos hbr]; exact h
      · rw [if_neg hbr]
        cases han : matchAnnotation (trim line) with
        | some t =>
          obtain ⟨stereo, name⟩ := t
          dsimp only
          by_cases hh : hasClass st.classes name = true
          · rw [if_pos hh]
            show ((st.classes.map _).map ClassDef.name).Nodup
            rw [map_name_eq _ _ (fun c => by split <;> rfl)]
            exact h
          · rw [if_neg hh]
            rw [List.map_append]
            simp only [List.map_cons, List.map_nil]
            rw [List.nodup_append]
            refine ⟨h, List.nodup_singleton _, ?_⟩
            intro x hx hx2
            rw [List.mem_singleton] at hx2
            subst hx2
            obtain ⟨e, he, hen⟩ := List.mem_map.mp hx
            apply hh
            unfold hasClass
            rw [List.any_eq_true]
            exact ⟨e, he, by rw [decide_eq_true_eq]; exact hen⟩
        | none =>
          dsimp only
          cases hcur : st.current with
          | some cur =>
            cases hmm : matchMethod (trim line) with
            | some mth =>
              show ((st.classes.map _).map ClassDef.name).Nodup
              rw [map_name_eq _ _ (fun c => by split <;> rfl)]
              exact h
            | none =>
              cases hma : matchClassAttr (trim line) with
              | some a =>
                show ((st.classes.map _).map ClassDef.name).Nodup
                rw [map_name_eq _ _ (fun c => by split <;> rfl)]
                exact h
              | none =>
                cases hmr : matchClassRel (trim line) with
                | some rel => exact addClass_names_nodup _ _ (addClass_names_nodup _ _ h)
                | none => exact h
          | none =>
            cases hmr : matchClassRel (trim line) with
            | some rel => exact addClass_names_nodup _ _ (addClass_names_nodup _ _ h)
            | none => exact h

theorem parseClassDiagram_names_nodup (input : Str) :
    ((parseClassDiagram input).classes.map ClassDef.name).Nodup := by
  unfold parseClassDiagram
  dsimp only
  have h : ∀ (lines : List Str) (st : ClassState), (st.classes.map ClassDef.name).Nodup →
      ((lines.foldl classStep st).classes.map ClassDef.name).Nodup := by
    intro lines
    induction lines with
    | nil => exact fun st hh => hh
    | cons l rest ih => exact fun st hh => ih _ (classStep_names_nodup st l hh)
  exact h _ _ List.nodup_nil

theorem ne_of_second (a b : Str) (c1 c2 : Char)
    (h1 : (a.drop 1).head? = some c1) (h2 : (b.drop 1).head? = some c2)
    (hne : c1 ≠ c2) : a ≠ b := by
  intro he
  rw [he, h2] at h1
  injection h1 with h1
  exact hne h1.symm

/-- The vertex ids of one class block: container, `name_attr{i}` rows, the
`name_sep` separator when methods exist, and `name_method{i}` rows. -/
def classBlockIds (c : ClassDef) : List Str :=
  c.name ::
    (c.attributes.enum.map (fun p => c.name ++ str "_attr" ++ toDec p.1) ++
     (if c.methods.length > 0 then [c.name ++ str "_sep"] else []) ++
     c.methods.enum.map (fun p => c.name ++ str "_method" ++ toDec p.1))

theorem vertexIds_classCellBlock (i : ℕ) (c : ClassDef) :
    vertexIds (classCellBlock i c) = classBlockIds c := by
  unfold classCellBlock classBlockIds
  dsimp only
  by_cases hm : c.methods.length > 0
  · rw [if_pos hm, if_pos hm, vertexIds_cons_v _ _ rfl, vertexIds_append,
      vertexIds_append, vertexIds_map_vcell _ _ (fun x => rfl),
      vertexIds_map_vcell _ _ (fun x => rfl), vertexIds_cons_v _ _ rfl]
    rfl
  · rw [if_neg hm, if_neg hm, vertexIds_cons_v _ _ rfl, vertexIds_append,
      vertexIds_append, vertexIds_map_vcell _ _ (fun x => rfl),
      vertexIds_map_vcell _ _ (fun x => rfl)]
    rfl

theorem member_ids_eq (nm : Str) (tag : Str) {α : Type} (l : List α) :
    l.enum.map (fun p => nm ++ tag ++ toDec p.1)
      = (List.range l.length).map (fun i => nm ++ tag ++ toDec i) := by
  rw [← List.enum_map_fst l, List.map_map]
  rfl

theorem member_ids_nodup (nm : Str) (tag : Str) {α : Type} (l : List α) :
    (l.enum.map (fun p => nm ++ tag ++ toDec p.1)).Nodup := by
  rw [member_ids_eq]
  apply (List.nodup_range _).map
  intro a b hab
  have hab2 : (nm ++ tag) ++ toDec a = (nm ++ tag) ++ toDec b := hab
  exact toDec_inj (List.append_cancel_left hab2)

theorem mem_member_ids (nm : Str) (tag : Str) {α : Type} (l : List α) (x : Str)
    (hx : x ∈ l.enum.map (fun p => nm ++ tag ++ toDec p.1)) :
    ∃ i, x = (nm ++ tag) ++ toDec i := by
  obtain ⟨p, _, hp⟩ := List.mem_map.mp hx
  exact ⟨p.1, hp.symm⟩

theorem classBlockIds_nodup (c : ClassDef) (hu : ∀ ch ∈ c.name, ch ≠ '_') :
    (classBlockIds c).Nodup := by
  unfold classBlockIds
  rw [List.nodup_cons]
  have hattr_ne_sep : ∀ i, (c.name ++ str "_attr") ++ toDec i ≠ c.name ++ str "_sep" := by
    intro i he
    rw [List.append_assoc] at he
    have h2 := List.append_cancel_left he
    exact ne_of_second (str "_attr" ++ toDec i) (str "_sep") 'a' 's' rfl rfl (by decide) h2
  have hattr_ne_method : ∀ i j,
      (c.name ++ str "_attr") ++ toDec i ≠ (c.name ++ str "_method") ++ toDec j := by
    intro i j he
    rw [List.append_assoc, List.append_assoc] at he
    have h2 := List.append_cancel_left he
    exact ne_of_second (str "_attr" ++ toDec i) (str "_method" ++ toDec j) 'a' 'm' rfl rfl (by decide) h2
  have hsep_ne_method : ∀ j,
      c.name ++ str "_sep" ≠ (c.name ++ str "_method") ++ toDec j := by
    intro j he
    rw [List.append_assoc] at he
    have h2 := List.append_cancel_left he
    exact ne_of_second (str "_sep") (str "_method" ++ toDec j) 's' 'm' rfl rfl (by decide) h2
  constructor
  · intro hmem
    have hu2 : '_' ∈ c.name → False := fun hin => hu '_' hin rfl
    rcases List.mem_append.mp hmem with hmem | hmem
    · rcases List.mem_append.mp hmem with hmem | hmem
      · obtain ⟨i, hi⟩ := mem_member_ids _ _ _ _ ((List.mem_map.mp hmem).elim
          (fun p hp => List.mem_map.mpr ⟨p, hp.1, hp.2⟩))
        have h1 : '_' ∈ (c.name ++ str "_attr") ++ toDec i :=
          List.mem_append_left _ (List.mem_append_right _ (by decide))
        rw [← hi] at h1
        exact hu2 h1
      · by_cases hmth : c.methods.length > 0
        · rw [if_pos hmth, List.mem_singleton] at hmem
          have h1 : '_' ∈ c.name ++ str "_sep" :=
            List.mem_append_right _ (by decide)
          rw [← hmem] at h1
          exact hu2 h1
        · rw [if_neg hmth] at hmem
          simp at hmem
    · obtain ⟨i, hi⟩ := mem_member_ids _ _ _ _ hmem
      have h1 : '_' ∈ (c.name ++ str "_method") ++ toDec i :=
        List.mem_append_left _ (List.mem_append_right _ (by decide))
      rw [← hi] at h1
      exact hu2 h1
  · rw [List.nodup_append, List.nodup_append]
    refine ⟨⟨member_ids_nodup _ _ _, ?_, ?_⟩, member_ids_nodup _ _ _, ?_⟩
    · by_cases hmth : c.methods.length > 0
      · rw [if_pos hmth]
        exact List.nodup_singleton _
      · rw [if_neg hmth]
        exact List.nodup_nil
    · intro x hx hx2
      obtain ⟨i, hi⟩ := mem_member_ids _ _ _ _ hx
      by_cases hmth : c.methods.length > 0
      · rw [if_pos hmth, List.mem_singleton] at hx2
        exact hattr_ne_sep i (hi ▸ hx2)
      · rw [if_neg hmth] at hx2
        simp at hx2
    · intro x hx hx2
      obtain ⟨j, hj⟩ := mem_member_ids _ _ _ _ hx2
      rcases List.mem_append.mp hx with hx | hx
      · obtain ⟨i, hi⟩ := mem_member_ids _ _ _ _ hx
        exact hattr_ne_method i j (by rw [← hi, ← hj])
      · by_cases hmth : c.methods.length > 0
        · rw [if_pos hmth, List.mem_singleton] at hx
          exact hsep_ne_method j (by rw [← hx, ← hj])
        · rw [if_neg hmth] at hx
          simp at hx

theorem classBlockIds_owner (c : ClassDef) (hu : ∀ ch ∈ c.name, ch ≠ '_') (x : Str)
    (hx : x ∈ classBlockIds c) :
    x.takeWhile (fun ch => ! decide (ch = '_')) = c.name := by
  have hname : ∀ ch ∈ c.name, (fun ch => ! decide (ch = '_')) ch = true := by
    intro ch hch
    simp [hu ch hch]
  unfold classBlockIds at hx
  rcases List.mem_cons.mp hx with hx | hx
  · subst hx
    exact takeWhile_all _ hname
  · rcases List.mem_append.mp hx with hx | hx
    · rcases List.mem_append.mp hx with hx | hx
      · obtain ⟨i, hi⟩ := mem_member_ids _ _ _ _ hx
        subst hi
        rw [List.append_assoc]
        refine takeWhile_append_stop c.name (str "_attr" ++ toDec i) hname ?_
        intro ch hch
        have h3 : ((str "_attr" ++ toDec i) : Str).head? = some '_' := rfl
        rw [h3] at hch
        injection hch with hch
        subst hch
        simp
      · by_cases hmth : c.methods.length > 0
        · rw [if_pos hmth, List.mem_singleton] at hx
          subst hx
          refine takeWhile_append_stop c.name (str "_sep") hname ?_
          intro ch hch
          have h3 : ((str "_sep") : Str).head? = some '_' := rfl
          rw [h3] at hch
          injection hch with hch
          subst hch
          simp
        · rw [if_neg hmth] at hx
          simp at hx
    · obtain ⟨i, hi⟩ := mem_member_ids _ _ _ _ hx
      subst hi
      rw [List.append_assoc]
      refine takeWhile_append_stop c.name (str "_method" ++ toDec i) hname ?_
      intro ch hch
      have h3 : ((str "_method" ++ toDec i) : Str).head? = some '_' := rfl
      rw [h3] at hch
      injection hch with hch
      subst hch
      simp

theorem classEdgeCellsAux_edges (pos : List (Str × Geom)) :
    ∀ (rels : List ClassRel) (cid : ℕ),
      ∀ c ∈ classEdgeCellsAux pos cid rels, c.kind = CellKind.edge := by
  intro rels
  induction rels with
  | nil => intro cid c hc; simp [classEdgeCellsAux] at hc
  | cons r rest ih =>
    intro cid c hc
    unfold classEdgeCellsAux at hc
    cases h1 : alookup pos r.src with
    | none =>
      simp only [h1] at hc
      exact ih (cid + 1) c hc
    | some g1 =>
      cases h2 : alookup pos r.dst with
      | none =>
        simp only [h1, h2] at hc
        exact ih (cid + 1) c hc
      | some g2 =>
        simp only [h1, h2] at hc
        rcases List.mem_cons.mp hc with hc | hc
        · rw [hc]; rfl
        · exact ih (cid + 1) c hc

theorem classVertexIds_nodup (m : ClassModel)
    (hn : (m.classes.map ClassDef.name).Nodup)
    (hu : underscoreFree (m.classes.map ClassDef.name) = true) :
    (vertexIds (classCells m)).Nodup := by
  unfold classCells
  rw [vertexIds_append, vertexIds_edges_nil _ (classEdgeCellsAux_edges _ _ _),
    List.append_nil, vertexIds_flatMap]
  have hfun : (fun p : ℕ × ClassDef => vertexIds (classCellBlock p.1 p.2))
      = (fun p : ℕ × ClassDef => classBlockIds p.2) :=
    funext (fun p => vertexIds_classCellBlock p.1 p.2)
  rw [hfun]
  have henum : m.classes.enum.flatMap (fun p : ℕ × ClassDef => classBlockIds p.2)
      = m.classes.flatMap classBlockIds := by
    conv_rhs => rw [← List.enum_map_snd m.classes]
    rw [List.flatMap_map]
  rw [henum, List.nodup_flatMap]
  constructor
  · intro e he
    exact classBlockIds_nodup e
      (underscoreFree_mem _ hu _ (List.mem_map_of_mem ClassDef.name he))
  · have hpw : m.classes.Pairwise (fun a b => a.name ≠ b.name) :=
      List.pairwise_map.mp hn
    refine List.Pairwise.imp_of_mem ?_ hpw
    intro a b ha hb hne
    intro x hxa hxb
    have hua := underscoreFree_mem _ hu _ (List.mem_map_of_mem ClassDef.name ha)
    have hub := underscoreFree_mem _ hu _ (List.mem_map_of_mem ClassDef.name hb)
    have h1 := classBlockIds_owner a hua x hxa
    have h2 := classBlockIds_owner b hub x hxb
    exact hne (h1 ▸ h2)

/-- C7 (amended): the serialized output never contains two vertex cells with
the same id, family by family under the conditions the id constructions
actually guarantee: for commit-graph inputs whenever no commit line carries
a user-supplied `id:"..."` argument (generated commit ids come from a
strictly increasing counter, branch label and tag ids live under the
`branch_`/`tag_` prefixes); for mindmaps unconditionally (node ids are the
generated `node{i}`); for ER and class diagrams whenever the declared names
contain no underscore — an underscore lets a user-chosen name such as
`X_attr0` collide with a generator-constructed child id, and a user-supplied
commit id can repeat verbatim, so both side conditions are necessary (see
the counterexample). -/
theorem no_duplicate_vertex_ids :
    (∀ (input : Str) (m : GitModel), parseGitGraph input = some m →
      noUserIds input = true → (vertexIds (gitCells m)).Nodup)
    ∧ (∀ input : Str, (vertexIds (mindmapCells (parseMindmap input))).Nodup)
    ∧ (∀ input : Str,
        underscoreFree ((parseERDiagram input).entities.map Entity.name) = true →
        (vertexIds (erCells (parseERDiagram input))).Nodup)
    ∧ (∀ input : Str,
        underscoreFree ((parseClassDiagram input).classes.map ClassDef.name) = true →
        (vertexIds (classCells (parseClassDiagram input))).Nodup) :=
  ⟨gitgraph_vertex_ids_nodup, mindmap_vertexIds_nodup,
   fun input hu => erVertexIds_nodup _ (parseERDiagram_names_nodup input) hu,
   fun input hu => classVertexIds_nodup _ (parseClassDiagram_names_nodup input) hu⟩

/-- Witness for the no-duplicate-ids theorem: one concrete input per family,
with every side condition discharged by computation. -/
theorem no_duplicate_vertex_ids_witness :
    (vertexIds (gitCells
      ⟨[⟨str "c0", some (str "v1"), str "NORMAL", str "main", none⟩,
        ⟨str "c1", none, str "NORMAL", str "dev", none⟩],
       [⟨str "main", [str "c0"], none⟩,
        ⟨str "dev", [str "c1"], some (str "main")⟩]⟩)).Nodup
    ∧ (vertexIds (mindmapCells (parseMindmap (str "mindmap\nRoot\n  A\n  B")))).Nodup
    ∧ (vertexIds (erCells (parseERDiagram
        (str "erDiagram\nX \x7b\n  int a\n\x7d")))).Nodup
    ∧ (vertexIds (classCells (parseClassDiagram
        (str "classDiagram\nclass X \x7b\n+a: int\n+f(): int\n\x7d\nX --> Y")))).Nodup :=
  ⟨no_duplicate_vertex_ids.1 (str "gitGraph\ncommit tag:\"v1\"\nbranch dev\ncommit")
      ⟨[⟨str "c0", some (str "v1"), str "NORMAL", str "main", none⟩,
        ⟨str "c1", none, str "NORMAL", str "dev", none⟩],
       [⟨str "main", [str "c0"], none⟩,
        ⟨str "dev", [str "c1"], some (str "main")⟩]⟩ (by decide) (by decide),
   no_duplicate_vertex_ids.2.1 (str "mindmap\nRoot\n  A\n  B"),
   no_duplicate_vertex_ids.2.2.1 (str "erDiagram\nX \x7b\n  int a\n\x7d") (by decide),
   no_duplicate_vertex_ids.2.2.2
     (str "classDiagram\nclass X \x7b\n+a: int\n+f(): int\n\x7d\nX --> Y") (by decide)⟩
